import Mathlib

/-!
Verification development for the kubectl-create-resource plugin.

The Go sources are embedded shallowly:

* Go `interface{}` values that hold JSON-like data (`map[string]interface{}`,
  `[]interface{}`, scalars) are modelled by the mutual inductive family
  `Value` / `VList` / `VObj` below.  A Go map is represented canonically as an
  association list sorted strictly by byte-wise key order (`VObj`); Go maps are
  unordered, so any function whose result could depend on iteration order is
  either quantified over permutations in the theorems or provably
  order-independent.
* Go `int64` is `Int` with explicit range checks where the source checks
  overflow (`strconv.ParseInt`).  Go `float64` results of `strconv.ParseFloat`
  are modelled exactly as a decimal numerator/power-of-ten pair
  (`Value.float num den`), abstracting IEEE-754 rounding; no claim depends on
  rounding.
* Fallible Go functions returning `(T, error)` become `Except String T` or
  `Option T`.
* Interactive terminal prompting (the external promptui library) is modelled
  by a response oracle passed explicitly to the collection functions.
-/

namespace KCR

/-! ## Byte-wise string order (Go's `<` on strings, `sort.Strings`) -/

/-- Strict byte-wise (here: codepoint-wise) order on character lists.
UTF-8 byte order coincides with codepoint order, so this models Go's
string comparison. -/
def charsLt : List Char → List Char → Bool
  | [], [] => false
  | [], _ :: _ => true
  | _ :: _, [] => false
  | c :: cs, d :: ds =>
    if c.val.toNat < d.val.toNat then true
    else if d.val.toNat < c.val.toNat then false
    else charsLt cs ds

/-- Strict string order, Go `a < b`. -/
def strLt (a b : String) : Bool := charsLt a.data b.data

/-- Non-strict string order, Go `a <= b`. -/
def strLe (a b : String) : Bool := a = b || strLt a b

/-- Insert a string into a (sorted) list of strings, keeping order.
Helper for the model of Go's `sort.Strings`. -/
def insertSorted (x : String) : List String → List String
  | [] => [x]
  | y :: ys => if strLe x y then x :: y :: ys else y :: insertSorted x ys

/-- Model of Go's `sort.Strings`: produces the sorted permutation of the
input (insertion sort; `sort.Strings` uses a different algorithm but on a
total order the sorted permutation is unique up to equal elements, and we
prove sortedness and permutation below). -/
def sortStrings : List String → List String
  | [] => []
  | x :: xs => insertSorted x (sortStrings xs)

/-! ## The value model: Go's `interface{}` JSON-like data -/

mutual
/-- A dynamic value as used by the Go sources through `interface{}`:
booleans, `int64`, `float64` (modelled as exact decimal `num / 10 ^ den`),
strings, `[]interface{}` and `map[string]interface{}`.  `Value.null` models
the untyped Go `nil` that `setNestedValue` uses to pad arrays. -/
inductive Value where
  | null : Value
  | bool (b : Bool) : Value
  | int (n : Int) : Value
  | float (num : Int) (den : Nat) : Value
  | str (s : String) : Value
  | arr (elems : VList) : Value
  | obj (entries : VObj) : Value

/-- A `[]interface{}` slice of dynamic values. -/
inductive VList where
  | nil : VList
  | cons (hd : Value) (tl : VList) : VList

/-- A `map[string]interface{}`, represented canonically as an association
list sorted strictly by `strLt` on the keys. -/
inductive VObj where
  | nil : VObj
  | cons (k : String) (v : Value) (tl : VObj) : VObj
end

mutual
/-- Boolean equality on dynamic values. -/
def Value.beq : Value → Value → Bool
  | .null, .null => true
  | .bool a, .bool b => a == b
  | .int a, .int b => a == b
  | .float a b, .float c d => a == c && b == d
  | .str a, .str b => a == b
  | .arr a, .arr b => VList.beq a b
  | .obj a, .obj b => VObj.beq a b
  | _, _ => false

/-- Boolean equality on slices of dynamic values. -/
def VList.beq : VList → VList → Bool
  | .nil, .nil => true
  | .cons a as, .cons b bs => Value.beq a b && VList.beq as bs
  | _, _ => false

/-- Boolean equality on dynamic maps. -/
def VObj.beq : VObj → VObj → Bool
  | .nil, .nil => true
  | .cons k a as, .cons l b bs => k == l && Value.beq a b && VObj.beq as bs
  | _, _ => false
end

mutual
theorem Value.eq_of_beq_val : ∀ {a b : Value}, Value.beq a b = true → a = b
  | .null, .null, _ => rfl
  | .bool _, .bool _, h => by
    simp only [Value.beq, beq_iff_eq] at h; rw [h]
  | .int _, .int _, h => by
    simp only [Value.beq, beq_iff_eq] at h; rw [h]
  | .float _ _, .float _ _, h => by
    simp only [Value.beq, Bool.and_eq_true, beq_iff_eq] at h
    rw [h.1, h.2]
  | .str _, .str _, h => by
    simp only [Value.beq, beq_iff_eq] at h; rw [h]
  | .arr a, .arr b, h => by
    simp only [Value.beq] at h
    rw [VList.eq_of_beq_list h]
  | .obj a, .obj b, h => by
    simp only [Value.beq] at h
    rw [VObj.eq_of_beq h]

theorem VList.eq_of_beq_list : ∀ {a b : VList}, VList.beq a b = true → a = b
  | .nil, .nil, _ => rfl
  | .cons a as, .cons b bs, h => by
    simp only [VList.beq, Bool.and_eq_true] at h
    rw [Value.eq_of_beq_val h.1, VList.eq_of_beq_list h.2]

theorem VObj.eq_of_beq : ∀ {a b : VObj}, VObj.beq a b = true → a = b
  | .nil, .nil, _ => rfl
  | .cons k a as, .cons l b bs, h => by
    simp only [VObj.beq, Bool.and_eq_true, beq_iff_eq] at h
    rw [h.1.1, Value.eq_of_beq_val h.1.2, VObj.eq_of_beq h.2]
end

mutual
theorem Value.beq_self_val : ∀ (a : Value), Value.beq a a = true
  | .null => rfl
  | .bool b => by simp [Value.beq]
  | .int n => by simp [Value.beq]
  | .float m d => by simp [Value.beq]
  | .str s => by simp [Value.beq]
  | .arr a => by simp only [Value.beq]; exact VList.beq_self_list a
  | .obj a => by simp only [Value.beq]; exact VObj.beq_self a

theorem VList.beq_self_list : ∀ (a : VList), VList.beq a a = true
  | .nil => rfl
  | .cons a as => by
    simp only [VList.beq, Bool.and_eq_true]
    exact ⟨Value.beq_self_val a, VList.beq_self_list as⟩

theorem VObj.beq_self : ∀ (a : VObj), VObj.beq a a = true
  | .nil => rfl
  | .cons k a as => by
    simp only [VObj.beq, Bool.and_eq_true, beq_self_eq_true, true_and]
    exact ⟨Value.beq_self_val a, VObj.beq_self as⟩
end

instance : DecidableEq Value := fun a b =>
  if h : Value.beq a b = true then .isTrue (Value.eq_of_beq_val h)
  else .isFalse (fun e => h (e ▸ Value.beq_self_val a))

instance : DecidableEq VList := fun a b =>
  if h : VList.beq a b = true then .isTrue (VList.eq_of_beq_list h)
  else .isFalse (fun e => h (e ▸ VList.beq_self_list a))

instance : DecidableEq VObj := fun a b =>
  if h : VObj.beq a b = true then .isTrue (VObj.eq_of_beq h)
  else .isFalse (fun e => h (e ▸ VObj.beq_self a))

/-- Convert a plain list of values into a `VList` (notation helper). -/
def VList.ofList : List Value → VList
  | [] => .nil
  | v :: vs => .cons v (VList.ofList vs)

/-- Convert an association list into a `VObj` (notation helper; callers are
responsible for sortedness where it matters). -/
def VObj.ofList : List (String × Value) → VObj
  | [] => .nil
  | (k, v) :: e => .cons k v (VObj.ofList e)

/-! ## Basic operations on the dynamic collections -/

/-- Length of a `VList` (Go `len`). -/
def VList.length : VList → Nat
  | .nil => 0
  | .cons _ tl => tl.length + 1

/-- Index into a `VList` (Go `arr[i]` read, out of range gives `none`). -/
def VList.get? : VList → Nat → Option Value
  | .nil, _ => none
  | .cons v _, 0 => some v
  | .cons _ tl, n + 1 => tl.get? n

/-- Write an index of a `VList` (Go `arr[i] = v`; out of range is ignored,
the sources only write in-range indices after padding). -/
def VList.set : VList → Nat → Value → VList
  | .nil, _, _ => .nil
  | .cons _ tl, 0, v => .cons v tl
  | .cons w tl, n + 1, v => .cons w (tl.set n v)

/-- A slice of `n` Go `nil`s: models `make([]interface{}, n)`. -/
def VList.nulls : Nat → VList
  | 0 => .nil
  | n + 1 => .cons .null (VList.nulls n)

/-- Pad a slice with `nil`s to length at least `n`: models the
`for len(arr) <= index { arr = append(arr, nil) }` loops. -/
def VList.padTo (a : VList) (n : Nat) : VList :=
  match a, n with
  | a, 0 => a
  | .nil, n => VList.nulls n
  | .cons v tl, n + 1 => .cons v (tl.padTo n)

/-- Go map read `m[k]` returning presence. -/
def VObj.get? : VObj → String → Option Value
  | .nil, _ => none
  | .cons k v tl, key => if k = key then some v else tl.get? key

/-- Go map write `m[k] = v`, keeping the canonical sorted representation:
replaces the binding if the key is present, otherwise inserts at the sorted
position. -/
def VObj.set : VObj → String → Value → VObj
  | .nil, key, v => .cons key v .nil
  | .cons k w tl, key, v =>
    if k = key then .cons k v tl
    else if strLt key k then .cons key v (.cons k w tl)
    else .cons k w (tl.set key v)

/-- The list of keys of a map, in representation order. -/
def VObj.keys : VObj → List String
  | .nil => []
  | .cons k _ tl => k :: tl.keys

/-- Number of entries of a map. -/
def VObj.length : VObj → Nat
  | .nil => 0
  | .cons _ _ tl => tl.length + 1

/-! ## Go standard-library helpers (`strings`, `strconv`, `fmt`)

The sources only ever feed ASCII data through these helpers; byte-indexed Go
loops are modelled as `Char`-list loops, which agree on ASCII input. -/

/-- Decimal digit test (`'0' <= c && c <= '9'`). -/
def charIsDigit (c : Char) : Bool := 48 ≤ c.val.toNat && c.val.toNat ≤ 57

/-- The character for a single decimal digit. -/
def digitChar (n : Nat) : Char := Char.ofNat (48 + n)

/-- Fuel-driven decimal digit expansion (the fuel is always sufficient at
`n + 1` since `n / 10` shrinks strictly). -/
def natDigitsAux : Nat → Nat → List Char
  | 0, _ => []
  | fuel + 1, n => if n < 10 then [digitChar n] else natDigitsAux fuel (n / 10) ++ [digitChar (n % 10)]

/-- Decimal representation of a natural number, as produced by Go's
`fmt.Sprintf("%d", i)` for non-negative `i`. -/
def natDigits (n : Nat) : List Char := natDigitsAux (n + 1) n

/-- Decimal string of a natural number. -/
def natToStr (n : Nat) : String := String.mk (natDigits n)

/-- Accumulate the value of a digit string; `none` on a non-digit. -/
def digitsVal : List Char → Nat → Option Nat
  | [], acc => some acc
  | c :: cs, acc =>
    if charIsDigit c then digitsVal cs (acc * 10 + (c.val.toNat - 48)) else none

/-- Model of Go `strconv.ParseInt(s, 10, 64)` (and `strconv.Atoi` on a
64-bit platform): optional sign, one or more decimal digits, failure on
anything else or on `int64` overflow. -/
def goParseInt (s : String) : Option Int :=
  let signed : Bool × List Char :=
    match s.data with
    | '+' :: rest => (false, rest)
    | '-' :: rest => (true, rest)
    | l => (false, l)
  match signed with
  | (neg, ds) =>
    if ds = [] then none
    else
      match digitsVal ds 0 with
      | none => none
      | some n =>
        let v : Int := if neg then -(n : Int) else (n : Int)
        if -(2 ^ 63) ≤ v ∧ v ≤ 2 ^ 63 - 1 then some v else none

/-- Go `strconv.Atoi` is `ParseInt(s, 10, 0)`; with 64-bit `int` it equals
`goParseInt`. -/
def goAtoi (s : String) : Option Int := goParseInt s

/-- Model of Go `strconv.ParseFloat(s, 64)` on the decimal fragment the
sources can feed it: optional sign, a mantissa of decimal digits with at
most one dot (at least one digit overall), and an optional `e`/`E` exponent.
The result is kept exact as a pair `(num, den)` denoting `num / 10 ^ den`,
abstracting IEEE-754 rounding; extreme exponents (where Go reports
`ErrRange`) and the special forms `inf`/`NaN`/hex floats are rejected. -/
def goParseFloat (s : String) : Option (Int × Nat) :=
  let signed : Bool × List Char :=
    match s.data with
    | '+' :: rest => (false, rest)
    | '-' :: rest => (true, rest)
    | l => (false, l)
  match signed with
  | (neg, body) =>
    let intPart := body.takeWhile charIsDigit
    let afterInt := body.dropWhile charIsDigit
    let fracState : Option (List Char × List Char) :=
      match afterInt with
      | '.' :: rest => some (rest.takeWhile charIsDigit, rest.dropWhile charIsDigit)
      | l => some ([], l)
    match fracState with
    | none => none
    | some (fracPart, afterFrac) =>
      if intPart = [] ∧ fracPart = [] then none
      else
        let expVal : Option Int :=
          match afterFrac with
          | [] => some 0
          | 'e' :: t => goParseInt (String.mk t)
          | 'E' :: t => goParseInt (String.mk t)
          | _ => none
        match expVal with
        | none => none
        | some e =>
          if e < -400 ∨ 400 < e then none
          else
            match digitsVal (intPart ++ fracPart) 0 with
            | none => none
            | some m =>
              let adj : Int := e - (fracPart.length : Int)
              let mag : Nat := if 0 ≤ adj then m * 10 ^ adj.toNat else m
              let den : Nat := if 0 ≤ adj then 0 else (-adj).toNat
              some (if neg then -(mag : Int) else (mag : Int), den)

/-- Does the string contain the character (Go `strings.Contains` with a
single-character needle, and the `strings.Index`-style searches)? -/
def strContainsChar (s : String) (c : Char) : Bool := s.data.contains c

/-- Go `strings.Contains(s, sub)` (substring search). -/
def strContains (s sub : String) : Bool :=
  let rec go : List Char → Bool
    | [] => sub.data.isPrefixOf []
    | l@(_ :: tl) => sub.data.isPrefixOf l || go tl
  go s.data

/-- Go `strings.HasSuffix`. -/
def strHasSuf (s suf : String) : Bool := suf.data.isSuffixOf s.data

/-- Go `strings.TrimPrefix(s, pre)`: drop `pre` when it is a leading
substring, otherwise return `s` unchanged. -/
def strTrimPre (s pre : String) : String :=
  if pre.data.isPrefixOf s.data then String.mk (s.data.drop pre.data.length) else s

/-- Go `strings.TrimSuffix(s, suf)`. -/
def strTrimSuf (s suf : String) : String :=
  if suf.data.isSuffixOf s.data then String.mk (s.data.take (s.data.length - suf.data.length)) else s

/-- Go `strings.HasPrefix`. -/
def strHasPre (s pre : String) : Bool := pre.data.isPrefixOf s.data

/-- ASCII white-space test, the fragment of Unicode spacing the sources can
meet (`unicode.IsSpace` restricted to ASCII). -/
def charIsSpace (c : Char) : Bool :=
  c = ' ' || c = '\t' || c = '\n' || c = '\r' || c.val.toNat = 11 || c.val.toNat = 12

/-- Go `strings.TrimSpace` (ASCII fragment). -/
def strTrimSpace (s : String) : String :=
  String.mk (((s.data.dropWhile charIsSpace).reverse.dropWhile charIsSpace).reverse)

/-- Go `strings.ToLower` on ASCII letters. -/
def strToLower (s : String) : String :=
  String.mk (s.data.map Char.toLower)

/-- Go `strings.Split(s, ".")`. -/
def strSplitDot (s : String) : List String :=
  let rec go : List Char → List Char → List String
    | [], cur => [String.mk cur.reverse]
    | '.' :: rest, cur => String.mk cur.reverse :: go rest []
    | c :: rest, cur => go rest (c :: cur)
  go s.data []

/-! ## `pkg/prompt` value coercion (`parseValue`, part_006 lines 39-63) -/

/-- The value coercer `parseValue` from the prompt package: boolean literals
first, then a base-10 `int64` parse, then a float parse accepted only when
the text contains a literal dot, otherwise the text itself. -/
def parseValue (value : String) : Value :=
  if value = "true" then .bool true
  else if value = "false" then .bool false
  else
    match goParseInt value with
    | some i => .int i
    | none =>
      match goParseFloat value with
      | some (m, d) => if strContainsChar value '.' then .float m d else .str value
      | none => .str value

/-! ## `pkg/prompt` path grammar (`parsePath`, `parsePathPart`) -/

/-- The character loop of `parsePath` (part_006 lines 143-175).  The third
argument is true while the loop is copying a bracketed chunk verbatim (the
Go inner loop that runs to the closing bracket).  A `[` met while the
current segment is empty is dropped and scanning continues normally, exactly
as in the source where the bracket-copying branch is guarded by
`current.Len() > 0`. -/
def parsePathAux : List Char → List Char → Bool → List (List Char)
  | [], cur, _ => if cur = [] then [] else [cur]
  | c :: rest, cur, true =>
    if c = ']' then parsePathAux rest (cur ++ [']']) false
    else parsePathAux rest (cur ++ [c]) true
  | c :: rest, cur, false =>
    if c = '.' then
      if cur = [] then parsePathAux rest [] false else cur :: parsePathAux rest [] false
    else if c = '[' then
      if cur = [] then parsePathAux rest [] false else parsePathAux rest (cur ++ ['[']) true
    else parsePathAux rest (cur ++ [c]) false

/-- `parsePath` splits a path at dots, carrying bracketed chunks along with
the segment they follow. -/
def parsePath (path : String) : List String :=
  (parsePathAux path.data [] false).map String.mk

/-- Take the characters of a part before the first `[` (for
`strings.Index(part, "[")`). -/
def takeBeforeLBrack : List Char → List Char
  | [] => []
  | c :: rest => if c = '[' then [] else c :: takeBeforeLBrack rest

/-- Drop the characters of a part up to (excluding) the first `[`. -/
def dropBeforeLBrack : List Char → List Char
  | [] => []
  | c :: rest => if c = '[' then c :: rest else dropBeforeLBrack rest

/-- The key before the first bracket of a segment (`part[:bracketIdx]`). -/
def partKey (part : String) : String := String.mk (takeBeforeLBrack part.data)

/-- The bracket content of a segment
(`strings.TrimSuffix(strings.TrimPrefix(part[bracketIdx:], "["), "]")`). -/
def partIndexStr (part : String) : String :=
  strTrimSuf (strTrimPre (String.mk (dropBeforeLBrack part.data)) "[") "]"

/-- `parsePathPart` (part_006 lines 179-194): split a segment into the key
and an array index, `-1` when the segment has no bracket or when the
bracket's content does not survive `strconv.Atoi`. -/
def parsePathPart (part : String) : String × Int :=
  if strContainsChar part '[' then
    match goAtoi (partIndexStr part) with
    | some i => (partKey part, i)
    | none => (part, -1)
  else (part, -1)

/-! ## `pkg/prompt` document assembly (`setNestedValue`, `BuildNestedMap`) -/

/-- The body of `setNestedValue` (part_006 lines 78-140), recursing on the
parts produced by `parsePath`.  The source loops over all but the last part
navigating (and creating) intermediate containers, then writes the final
value; the empty-parts case is unreachable for the inputs the package
builds (the Go code would panic on the slice bound there) and is modelled
as the identity. -/
def setParts : VObj → List String → Value → VObj
  | m, [], _ => m
  | m, [part], v =>
    match parsePathPart part with
    | (key, index) =>
      if 0 ≤ index then
        let i := index.toNat
        let arr :=
          match m.get? key with
          | some (.arr a) => a
          | _ => VList.nulls (i + 1)
        m.set key (.arr ((arr.padTo (i + 1)).set i v))
      else m.set key v
  | m, part :: rest₁ :: rest₂, v =>
    match parsePathPart part with
    | (key, index) =>
      if 0 ≤ index then
        let i := index.toNat
        let arr :=
          match m.get? key with
          | some (.arr a) => a
          | _ => VList.nulls (i + 1)
        let padded := arr.padTo (i + 1)
        let sub :=
          match padded.get? i with
          | some (.obj o) => o
          | _ => VObj.nil
        m.set key (.arr (padded.set i (.obj (setParts sub (rest₁ :: rest₂) v))))
      else
        match m.get? key with
        | some (.obj o) => m.set key (.obj (setParts o (rest₁ :: rest₂) v))
        | some _ => setParts m (rest₁ :: rest₂) v
        | none => m.set key (.obj (setParts VObj.nil (rest₁ :: rest₂) v))

/-- `setNestedValue` writes one dotted path into a nested map. -/
def setNestedValue (m : VObj) (path : String) (value : Value) : VObj :=
  setParts m (parsePath path) value

/-- `BuildNestedMap` (part_006 lines 67-75) folds every flat entry into an
initially empty nested map.  The Go range order over the flat map is
unspecified, so theorems below quantify over permutations of the entry
list. -/
def buildNestedMap (flat : List (String × Value)) : VObj :=
  flat.foldl (fun acc e => setNestedValue acc e.1 e.2) VObj.nil

/-! ## `pkg/client` document flattening (`flattenMap`, part_002 lines 269-291) -/

mutual
/-- `flattenMap` turns a nested map into dot/bracket keyed entries: nested
maps recurse with `prefix + "." + key`; arrays are emitted whole at their
own path and additionally per element (recursing into map elements);
scalars are emitted directly.  Entries are listed in representation order;
the Go range order is unspecified and theorems quantify over permutations
where it matters. -/
def flattenMap : VObj → String → List (String × Value)
  | .nil, _ => []
  | .cons k v tl, pre =>
    (match v with
     | .obj o => flattenMap o (pre ++ "." ++ k)
     | .arr a => (pre ++ "." ++ k, .arr a) :: flattenItems a (pre ++ "." ++ k) 0
     | u => [(pre ++ "." ++ k, u)]) ++ flattenMap tl pre

/-- Per-element emission for the array case of `flattenMap`. -/
def flattenItems : VList → String → Nat → List (String × Value)
  | .nil, _, _ => []
  | .cons x xs, path, i =>
    (match x with
     | .obj o => flattenMap o (path ++ "[" ++ natToStr i ++ "]")
     | u => [(path ++ "[" ++ natToStr i ++ "]", u)]) ++ flattenItems xs path (i + 1)
end

end KCR


namespace KCR

/-! ## Claims C6, C10, C5 -/

/-- C6: value coercion follows the strict priority chain
boolean > integer > float-with-dot > string: `"true"`/`"false"` become
booleans, `"42"` the integer 42, `"3.14"` the float 3.14 (`314 / 10 ^ 2`),
`"latest"` stays a string, and a string without a literal dot is never
coerced to a float. -/
theorem claim_C6 :
    parseValue "true" = .bool true ∧ parseValue "false" = .bool false ∧
    parseValue "42" = .int 42 ∧ parseValue "3.14" = .float 314 2 ∧
    parseValue "latest" = .str "latest" ∧
    ∀ s : String, strContainsChar s '.' = false → ∀ m d, parseValue s ≠ .float m d := by
  refine ⟨by decide, by decide, by decide, by decide, by decide, ?_⟩
  intro s h m d heq
  unfold parseValue at heq
  split at heq
  · exact Value.noConfusion heq
  · split at heq
    · exact Value.noConfusion heq
    · split at heq
      · exact Value.noConfusion heq
      · split at heq
        · rw [h] at heq
          simp only [Bool.false_eq_true, if_false] at heq
          exact Value.noConfusion heq
        · exact Value.noConfusion heq

/-- C6 witness: the digit string "3" (no dot) is not coerced to a float. -/
theorem claim_C6_witness : parseValue "3" ≠ .float 3 0 :=
  claim_C6.2.2.2.2.2 "3" (by decide) 3 0

/-- C10: a bracketed segment whose content parses as the negative integer
-1 is returned as the bare key with index -1, so assembly treats it as the
plain key `a` — the bracketed text is silently discarded, and the segment
is not kept as a literal key containing the brackets. -/
theorem claim_C10 :
    parsePathPart "a[-1]" = ("a", -1) ∧
    buildNestedMap [("a[-1]", Value.int 7)] = VObj.ofList [("a", Value.int 7)] ∧
    parsePathPart "a[-1]" ≠ ("a[-1]", -1) := by
  decide

/-- C5 counterexample: the bracket content "-1" does not parse as a
non-negative integer, yet the whole bracketed token is not treated as a
literal key segment — the brackets are discarded instead. -/
theorem claim_C5_cex :
    goAtoi "-1" = some (-1) ∧ parsePathPart "a[-1]" ≠ ("a[-1]", -1) := by
  decide

/-- C5 (amended): path parsing is total and never fails; a segment without
a bracket, and a bracketed segment whose content fails `strconv.Atoi`
entirely, are kept as single literal key segments with index -1; bracket
content that parses as a negative integer instead yields the key before
the bracket together with the negative index (which downstream treats as a
plain key). -/
theorem claim_C5 :
    ∀ part : String,
      (strContainsChar part '[' = false → parsePathPart part = (part, -1)) ∧
      (goAtoi (partIndexStr part) = none → parsePathPart part = (part, -1)) ∧
      (∀ i : Int, i < 0 → goAtoi (partIndexStr part) = some i →
        strContainsChar part '[' = true → parsePathPart part = (partKey part, i)) := by
  intro part
  refine ⟨?_, ?_, ?_⟩
  · intro h
    unfold parsePathPart
    rw [h]
    simp
  · intro h
    unfold parsePathPart
    rw [h]
    split <;> rfl
  · intro i _ h hb
    unfold parsePathPart
    rw [hb, h]
    simp

/-- C5 witness: instantiating the amended claim at the segment `a[-1]`. -/
theorem claim_C5_witness : parsePathPart "a[-1]" = (partKey "a[-1]", -1) :=
  (claim_C5 "a[-1]").2.2 (-1) (by decide) (by decide) (by decide)

end KCR

namespace KCR

/-! ## Claim C4: the path grammar round trip -/

/-- A parsed path segment, as produced by `parsePathPart`: a key together
with an index, `-1` meaning "no index". -/
abbrev Seg := String × Int

/-- The textual form of one segment, as the flattener builds it:
`key` or `key[i]`. -/
def serializeSeg (s : Seg) : String :=
  if 0 ≤ s.2 then s.1 ++ "[" ++ natToStr s.2.toNat ++ "]" else s.1

/-- The canonical textual form of a path: segments joined by dots, exactly
the shape of the keys the flattener emits (up to its leading prefix dot,
which the parser drops). -/
def serializePath : List Seg → String
  | [] => ""
  | [s] => serializeSeg s
  | s :: r₁ :: r₂ => serializeSeg s ++ "." ++ serializePath (r₁ :: r₂)

/-- Full parsing of a path string into segments: `parsePath` followed by
`parsePathPart` on every part, exactly as `setNestedValue` consumes it. -/
def parsePathSegs (s : String) : List Seg :=
  (parsePath s).map parsePathPart

/-- Well-formedness of one segment: the key is nonempty and free of the
separator characters, and an index is either the sentinel `-1` or a
non-negative integer below `2 ^ 63` (so that `strconv.Atoi` can read it
back). -/
def wfSeg (s : Seg) : Prop :=
  s.1 ≠ "" ∧ '.' ∉ s.1.data ∧ '[' ∉ s.1.data ∧ (s.2 = -1 ∨ (0 ≤ s.2 ∧ s.2 < 2 ^ 63))

instance : DecidablePred wfSeg := fun s => by unfold wfSeg; infer_instance

/-- The character-level form of one serialized segment. -/
def segChars (s : Seg) : List Char :=
  s.1.data ++ (if 0 ≤ s.2 then '[' :: natDigits s.2.toNat ++ [']'] else [])

theorem charIsDigit_digitChar {k : Nat} (hk : k < 10) : charIsDigit (digitChar k) = true := by
  interval_cases k <;> decide

theorem digitChar_toNat {k : Nat} (hk : k < 10) : (digitChar k).val.toNat = 48 + k := by
  interval_cases k <;> decide

theorem natDigitsAux_digits :
    ∀ fuel n, n < fuel → ∀ c ∈ natDigitsAux fuel n, charIsDigit c = true := by
  intro fuel
  induction fuel with
  | zero => intro n hn; omega
  | succ fuel ih =>
    intro n hn c hc
    unfold natDigitsAux at hc
    by_cases h10 : n < 10
    · simp only [h10, if_true, List.mem_singleton] at hc
      exact hc ▸ charIsDigit_digitChar h10
    · simp only [h10, if_false, List.mem_append, List.mem_singleton] at hc
      have hdiv : n / 10 < fuel :=
        Nat.lt_of_lt_of_le (Nat.div_lt_self (by omega) (by omega)) (Nat.lt_succ_iff.mp hn)
      rcases hc with hc | hc
      · exact ih (n / 10) hdiv c hc
      · rw [hc]
        exact charIsDigit_digitChar (Nat.mod_lt n (by omega))

theorem natDigitsAux_ne_nil : ∀ fuel n, n < fuel → natDigitsAux fuel n ≠ [] := by
  intro fuel n hn
  cases fuel with
  | zero => omega
  | succ fuel =>
    unfold natDigitsAux
    by_cases h10 : n < 10 <;> simp [h10]

theorem digitsVal_append (l₁ l₂ : List Char) (acc : Nat) :
    digitsVal (l₁ ++ l₂) acc = (digitsVal l₁ acc).bind (fun a => digitsVal l₂ a) := by
  induction l₁ generalizing acc with
  | nil => simp [digitsVal]
  | cons c cs ih =>
    simp only [List.cons_append, digitsVal]
    by_cases hd : charIsDigit c = true
    · simp [hd, ih]
    · simp [hd]

theorem digitsVal_natDigitsAux :
    ∀ fuel n acc, n < fuel →
      digitsVal (natDigitsAux fuel n) acc =
        some (acc * 10 ^ (natDigitsAux fuel n).length + n) := by
  intro fuel
  induction fuel with
  | zero => intro n acc hn; omega
  | succ fuel ih =>
    intro n acc hn
    unfold natDigitsAux
    by_cases h10 : n < 10
    · simp only [h10, if_true, digitsVal, charIsDigit_digitChar h10, if_true,
        digitChar_toNat h10, List.length_singleton, pow_one]
      congr 1
      omega
    · have hdiv : n / 10 < fuel :=
        Nat.lt_of_lt_of_le (Nat.div_lt_self (by omega) (by omega)) (Nat.lt_succ_iff.mp hn)
      simp only [h10, if_false, digitsVal_append]
      rw [ih (n / 10) acc hdiv]
      simp only [Option.some_bind, digitsVal, charIsDigit_digitChar (Nat.mod_lt n (by omega) : n % 10 < 10), if_true,
        digitChar_toNat (Nat.mod_lt n (by omega) : n % 10 < 10),
        List.length_append, List.length_singleton]
      congr 1
      have hmod := Nat.div_add_mod n 10
      set q := n / 10 with hq
      set r := n % 10 with hr
      have hr48 : 48 + r - 48 = r := by omega
      rw [hr48, ← hmod]
      ring

theorem natDigits_digits {n : Nat} : ∀ c ∈ natDigits n, charIsDigit c = true :=
  natDigitsAux_digits (n + 1) n (Nat.lt_succ_self n)

theorem natDigits_ne_nil {n : Nat} : natDigits n ≠ [] :=
  natDigitsAux_ne_nil (n + 1) n (Nat.lt_succ_self n)

theorem digitsVal_natDigits (n : Nat) : digitsVal (natDigits n) 0 = some n := by
  unfold natDigits
  rw [digitsVal_natDigitsAux (n + 1) n 0 (Nat.lt_succ_self n)]
  simp

theorem charIsDigit_ne (c : Char) (hd : charIsDigit c = true) :
    c ≠ '+' ∧ c ≠ '-' ∧ c ≠ ']' ∧ c ≠ '.' ∧ c ≠ '[' := by
  refine ⟨?_, ?_, ?_, ?_, ?_⟩ <;> rintro rfl <;> exact absurd hd (by decide)

theorem goAtoi_natToStr {n : Nat} (h : n < 2 ^ 63) : goAtoi (natToStr n) = some (n : Int) := by
  unfold goAtoi goParseInt
  have hdata : (natToStr n).data = natDigits n := rfl
  rw [hdata]
  obtain ⟨c, t, hct⟩ : ∃ c t, natDigits n = c :: t := by
    cases hnd : natDigits n with
    | nil => exact absurd hnd natDigits_ne_nil
    | cons c t => exact ⟨c, t, rfl⟩
  have hcdig : charIsDigit c = true :=
    natDigits_digits c (by rw [hct]; exact List.mem_cons_self c t)
  have hne := charIsDigit_ne c hcdig
  rw [hct]
  have hmatch :
      (match c :: t with
        | '+' :: rest => (false, rest)
        | '-' :: rest => (true, rest)
        | l => (false, l)) = (false, c :: t) := by
    rcases hne with ⟨h1, h2, -⟩
    split
    · rename_i heq; rw [List.cons.injEq] at heq; exact absurd heq.1 h1
    · rename_i heq; rw [List.cons.injEq] at heq; exact absurd heq.1 h2
    · rfl
  rw [hmatch]
  dsimp only
  rw [if_neg (List.cons_ne_nil c t), ← hct, digitsVal_natDigits]
  dsimp only
  have hrange : -(2 ^ 63 : Int) ≤ (n : Int) ∧ (n : Int) ≤ 2 ^ 63 - 1 := by
    constructor
    · exact le_trans (by norm_num) (Int.natCast_nonneg n)
    · have hlt : (n : Int) < 2 ^ 63 := by exact_mod_cast h
      omega
  simp only [Bool.false_eq_true, if_false, if_pos hrange]

end KCR

namespace KCR

theorem string_data_ne_nil {s : String} (h : s ≠ "") : s.data ≠ [] := by
  intro hd
  apply h
  cases s with
  | mk data => cases hd; rfl

theorem strContainsChar_eq_false {s : String} {c : Char} (h : c ∉ s.data) :
    strContainsChar s c = false := by
  unfold strContainsChar
  rw [← Bool.not_eq_true, List.elem_iff]
  exact h

theorem strContainsChar_eq_true {s : String} {c : Char} (h : c ∈ s.data) :
    strContainsChar s c = true := by
  unfold strContainsChar
  rw [List.elem_iff]
  exact h

theorem parsePathAux_plain :
    ∀ (ks : List Char) (rest cur : List Char), '.' ∉ ks → '[' ∉ ks →
      parsePathAux (ks ++ rest) cur false = parsePathAux rest (cur ++ ks) false := by
  intro ks
  induction ks with
  | nil => intro rest cur _ _; simp
  | cons c ks ih =>
    intro rest cur hdot hbr
    have hc1 : c ≠ '.' := fun e => hdot (e ▸ List.mem_cons_self c ks)
    have hc2 : c ≠ '[' := fun e => hbr (e ▸ List.mem_cons_self c ks)
    show parsePathAux (c :: (ks ++ rest)) cur false = _
    rw [parsePathAux, if_neg hc1, if_neg hc2,
      ih rest (cur ++ [c]) (fun hm => hdot (List.mem_cons_of_mem c hm))
        (fun hm => hbr (List.mem_cons_of_mem c hm)), List.append_assoc]
    rfl

theorem parsePathAux_mode :
    ∀ (ds : List Char) (rest cur : List Char), ']' ∉ ds →
      parsePathAux (ds ++ ']' :: rest) cur true =
        parsePathAux rest (cur ++ ds ++ [']']) false := by
  intro ds
  induction ds with
  | nil => intro rest cur _; simp [parsePathAux]
  | cons d ds ih =>
    intro rest cur hnr
    have hd : d ≠ ']' := fun e => hnr (e ▸ List.mem_cons_self d ds)
    show parsePathAux (d :: (ds ++ ']' :: rest)) cur true = _
    rw [parsePathAux, if_neg hd, ih rest (cur ++ [d]) (fun hm => hnr (List.mem_cons_of_mem d hm))]
    simp [List.append_assoc]

theorem parsePathAux_lbrack (rest cur : List Char) (h : cur ≠ []) :
    parsePathAux ('[' :: rest) cur false = parsePathAux rest (cur ++ ['[']) true := by
  rw [parsePathAux, if_neg (by decide : ('[' : Char) ≠ '.'), if_pos rfl, if_neg h]

theorem parsePathAux_dot (rest cur : List Char) (h : cur ≠ []) :
    parsePathAux ('.' :: rest) cur false = cur :: parsePathAux rest [] false := by
  rw [parsePathAux, if_pos rfl, if_neg h]

theorem segChars_ne_nil {s : Seg} (h : wfSeg s) : segChars s ≠ [] := by
  unfold segChars
  intro he
  rcases List.append_eq_nil.mp he with ⟨h1, -⟩
  exact string_data_ne_nil h.1 h1

theorem natDigits_not_rbrack {n : Nat} : ']' ∉ natDigits n := fun hm =>
  absurd (natDigits_digits ']' hm) (by decide)

theorem seg_scan (s : Seg) (tail : List Char) (h : wfSeg s) :
    parsePathAux (segChars s ++ tail) [] false = parsePathAux tail (segChars s) false := by
  obtain ⟨hk, hdot, hbr, hidx⟩ := h
  unfold segChars
  by_cases hpos : 0 ≤ s.2
  · simp only [hpos, if_true, List.append_assoc, List.cons_append, List.nil_append]
    rw [parsePathAux_plain s.1.data _ [] hdot hbr]
    simp only [List.nil_append]
    rw [parsePathAux_lbrack _ _ (string_data_ne_nil hk),
      parsePathAux_mode (natDigits s.2.toNat) tail (s.1.data ++ ['[']) natDigits_not_rbrack]
    congr 1
    simp
  · simp only [hpos, if_false, List.append_nil]
    rw [parsePathAux_plain s.1.data tail [] hdot hbr]
    simp

end KCR

namespace KCR

theorem serializeSeg_data (s : Seg) : (serializeSeg s).data = segChars s := by
  unfold serializeSeg segChars
  by_cases hpos : 0 ≤ s.2
  · simp only [hpos, if_true, String.data_append]
    show s.1.data ++ ['['] ++ natDigits s.2.toNat ++ [']'] = _
    simp
  · simp [hpos]

theorem parsePath_serializePath :
    ∀ p : List Seg, (∀ s ∈ p, wfSeg s) →
      parsePathAux (serializePath p).data [] false = p.map segChars := by
  intro p
  induction p with
  | nil => intro _; rfl
  | cons s rest ih =>
    intro hwf
    have hs : wfSeg s := hwf s (List.mem_cons_self s rest)
    cases rest with
    | nil =>
      show parsePathAux (serializeSeg s).data [] false = [segChars s]
      rw [serializeSeg_data, ← List.append_nil (segChars s), seg_scan s [] hs]
      rw [List.append_nil]
      rw [parsePathAux, if_neg (segChars_ne_nil hs)]
    | cons r₁ r₂ =>
      show parsePathAux (serializeSeg s ++ "." ++ serializePath (r₁ :: r₂)).data [] false = _
      have hdata : (serializeSeg s ++ "." ++ serializePath (r₁ :: r₂)).data =
          segChars s ++ '.' :: (serializePath (r₁ :: r₂)).data := by
        simp [String.data_append, serializeSeg_data]
      rw [hdata, seg_scan s _ hs, parsePathAux_dot _ _ (segChars_ne_nil hs),
        ih (fun t ht => hwf t (List.mem_cons_of_mem s ht))]
      rfl

theorem takeBeforeLBrack_append {l t : List Char} (h : '[' ∉ l) :
    takeBeforeLBrack (l ++ '[' :: t) = l := by
  induction l with
  | nil => simp [takeBeforeLBrack]
  | cons c cs ih =>
    have hc : c ≠ '[' := fun e => h (e ▸ List.mem_cons_self c cs)
    show takeBeforeLBrack (c :: (cs ++ '[' :: t)) = _
    rw [takeBeforeLBrack, if_neg hc, ih (fun hm => h (List.mem_cons_of_mem c hm))]

theorem dropBeforeLBrack_append {l t : List Char} (h : '[' ∉ l) :
    dropBeforeLBrack (l ++ '[' :: t) = '[' :: t := by
  induction l with
  | nil => simp [dropBeforeLBrack]
  | cons c cs ih =>
    have hc : c ≠ '[' := fun e => h (e ▸ List.mem_cons_self c cs)
    show dropBeforeLBrack (c :: (cs ++ '[' :: t)) = _
    rw [dropBeforeLBrack, if_neg hc, ih (fun hm => h (List.mem_cons_of_mem c hm))]

theorem strTrimPre_lbrack (t : List Char) :
    strTrimPre (String.mk ('[' :: t)) "[" = String.mk t := by
  unfold strTrimPre
  rw [if_pos (by simp [List.isPrefixOf])]
  rfl

theorem strTrimSuf_rbrack (ds : List Char) :
    strTrimSuf (String.mk (ds ++ [']'])) "]" = String.mk ds := by
  unfold strTrimSuf
  rw [if_pos (by simp [List.isSuffixOf, List.isPrefixOf])]
  show String.mk ((ds ++ [']']).take ((ds ++ [']']).length - 1)) = _
  congr 1
  have hlen : (ds ++ [']']).length - 1 = ds.length := by simp
  rw [hlen, List.take_left]

theorem parsePathPart_segChars (s : Seg) (h : wfSeg s) :
    parsePathPart (String.mk (segChars s)) = s := by
  obtain ⟨k, i⟩ := s
  obtain ⟨hk, hdot, hbr, hidx⟩ := h
  simp only at hk hdot hbr hidx
  rcases hidx with hneg | ⟨hpos, hlt⟩
  · subst hneg
    have hval : segChars (k, (-1 : Int)) = k.data := by
      unfold segChars; simp
    rw [hval]
    show parsePathPart k = (k, -1)
    unfold parsePathPart
    rw [strContainsChar_eq_false hbr]
    simp
  · have hval : segChars (k, i) = k.data ++ '[' :: (natDigits i.toNat ++ [']']) := by
      unfold segChars; simp [hpos]
    rw [hval]
    have hmem : '[' ∈ (String.mk (k.data ++ '[' :: (natDigits i.toNat ++ [']']))).data :=
      List.mem_append_right _ (List.mem_cons_self _ _)
    unfold parsePathPart
    rw [strContainsChar_eq_true hmem, if_pos rfl]
    have hkey : partKey (String.mk (k.data ++ '[' :: (natDigits i.toNat ++ [']']))) = k := by
      unfold partKey
      show String.mk (takeBeforeLBrack (k.data ++ '[' :: (natDigits i.toNat ++ [']']))) = k
      rw [takeBeforeLBrack_append hbr]
    have hidxs : partIndexStr (String.mk (k.data ++ '[' :: (natDigits i.toNat ++ [']']))) =
        String.mk (natDigits i.toNat) := by
      unfold partIndexStr
      show strTrimSuf (strTrimPre (String.mk
        (dropBeforeLBrack (k.data ++ '[' :: (natDigits i.toNat ++ [']'])))) "[") "]" = _
      rw [dropBeforeLBrack_append hbr, strTrimPre_lbrack, strTrimSuf_rbrack]
    have hnat : i.toNat < 2 ^ 63 := by omega
    have hback : goAtoi (String.mk (natDigits i.toNat)) = some ((i.toNat : Nat) : Int) :=
      goAtoi_natToStr hnat
    rw [hidxs, hback]
    dsimp only
    rw [hkey, Int.toNat_of_nonneg hpos]

/-- The grammar round trip, shared by several developments below. -/
theorem parseSerialize_id (p : List Seg) (hwf : ∀ s ∈ p, wfSeg s) :
    parsePathSegs (serializePath p) = p := by
  unfold parsePathSegs parsePath
  rw [parsePath_serializePath p hwf, List.map_map, List.map_map]
  have hcon : ∀ s ∈ p, ((parsePathPart ∘ String.mk) ∘ segChars) s = id s := fun s hs =>
    parsePathPart_segChars s (hwf s hs)
  rw [List.map_congr_left hcon, List.map_id]

/-- C4: parsing the serialized textual form of a well-formed path (segments
with nonempty keys free of `.` and `[`, and indices either absent or
non-negative and below `2 ^ 63`, the shape of every path this system
serializes) yields the path back: `parse (serialize p) = p`. -/
theorem claim_C4 (p : List Seg) (hwf : ∀ s ∈ p, wfSeg s) :
    parsePathSegs (serializePath p) = p :=
  parseSerialize_id p hwf

/-- C4 witness: the round trip at the concrete path `spec.ports[0].port`. -/
theorem claim_C4_witness :
    (∀ s ∈ ([("spec", -1), ("ports", 0), ("port", -1)] : List Seg), wfSeg s) ∧
      parsePathSegs (serializePath [("spec", -1), ("ports", 0), ("port", -1)]) =
        [("spec", -1), ("ports", 0), ("port", -1)] :=
  ⟨by decide, claim_C4 _ (by decide)⟩

end KCR

namespace KCR

/-! ## `pkg/generator` manifest generation (manifest.go) -/

/-- A resolved GroupVersionResource. -/
structure GVR where
  group : String
  version : String
  resource : String
  deriving DecidableEq

/-- `gvrToAPIVersion` (manifest.go lines 71-76). -/
def gvrToAPIVersion (gvr : GVR) : String :=
  if gvr.group = "" then gvr.version else gvr.group ++ "/" ++ gvr.version

/-- First-match lookup in a literal Go map of strings (the iteration order
of a Go map is irrelevant for a lookup). -/
def lookupStr : List (String × String) → String → Option String
  | [], _ => none
  | (k, v) :: tl, key => if k = key then some v else lookupStr tl key

/-- The irregular-plural table of `gvrToKind` (manifest.go lines 84-132). -/
def manifestIrregulars : List (String × String) :=
  [("configmaps", "ConfigMap"), ("endpoints", "Endpoints"), ("limitranges", "LimitRange"),
   ("namespaces", "Namespace"), ("persistentvolumeclaims", "PersistentVolumeClaim"),
   ("persistentvolumes", "PersistentVolume"), ("podtemplates", "PodTemplate"),
   ("replicationcontrollers", "ReplicationController"), ("resourcequotas", "ResourceQuota"),
   ("serviceaccounts", "ServiceAccount"), ("controllerrevisions", "ControllerRevision"),
   ("daemonsets", "DaemonSet"), ("deployments", "Deployment"), ("replicasets", "ReplicaSet"),
   ("statefulsets", "StatefulSet"), ("cronjobs", "CronJob"), ("ingresses", "Ingress"),
   ("ingressclasses", "IngressClass"), ("networkpolicies", "NetworkPolicy"),
   ("poddisruptionbudgets", "PodDisruptionBudget"), ("podsecuritypolicies", "PodSecurityPolicy"),
   ("clusterrolebindings", "ClusterRoleBinding"), ("clusterroles", "ClusterRole"),
   ("rolebindings", "RoleBinding"), ("csidrivers", "CSIDriver"), ("csinodes", "CSINode"),
   ("csistoragecapacities", "CSIStorageCapacity"), ("storageclasses", "StorageClass"),
   ("volumeattachments", "VolumeAttachment"), ("priorityclasses", "PriorityClass"),
   ("runtimeclasses", "RuntimeClass"), ("horizontalpodautoscalers", "HorizontalPodAutoscaler"),
   ("customresourcedefinitions", "CustomResourceDefinition"),
   ("mutatingwebhookconfigurations", "MutatingWebhookConfiguration"),
   ("validatingwebhookconfigurations", "ValidatingWebhookConfiguration")]

/-- The plural-to-singular heuristic of `gvrToKind`
(manifest.go lines 138-161), on the byte list of the resource name. -/
def singularize (r : List Char) : List Char :=
  if r.length > 3 ∧ r.drop (r.length - 3) = ['i', 'e', 's'] then
    r.take (r.length - 3) ++ ['y']
  else if r.length > 2 ∧ r.drop (r.length - 2) = ['e', 's'] then
    let base := r.take (r.length - 2)
    match base.getLast? with
    | none => r
    | some lastChar =>
      if lastChar = 's' ∨ lastChar = 'x' ∨ lastChar = 'z' then base
      else if base.length > 1 then
        let last2 := base.drop (base.length - 2)
        if last2 = ['c', 'h'] ∨ last2 = ['s', 'h'] then base else r.take (r.length - 1)
      else r.take (r.length - 1)
  else if r.length > 1 ∧ r.drop (r.length - 1) = ['s'] then r.take (r.length - 1)
  else r

/-- The capitalization loop of `gvrToKind` (manifest.go lines 164-174): the
first lower-case ASCII letter met while the flag is still set is raised. -/
def capFirstLower : List Char → Bool → List Char
  | [], _ => []
  | c :: rest, capNext =>
    if capNext ∧ 97 ≤ c.val.toNat ∧ c.val.toNat ≤ 122 then
      Char.ofNat (c.val.toNat - 32) :: capFirstLower rest false
    else c :: capFirstLower rest capNext

/-- `gvrToKind` (manifest.go lines 80-177): irregular table first, then the
plural heuristic and capitalization. -/
def gvrToKind (gvr : GVR) : String :=
  match lookupStr manifestIrregulars gvr.resource with
  | some kind => kind
  | none => String.mk (capFirstLower (singularize gvr.resource.data) true)

/-- `CollectedValues` (prompt.go lines 14-17): the resolved name and the
flat path-to-value map (entry list; Go's map iteration order is
unspecified). -/
structure CollectedValues where
  name : String
  values : List (String × Value)
  deriving DecidableEq

/-- Merge every entry of the second map over the first
(`for k, v := range nested { obj.Object[k] = v }`); with unique keys the
result does not depend on the iteration order. -/
def vobjFold (obj : VObj) : VObj → VObj
  | .nil => obj
  | .cons k v tl => vobjFold (obj.set k v) tl

/-- `GenerateManifest` (manifest.go lines 14-47): assemble the collected
values, force the name (and optionally the namespace) into `metadata`,
then copy every assembled top-level entry over an envelope that starts
from the computed `apiVersion`/`kind`. -/
def generateManifest (gvr : GVR) (ns : String) (values : CollectedValues) : VObj :=
  let nested := buildNestedMap values.values
  let metadata :=
    match nested.get? "metadata" with
    | some (.obj o) => o
    | _ => VObj.nil
  let metadata := metadata.set "name" (.str values.name)
  let metadata := if ns = "" then metadata else metadata.set "namespace" (.str ns)
  let nested := nested.set "metadata" (.obj metadata)
  let obj : VObj := .cons "apiVersion" (.str (gvrToAPIVersion gvr)) (.cons "kind" (.str (gvrToKind gvr)) .nil)
  vobjFold obj nested

/-- List-style induction for `VObj` alone (the mutual recursor is not
needed for tail recursion). -/
theorem VObj.indOn : ∀ {P : VObj → Prop} (m : VObj),
    P .nil → (∀ k v tl, P tl → P (.cons k v tl)) → P m
  | _, .nil, h0, _ => h0
  | _, .cons k v tl, h0, h1 => h1 k v tl (VObj.indOn tl h0 h1)

/-- List-style induction for `VList` alone. -/
theorem VList.indOn_list : ∀ {P : VList → Prop} (l : VList),
    P .nil → (∀ v tl, P tl → P (.cons v tl)) → P l
  | _, .nil, h0, _ => h0
  | _, .cons v tl, h0, h1 => h1 v tl (VList.indOn_list tl h0 h1)

theorem VObj.get?_set_self : ∀ (m : VObj) (k : String) (v : Value), (m.set k v).get? k = some v
  | .nil, k, v => by simp [VObj.set, VObj.get?]
  | .cons k' v' tl, k, v => by
    unfold VObj.set
    by_cases h : k' = k
    · simp [h, VObj.get?]
    · rw [if_neg h]
      by_cases h2 : strLt k k' = true
      · simp [h2, VObj.get?]
      · simp only [h2, Bool.false_eq_true, if_false, VObj.get?, if_neg h]
        exact VObj.get?_set_self tl k v

theorem VObj.get?_set_ne : ∀ (m : VObj) (k k' : String) (v : Value), k' ≠ k →
    (m.set k' v).get? k = m.get? k
  | .nil, k, k', v, h => by simp [VObj.set, VObj.get?, h]
  | .cons k₀ v₀ tl, k, k', v, h => by
    unfold VObj.set
    by_cases h0 : k₀ = k'
    · subst h0
      simp [VObj.get?, h]
    · rw [if_neg h0]
      by_cases h2 : strLt k' k₀ = true
      · simp [h2, VObj.get?, h]
      · simp only [h2, Bool.false_eq_true, if_false, VObj.get?]
        by_cases h3 : k₀ = k
        · simp [h3]
        · simp only [h3, if_false]
          exact VObj.get?_set_ne tl k k' v h

theorem vobjFold_get?_of_none : ∀ (m obj : VObj) (k : String), m.get? k = none →
    (vobjFold obj m).get? k = obj.get? k
  | .nil, obj, k, _ => rfl
  | .cons k' v tl, obj, k, h => by
    unfold VObj.get? at h
    by_cases hk : k' = k
    · rw [if_pos hk] at h
      exact absurd h (by simp)
    · rw [if_neg hk] at h
      show (vobjFold (obj.set k' v) tl).get? k = _
      rw [vobjFold_get?_of_none tl (obj.set k' v) k h, VObj.get?_set_ne obj k k' v hk]

end KCR

namespace KCR

/-- C1 counterexample: with a collected entry at path `apiVersion`, the
merged document carries the user-supplied value, not the computed envelope
value `apps/v1` — so the computed envelope does not always win. -/
theorem claim_C1_cex :
    (generateManifest ⟨"apps", "v1", "deployments"⟩ ""
        ⟨"web", [("apiVersion", .str "v9000")]⟩).get? "apiVersion" = some (.str "v9000") ∧
      gvrToAPIVersion ⟨"apps", "v1", "deployments"⟩ = "apps/v1" ∧
      ("v9000" : String) ≠ "apps/v1" := by
  decide

/-- C1 (amended): `GenerateManifest` copies the assembled values over the
computed envelope, so a same-path entry at `apiVersion` or `kind` in the
assembled document overrides the computed value; only when the assembled
document has no top-level `apiVersion`/`kind` key do the envelope fields
equal the values computed from the resolved GVR. -/
theorem claim_C1 (gvr : GVR) (ns : String) (cv : CollectedValues)
    (h1 : (buildNestedMap cv.values).get? "apiVersion" = none)
    (h2 : (buildNestedMap cv.values).get? "kind" = none) :
    (generateManifest gvr ns cv).get? "apiVersion" = some (.str (gvrToAPIVersion gvr)) ∧
      (generateManifest gvr ns cv).get? "kind" = some (.str (gvrToKind gvr)) := by
  unfold generateManifest
  have hmd1 : ∀ md, ((buildNestedMap cv.values).set "metadata" (.obj md)).get? "apiVersion" = none := by
    intro md
    rw [VObj.get?_set_ne _ _ _ _ (by decide)]
    exact h1
  have hmd2 : ∀ md, ((buildNestedMap cv.values).set "metadata" (.obj md)).get? "kind" = none := by
    intro md
    rw [VObj.get?_set_ne _ _ _ _ (by decide)]
    exact h2
  constructor
  · rw [vobjFold_get?_of_none _ _ _ (hmd1 _)]
    rfl
  · rw [vobjFold_get?_of_none _ _ _ (hmd2 _)]
    rfl

/-- C1 witness: the amended claim at a concrete service manifest. -/
theorem claim_C1_witness :
    (buildNestedMap [("spec.replicas", Value.int 3)]).get? "apiVersion" = none ∧
      (generateManifest ⟨"", "v1", "services"⟩ "default"
          ⟨"web", [("spec.replicas", Value.int 3)]⟩).get? "apiVersion" =
        some (.str (gvrToAPIVersion ⟨"", "v1", "services"⟩)) ∧
      gvrToKind ⟨"", "v1", "services"⟩ = "Service" :=
  ⟨by decide,
   (claim_C1 ⟨"", "v1", "services"⟩ "default" ⟨"web", [("spec.replicas", Value.int 3)]⟩
     (by decide) (by decide)).1,
   by decide⟩

end KCR

namespace KCR

/-! ## `pkg/client` schema extraction (part_003: `extractFields`) -/

/-- `FieldSchema` (part_003 lines 22-31).  `Type` and `Default` are renamed
`typ` and `defaultVal` (`Type` is reserved in Lean); `Items` is an optional
nested schema and `Properties` a list of children. -/
inductive FieldSchema where
  | mk (path name typ description : String) (required : Bool) (defaultVal : Option Value)
      (items : Option FieldSchema) (properties : List FieldSchema)

def FieldSchema.path : FieldSchema → String
  | .mk p _ _ _ _ _ _ _ => p

def FieldSchema.name : FieldSchema → String
  | .mk _ n _ _ _ _ _ _ => n

def FieldSchema.typ : FieldSchema → String
  | .mk _ _ t _ _ _ _ _ => t

def FieldSchema.description : FieldSchema → String
  | .mk _ _ _ d _ _ _ _ => d

def FieldSchema.required : FieldSchema → Bool
  | .mk _ _ _ _ r _ _ _ => r

def FieldSchema.defaultVal : FieldSchema → Option Value
  | .mk _ _ _ _ _ d _ _ => d

def FieldSchema.items : FieldSchema → Option FieldSchema
  | .mk _ _ _ _ _ _ i _ => i

def FieldSchema.properties : FieldSchema → List FieldSchema
  | .mk _ _ _ _ _ _ _ ps => ps

/-- Collect the string elements of a `required` array
(part_003 lines 226-233: non-strings are skipped). -/
def stringsOfVList : VList → List String
  | .nil => []
  | .cons (.str s) tl => s :: stringsOfVList tl
  | .cons _ tl => stringsOfVList tl

/-- The required-name set of a definition (part_003 lines 226-233); Go
keeps a `map[string]bool`, membership here is `List.contains`. -/
def requiredFieldsOf (d : VObj) : List String :=
  match d.get? "required" with
  | some (.arr a) => stringsOfVList a
  | _ => []

/-- `extractFields` (part_003 lines 217-330).  The `$ref` indirection makes
the Go recursion unbounded (it would not terminate on a cyclic schema
graph), so the embedding takes explicit fuel; every claim holds for every
fuel.  Property names are read off the representation in order, split into
required/optional and sorted (the Go source collects them from an
unordered map range and sorts both halves, so the outcome is the same). -/
def extractFields : VObj → String → VObj → Nat → List FieldSchema
  | _, _, _, 0 => []
  | d, pre, allS, fuel + 1 =>
    match d.get? "properties" with
    | some (.obj properties) =>
      let requiredNames := requiredFieldsOf d
      let names := properties.keys
      let propNames :=
        sortStrings (names.filter (fun n => requiredNames.contains n)) ++
          sortStrings (names.filter (fun n => !requiredNames.contains n))
      propNames.filterMap (fun name =>
        match properties.get? name with
        | some (.obj propDef) =>
          if pre = "" ∧ (name = "apiVersion" ∨ name = "kind" ∨ name = "status") then none
          else
            let path := if pre = "" then name else pre ++ "." ++ name
            let typ0 :=
              match propDef.get? "type" with
              | some (.str t) => t
              | _ => ""
            let desc0 :=
              match propDef.get? "description" with
              | some (.str ds) => ds
              | _ => ""
            let refRes : Option (List FieldSchema) :=
              match propDef.get? "$ref" with
              | some (.str ref) =>
                match allS.get? (strTrimPre ref "#/components/schemas/") with
                | some (.obj refDef) => some (extractFields refDef path allS fuel)
                | _ => none
              | _ => none
            let typ1 := match refRes with | some _ => "object" | none => typ0
            let props1 := match refRes with | some ps => ps | none => []
            let descProps :=
              if typ1 = "object" then
                match propDef.get? "additionalProperties" with
                | some (.obj addProps) =>
                  (match addProps.get? "type" with
                   | some (.str addType) => ("Map of string to " ++ addType ++ ". " ++ desc0, props1)
                   | _ => (desc0, props1))
                | _ =>
                  if props1.length = 0 then (desc0, extractFields propDef path allS fuel)
                  else (desc0, props1)
              else (desc0, props1)
            let items : Option FieldSchema :=
              if typ1 = "array" then
                match propDef.get? "items" with
                | some (.obj itemsDef) =>
                  let ityp :=
                    match itemsDef.get? "type" with
                    | some (.str t) => t
                    | _ => ""
                  match itemsDef.get? "$ref" with
                  | some (.str ref) =>
                    (match allS.get? (strTrimPre ref "#/components/schemas/") with
                     | some (.obj refDef) =>
                       some (.mk "" "" "object" "" false none none
                         (extractFields refDef (path ++ "[*]") allS fuel))
                     | _ => some (.mk "" "" ityp "" false none none []))
                  | _ => some (.mk "" "" ityp "" false none none [])
                | _ => none
              else none
            some (.mk path name typ1 descProps.1 (requiredNames.contains name)
              (propDef.get? "default") items descProps.2)
        | _ => none)
    | _ => []

/-- The loop body of `extractFields` for one property, at the given fuel
(identical text to the lambda above; `extractFields_succ` below ties them
together definitionally). -/
def buildField (fuel : Nat) (allS : VObj) (pre name : String) (requiredNames : List String)
    (propDef : VObj) : FieldSchema :=
  let path := if pre = "" then name else pre ++ "." ++ name
  let typ0 :=
    match propDef.get? "type" with
    | some (.str t) => t
    | _ => ""
  let desc0 :=
    match propDef.get? "description" with
    | some (.str ds) => ds
    | _ => ""
  let refRes : Option (List FieldSchema) :=
    match propDef.get? "$ref" with
    | some (.str ref) =>
      match allS.get? (strTrimPre ref "#/components/schemas/") with
      | some (.obj refDef) => some (extractFields refDef path allS fuel)
      | _ => none
    | _ => none
  let typ1 := match refRes with | some _ => "object" | none => typ0
  let props1 := match refRes with | some ps => ps | none => []
  let descProps :=
    if typ1 = "object" then
      match propDef.get? "additionalProperties" with
      | some (.obj addProps) =>
        (match addProps.get? "type" with
         | some (.str addType) => ("Map of string to " ++ addType ++ ". " ++ desc0, props1)
         | _ => (desc0, props1))
      | _ =>
        if props1.length = 0 then (desc0, extractFields propDef path allS fuel)
        else (desc0, props1)
    else (desc0, props1)
  let items : Option FieldSchema :=
    if typ1 = "array" then
      match propDef.get? "items" with
      | some (.obj itemsDef) =>
        let ityp :=
          match itemsDef.get? "type" with
          | some (.str t) => t
          | _ => ""
        match itemsDef.get? "$ref" with
        | some (.str ref) =>
          (match allS.get? (strTrimPre ref "#/components/schemas/") with
           | some (.obj refDef) =>
             some (.mk "" "" "object" "" false none none
               (extractFields refDef (path ++ "[*]") allS fuel))
           | _ => some (.mk "" "" ityp "" false none none []))
        | _ => some (.mk "" "" ityp "" false none none [])
      | _ => none
    else none
  .mk path name typ1 descProps.1 (requiredNames.contains name)
    (propDef.get? "default") items descProps.2

theorem extractFields_succ (d : VObj) (pre : String) (allS : VObj) (fuel : Nat) :
    extractFields d pre allS (fuel + 1) =
      match d.get? "properties" with
      | some (.obj properties) =>
        (sortStrings (properties.keys.filter (fun n => (requiredFieldsOf d).contains n)) ++
          sortStrings (properties.keys.filter (fun n => !(requiredFieldsOf d).contains n))).filterMap
          (fun name =>
            match properties.get? name with
            | some (.obj propDef) =>
              if pre = "" ∧ (name = "apiVersion" ∨ name = "kind" ∨ name = "status") then none
              else some (buildField fuel allS pre name (requiredFieldsOf d) propDef)
            | _ => none)
      | _ => [] := rfl

end KCR

namespace KCR

theorem strData_inj {a b : String} (h : a.data = b.data) : a = b := by
  cases a; cases b; exact congrArg String.mk h

theorem charsLt_trans : ∀ (a b c : List Char),
    charsLt a b = true → charsLt b c = true → charsLt a c = true := by
  intro a
  induction a with
  | nil =>
    intro b c h1 h2
    cases b with
    | nil => simp [charsLt] at h1
    | cons y ys =>
      cases c with
      | nil => simp [charsLt] at h2
      | cons z zs => rfl
  | cons x xs ih =>
    intro b c h1 h2
    cases b with
    | nil => simp [charsLt] at h1
    | cons y ys =>
      cases c with
      | nil => simp [charsLt] at h2
      | cons z zs =>
        rw [charsLt] at h1 h2 ⊢
        by_cases hxy : x.val.toNat < y.val.toNat
        · by_cases hyz : y.val.toNat < z.val.toNat
          · rw [if_pos (by omega : x.val.toNat < z.val.toNat)]
          · by_cases hzy : z.val.toNat < y.val.toNat
            · rw [if_neg hyz, if_pos hzy] at h2
              exact absurd h2 (by simp)
            · rw [if_pos (by omega : x.val.toNat < z.val.toNat)]
        · by_cases hyx : y.val.toNat < x.val.toNat
          · rw [if_neg hxy, if_pos hyx] at h1
            exact absurd h1 (by simp)
          · rw [if_neg hxy, if_neg hyx] at h1
            by_cases hyz : y.val.toNat < z.val.toNat
            · rw [if_pos (by omega : x.val.toNat < z.val.toNat)]
            · by_cases hzy : z.val.toNat < y.val.toNat
              · rw [if_neg hyz, if_pos hzy] at h2
                exact absurd h2 (by simp)
              · rw [if_neg hyz, if_neg hzy] at h2
                rw [if_neg (by omega : ¬x.val.toNat < z.val.toNat),
                  if_neg (by omega : ¬z.val.toNat < x.val.toNat)]
                exact ih ys zs h1 h2

theorem char_eq_of_toNat_eq {x y : Char} (h : x.val.toNat = y.val.toNat) : x = y := by
  apply Char.ext
  exact UInt32.ext h

theorem charsLt_total : ∀ (a b : List Char),
    charsLt a b = true ∨ charsLt b a = true ∨ a = b := by
  intro a
  induction a with
  | nil =>
    intro b
    cases b with
    | nil => right; right; rfl
    | cons y ys => left; rfl
  | cons x xs ih =>
    intro b
    cases b with
    | nil => right; left; rfl
    | cons y ys =>
      rcases Nat.lt_trichotomy x.val.toNat y.val.toNat with h | h | h
      · left; rw [charsLt, if_pos h]
      · have hxy : x = y := char_eq_of_toNat_eq h
        subst hxy
        rcases ih ys with h1 | h1 | h1
        · left; rw [charsLt, if_neg (lt_irrefl _), if_neg (lt_irrefl _)]; exact h1
        · right; left; rw [charsLt, if_neg (lt_irrefl _), if_neg (lt_irrefl _)]; exact h1
        · right; right; rw [h1]
      · right; left; rw [charsLt, if_pos h]

theorem strLe_total (a b : String) : strLe a b = true ∨ strLe b a = true := by
  rcases charsLt_total a.data b.data with h | h | h
  · left; simp [strLe, strLt, h]
  · right; simp [strLe, strLt, h]
  · left; simp [strLe, strData_inj h]

theorem strLe_refl (a : String) : strLe a a = true := by simp [strLe]

theorem strLe_trans {a b c : String} (h1 : strLe a b = true) (h2 : strLe b c = true) :
    strLe a c = true := by
  simp only [strLe, Bool.or_eq_true, decide_eq_true_eq] at h1 h2 ⊢
  rcases h1 with h1 | h1
  · subst h1; exact h2
  · rcases h2 with h2 | h2
    · subst h2; right; exact h1
    · right; exact charsLt_trans _ _ _ h1 h2

theorem mem_insertSorted {x z : String} : ∀ {l : List String},
    z ∈ insertSorted x l → z = x ∨ z ∈ l := by
  intro l
  induction l with
  | nil => intro h; simp [insertSorted] at h; left; exact h
  | cons y ys ih =>
    intro h
    unfold insertSorted at h
    by_cases hle : strLe x y = true
    · rw [if_pos hle] at h
      rcases List.mem_cons.mp h with h | h
      · left; exact h
      · right; exact h
    · rw [if_neg hle] at h
      rcases List.mem_cons.mp h with h | h
      · right; exact h ▸ List.mem_cons_self y ys
      · rcases ih h with h | h
        · left; exact h
        · right; exact List.mem_cons_of_mem y h

theorem insertSorted_perm (x : String) :
    ∀ (l : List String), List.Perm (insertSorted x l) (x :: l) := by
  intro l
  induction l with
  | nil => simp [insertSorted]
  | cons y ys ih =>
    unfold insertSorted
    by_cases hle : strLe x y = true
    · rw [if_pos hle]
    · rw [if_neg hle]
      exact List.Perm.trans (List.Perm.cons y ih) (List.Perm.swap x y ys)

theorem sortStrings_perm : ∀ (l : List String), List.Perm (sortStrings l) l := by
  intro l
  induction l with
  | nil => exact List.Perm.refl []
  | cons x xs ih =>
    unfold sortStrings
    exact List.Perm.trans (insertSorted_perm x _) (List.Perm.cons x ih)

theorem pairwise_insertSorted {x : String} :
    ∀ {l : List String}, l.Pairwise (fun a b => strLe a b = true) →
      (insertSorted x l).Pairwise (fun a b => strLe a b = true) := by
  intro l
  induction l with
  | nil => intro _; simp [insertSorted]
  | cons y ys ih =>
    intro h
    rcases List.pairwise_cons.mp h with ⟨hy, hys⟩
    unfold insertSorted
    by_cases hle : strLe x y = true
    · rw [if_pos hle]
      refine List.pairwise_cons.mpr ⟨?_, h⟩
      intro z hz
      rcases List.mem_cons.mp hz with hz | hz
      · exact hz ▸ hle
      · exact strLe_trans hle (hy z hz)
    · rw [if_neg hle]
      have hyx : strLe y x = true := by
        rcases strLe_total x y with h' | h'
        · exact absurd h' hle
        · exact h'
      refine List.pairwise_cons.mpr ⟨?_, ih hys⟩
      intro z hz
      rcases mem_insertSorted hz with hz | hz
      · exact hz ▸ hyx
      · exact hy z hz

theorem pairwise_sortStrings (l : List String) :
    (sortStrings l).Pairwise (fun a b => strLe a b = true) := by
  induction l with
  | nil => simp [sortStrings]
  | cons x xs ih => exact pairwise_insertSorted ih

theorem mem_sortStrings {z : String} {l : List String} :
    z ∈ sortStrings l ↔ z ∈ l :=
  (sortStrings_perm l).mem_iff

end KCR

namespace KCR

theorem map_name_filterMap {f : String → Option FieldSchema} :
    ∀ {l : List String}, (∀ a b, f a = some b → b.name = a) →
      (l.filterMap f).map FieldSchema.name = l.filter (fun a => (f a).isSome) := by
  intro l hf
  induction l with
  | nil => rfl
  | cons a as ih =>
    cases hfa : f a with
    | none => simp [List.filterMap_cons, hfa, ih]
    | some b => simp [List.filterMap_cons, hfa, hf a b hfa, ih]

/-- The worked schema of the C2 example: properties `image`, `name`
(optional) and `replicas` (required). -/
def c2Example : VObj :=
  VObj.ofList
    [("properties", .obj (VObj.ofList
        [("image", .obj (VObj.ofList [("type", .str "string")])),
         ("name", .obj (VObj.ofList [("type", .str "string")])),
         ("replicas", .obj (VObj.ofList [("type", .str "integer")]))])),
     ("required", .arr (VList.ofList [.str "replicas"]))]

/-- C2: the field extractor emits nodes with required property names first
in alphabetical order, then optional property names in alphabetical order;
in particular required `replicas` with optional `image`/`name` produces
`[replicas, image, name]`. -/
theorem claim_C2 :
    (∀ (d : VObj) (pre : String) (allS : VObj) (fuel : Nat),
      ∃ r o, (extractFields d pre allS fuel).map FieldSchema.name = r ++ o ∧
        r.Pairwise (fun a b => strLe a b = true) ∧
        o.Pairwise (fun a b => strLe a b = true) ∧
        (∀ n ∈ r, (requiredFieldsOf d).contains n = true) ∧
        (∀ n ∈ o, (requiredFieldsOf d).contains n = false)) ∧
      (extractFields c2Example "spec" VObj.nil 1).map FieldSchema.name =
        ["replicas", "image", "name"] := by
  constructor
  · intro d pre allS fuel
    cases fuel with
    | zero =>
      exact ⟨[], [], by simp [extractFields], by simp, by simp, by simp, by simp⟩
    | succ fuel =>
      rw [extractFields_succ]
      cases hobj : d.get? "properties" with
      | none =>
        exact ⟨[], [], by simp, by simp, by simp, by simp, by simp⟩
      | some v =>
        cases v
        case obj properties =>
          have hname : ∀ a b,
              (match properties.get? a with
                | some (.obj propDef) =>
                  if pre = "" ∧ (a = "apiVersion" ∨ a = "kind" ∨ a = "status") then none
                  else some (buildField fuel allS pre a (requiredFieldsOf d) propDef)
                | _ => none) = some b → b.name = a := by
            intro a b h
            split at h
            · split at h
              · exact absurd h (by simp)
              · rw [Option.some_inj] at h
                rw [← h]
                rfl
            · exact absurd h (by simp)
          rw [map_name_filterMap hname, List.filter_append]
          refine ⟨_, _, rfl, (pairwise_sortStrings _).filter _,
            (pairwise_sortStrings _).filter _, ?_, ?_⟩
          · intro n hn
            have h1 := (List.mem_filter.mp hn).1
            have h2 := mem_sortStrings.mp h1
            exact (List.mem_filter.mp h2).2
          · intro n hn
            have h1 := (List.mem_filter.mp hn).1
            have h2 := mem_sortStrings.mp h1
            have h3 := (List.mem_filter.mp h2).2
            simpa using h3
        all_goals exact ⟨[], [], by simp, by simp, by simp, by simp, by simp⟩
  · decide

/-- C2 witness: the instance of the ordering contract at the worked
example. -/
theorem claim_C2_witness :
    (extractFields c2Example "spec" VObj.nil 1).map FieldSchema.name =
      ["replicas", "image", "name"] := claim_C2.2

end KCR

namespace KCR

/-- The schema used to refute C9: one `object` property with
`additionalProperties` of element type `string`. -/
def c9Example : VObj :=
  VObj.ofList
    [("properties", .obj (VObj.ofList
        [("selector", .obj (VObj.ofList
            [("additionalProperties", .obj (VObj.ofList [("type", .str "string")])),
             ("description", .str "label selector"),
             ("type", .str "object")]))]))]

/-- C9 counterexample: the node produced for an object property with
`additionalProperties` keeps kind `object` — it is never re-tagged `map`
(the element type is only surfaced through the description, and there are
no children). -/
theorem claim_C9_cex :
    (extractFields c9Example "spec" VObj.nil 2).map FieldSchema.typ = ["object"] ∧
      (extractFields c9Example "spec" VObj.nil 2).map FieldSchema.description =
        ["Map of string to string. label selector"] ∧
      (extractFields c9Example "spec" VObj.nil 2).map (fun f => f.properties.length) = [0] ∧
      ("object" : String) ≠ "map" := by
  decide

/-- C9 (amended): for an object property that declares
`additionalProperties` with an element type and carries no `$ref`, the
extractor keeps the node's kind `object`, prepends
`Map of string to <type>. ` to its description, and expands no children. -/
theorem claim_C9 (fuel : Nat) (allS : VObj) (pre name : String) (req : List String)
    (propDef addProps : VObj) (t d0 : String)
    (h1 : propDef.get? "type" = some (.str "object"))
    (h2 : propDef.get? "$ref" = none)
    (h3 : propDef.get? "additionalProperties" = some (.obj addProps))
    (h4 : addProps.get? "type" = some (.str t))
    (h5 : propDef.get? "description" = some (.str d0)) :
    (buildField fuel allS pre name req propDef).typ = "object" ∧
      (buildField fuel allS pre name req propDef).description =
        "Map of string to " ++ t ++ ". " ++ d0 ∧
      (buildField fuel allS pre name req propDef).properties = [] := by
  refine ⟨?_, ?_, ?_⟩ <;>
    simp [buildField, h1, h2, h3, h4, h5, FieldSchema.typ, FieldSchema.description,
      FieldSchema.properties]

/-- C9 witness: the amended claim at the concrete selector property. -/
theorem claim_C9_witness :
    (buildField 1 VObj.nil "spec" "selector" []
        (VObj.ofList
          [("additionalProperties", .obj (VObj.ofList [("type", .str "string")])),
           ("description", .str "d"), ("type", .str "object")])).typ = "object" ∧
      (buildField 1 VObj.nil "spec" "selector" []
          (VObj.ofList
            [("additionalProperties", .obj (VObj.ofList [("type", .str "string")])),
             ("description", .str "d"), ("type", .str "object")])).description =
        "Map of string to " ++ "string" ++ ". " ++ "d" ∧
      (buildField 1 VObj.nil "spec" "selector" []
          (VObj.ofList
            [("additionalProperties", .obj (VObj.ofList [("type", .str "string")])),
             ("description", .str "d"), ("type", .str "object")])).properties = [] :=
  claim_C9 1 VObj.nil "spec" "selector" []
    (VObj.ofList
      [("additionalProperties", .obj (VObj.ofList [("type", .str "string")])),
       ("description", .str "d"), ("type", .str "object")])
    (VObj.ofList [("type", .str "string")]) "string" "d"
    (by decide) (by decide) (by decide) (by decide) (by decide)

end KCR

namespace KCR

/-! ## `pkg/client` schema retrieval (part_003: `GetSchema` and helpers) -/

/-- A GroupVersionKind. -/
structure GVK where
  group : String
  version : String
  kind : String
  deriving DecidableEq

/-- Capitalize the first byte of a resource name
(`strings.ToUpper(resource[:1]) + resource[1:]`, ASCII). -/
def upperFirst (s : String) : String :=
  match s.data with
  | [] => ""
  | c :: rest => String.mk (c.toUpper :: rest)

/-- `resourceToKind` (part_003 lines 371-396): irregular names, then the
plural heuristic (`ies` to `y`, `ses` drops `es`, plain `s` dropped) and
first-letter capitalization. -/
def resourceToKind (resource : String) : String :=
  match lookupStr [("endpoints", "Endpoints"), ("queues", "Queue")] resource with
  | some kind => kind
  | none =>
    let r :=
      if strHasSuf resource "ies" then strTrimSuf resource "ies" ++ "y"
      else if strHasSuf resource "ses" then strTrimSuf resource "es"
      else if strHasSuf resource "s" then strTrimSuf resource "s"
      else resource
    upperFirst r

/-- `gvrToGVK` (part_003 lines 122-128). -/
def gvrToGVK (gvr : GVR) : GVK :=
  ⟨gvr.group, gvr.version, resourceToKind gvr.resource⟩

/-- `buildTargetPaths` (part_003 lines 104-119). -/
def buildTargetPaths (gvr : GVR) : List String :=
  if gvr.group = "" then ["api/" ++ gvr.version]
  else ["apis/" ++ gvr.group ++ "/" ++ gvr.version, "apis/" ++ gvr.group, gvr.group]

/-- `gvkToSchemaRef` (part_003 lines 399-405). -/
def gvkToSchemaRef (gvk : GVK) : String :=
  if gvk.group = "" then "io.k8s.api.core." ++ gvk.version ++ "." ++ gvk.kind
  else "io.k8s.api." ++ (strSplitDot gvk.group).headD "" ++ "." ++ gvk.version ++ "." ++ gvk.kind

/-- First schema entry accepted by a matching rule (the Go `for name, def
:= range schemas` loops; range order is unspecified, the claims below hold
for any order because they hypothesize that no entry matches). -/
def findFirst (p : String → Value → Option VObj) : VObj → Option VObj
  | .nil => none
  | .cons k v tl =>
    match p k v with
    | some d => some d
    | none => findFirst p tl

/-- `findResourceSchema` (part_003 lines 168-214): the three escalating
match strategies. -/
def findResourceSchema (schemas : VObj) (gvk : GVK) (gvr : GVR) : Option VObj :=
  let strat1 := findFirst (fun name d =>
    if strHasSuf name ("." ++ gvk.kind) then
      match d with
      | .obj dd => if (dd.get? "properties").isSome then some dd else none
      | _ => none
    else none) schemas
  match strat1 with
  | some d => some d
  | none =>
    let groupParts := strSplitDot gvr.group
    let strat2 := findFirst (fun name d =>
      let nameLower := strToLower name
      if groupParts.all (fun part => strContains nameLower (strToLower part)) &&
          strContains nameLower (strToLower gvk.kind) then
        match d with
        | .obj dd => if (dd.get? "properties").isSome then some dd else none
        | _ => none
      else none) schemas
    match strat2 with
    | some d => some d
    | none =>
      findFirst (fun name d =>
        if strContains name (gvkToSchemaRef gvk) then
          match d with
          | .obj dd => some dd
          | _ => none
        else none) schemas

/-- `ResourceSchema` (part_003 lines 15-19). -/
structure ResourceSchema where
  gvk : GVK
  description : String
  fields : List FieldSchema

/-- `createBasicSchema` (part_003 lines 333-368): the fixed four-field
fallback shape. -/
def createBasicSchema (gvk : GVK) : ResourceSchema :=
  ⟨gvk, "A " ++ gvk.kind ++ " resource",
    [.mk "metadata.name" "name" "string" "Name of the resource" true none none [],
     .mk "metadata.namespace" "namespace" "string" "Namespace of the resource" false none none [],
     .mk "metadata.labels" "labels" "object" "Labels for the resource" false none none [],
     .mk "metadata.annotations" "annotations" "object" "Annotations for the resource" false none none []]⟩

/-- The `components.schemas` object of a decoded OpenAPI document, when
present (`parseOpenAPISchema`, part_003 lines 131-151). -/
def schemasOf (v : Value) : Option VObj :=
  match v with
  | .obj spec =>
    match spec.get? "components" with
    | some (.obj comps) =>
      match comps.get? "schemas" with
      | some (.obj s) => some s
      | _ => none
    | _ => none
  | _ => none

/-- `parseOpenAPISchema` (part_003 lines 131-165) on an already-decoded
JSON value (the byte-level `json.Unmarshal` of the external codec is
abstracted into the decoding of the path entry). -/
def parseOpenAPISchemaM (v : Value) (gvk : GVK) (gvr : GVR) (fuel : Nat) :
    Except String ResourceSchema :=
  match schemasOf v with
  | none => .error "no components or schemas"
  | some schemas =>
    match findResourceSchema schemas gvk gvr with
    | none => .error "schema not found"
    | some resourceDef =>
      let fields := extractFields resourceDef "" schemas fuel
      let description :=
        match resourceDef.get? "description" with
        | some (.str d) => d
        | _ => ""
      .ok ⟨gvk, description, fields⟩

/-- The discovery boundary: `OpenAPIV3()` may be unavailable, `Paths()` may
fail, and each path entry's `Schema("application/json")` fetch plus JSON
decoding yields a value or an error. -/
structure DiscoveryClient where
  openAPI : Option (Except String (List (String × Except String Value)))

/-- The path loop of `GetSchema` (part_003 lines 56-85): entries not
matching any target pattern are skipped; fetch or parse failures continue;
the first successful parse is returned; exhaustion falls back to the basic
schema. -/
def getSchemaLoop (gvk : GVK) (gvr : GVR) (patterns : List String) (fuel : Nat) :
    List (String × Except String Value) → Except String ResourceSchema
  | [] => .ok (createBasicSchema gvk)
  | (pathKey, sv) :: rest =>
    if patterns.any (fun pat => strContains pathKey pat) then
      match sv with
      | .error _ => getSchemaLoop gvk gvr patterns fuel rest
      | .ok v =>
        match parseOpenAPISchemaM v gvk gvr fuel with
        | .error _ => getSchemaLoop gvk gvr patterns fuel rest
        | .ok rs => .ok rs
    else getSchemaLoop gvk gvr patterns fuel rest

/-- `GetSchema` (part_003 lines 34-101): every failure of the OpenAPI
boundary degrades to the basic schema; only a successfully located and
parsed resource schema is returned instead. -/
def getSchema (client : DiscoveryClient) (gvr : GVR) (fuel : Nat) :
    Except String ResourceSchema :=
  match client.openAPI with
  | none => .ok (createBasicSchema (gvrToGVK gvr))
  | some (.error _) => .ok (createBasicSchema (gvrToGVK gvr))
  | some (.ok paths) =>
    getSchemaLoop (gvrToGVK gvr) gvr (buildTargetPaths gvr) fuel paths

theorem parseOpenAPISchemaM_err (v : Value) (gvk : GVK) (gvr : GVR) (fuel : Nat)
    (h : ∀ schemas, schemasOf v = some schemas → findResourceSchema schemas gvk gvr = none) :
    ∃ e, parseOpenAPISchemaM v gvk gvr fuel = .error e := by
  unfold parseOpenAPISchemaM
  cases hs : schemasOf v with
  | none => exact ⟨_, rfl⟩
  | some schemas =>
    dsimp only
    rw [h schemas hs]
    exact ⟨_, rfl⟩

theorem getSchemaLoop_basic (gvk : GVK) (gvr : GVR) (patterns : List String) (fuel : Nat) :
    ∀ (paths : List (String × Except String Value)),
      (∀ pk sv, (pk, sv) ∈ paths → ∀ v, sv = .ok v →
        ∀ schemas, schemasOf v = some schemas →
          findResourceSchema schemas gvk gvr = none) →
      getSchemaLoop gvk gvr patterns fuel paths = .ok (createBasicSchema gvk) := by
  intro paths
  induction paths with
  | nil => intro _; rfl
  | cons e rest ih =>
    intro h
    obtain ⟨pathKey, sv⟩ := e
    have hrest := fun pk sv hm => h pk sv (List.mem_cons_of_mem _ hm)
    unfold getSchemaLoop
    by_cases hm : patterns.any (fun pat => strContains pathKey pat) = true
    · rw [if_pos hm]
      cases sv with
      | error e => exact ih hrest
      | ok v =>
        obtain ⟨e, he⟩ := parseOpenAPISchemaM_err v gvk gvr fuel
          (fun schemas hs =>
            h pathKey (.ok v) (List.mem_cons_self _ _) v rfl schemas hs)
        dsimp only
        rw [he]
        exact ih hrest
    · rw [if_neg hm]
      exact ih hrest

/-- C7: whenever the resource's shape cannot be located by any of the three
match strategies in any reachable schema set, `GetSchema` never fails — it
returns the fixed 4-field basic shape (`metadata.name` string required;
`metadata.namespace`, `metadata.labels`, `metadata.annotations` optional). -/
theorem claim_C7 (client : DiscoveryClient) (gvr : GVR) (fuel : Nat)
    (h : ∀ paths, client.openAPI = some (.ok paths) →
      ∀ pk sv, (pk, sv) ∈ paths → ∀ v, sv = .ok v →
        ∀ schemas, schemasOf v = some schemas →
          findResourceSchema schemas (gvrToGVK gvr) gvr = none) :
    getSchema client gvr fuel = .ok (createBasicSchema (gvrToGVK gvr)) ∧
      (createBasicSchema (gvrToGVK gvr)).fields.map (fun f => (f.path, f.typ, f.required)) =
        [("metadata.name", "string", true), ("metadata.namespace", "string", false),
         ("metadata.labels", "object", false), ("metadata.annotations", "object", false)] := by
  constructor
  · unfold getSchema
    cases ho : client.openAPI with
    | none => rfl
    | some r =>
      cases r with
      | error e => rfl
      | ok paths => exact getSchemaLoop_basic _ _ _ _ paths (h paths ho)
  · rfl

/-- C7 witness: a concrete client whose only schema set contains nothing
matching `deployments.apps`, yielding exactly the basic schema. -/
theorem claim_C7_witness :
    getSchema
        ⟨some (.ok [("apis/apps/v1", .ok (.obj (VObj.ofList
          [("components", .obj (VObj.ofList
            [("schemas", .obj (VObj.ofList
              [("other.Thing", .obj (VObj.ofList
                [("properties", .obj VObj.nil)]))]))]))])))])⟩
        ⟨"apps", "v1", "deployments"⟩ 3 =
      .ok (createBasicSchema (gvrToGVK ⟨"apps", "v1", "deployments"⟩)) :=
  (claim_C7
    ⟨some (.ok [("apis/apps/v1", .ok (.obj (VObj.ofList
      [("components", .obj (VObj.ofList
        [("schemas", .obj (VObj.ofList
          [("other.Thing", .obj (VObj.ofList
            [("properties", .obj VObj.nil)]))]))]))])))])⟩
    ⟨"apps", "v1", "deployments"⟩ 3
    (by
      intro paths hp pk sv hm v hv schemas hs
      rw [Option.some_inj] at hp
      rcases hp
      rcases List.mem_singleton.mp hm
      rcases hv
      rcases hs
      decide)).1

end KCR

namespace KCR

/-! ## `pkg/prompt` field collection (prompt.go) -/

/-- Errors of the external prompt library: the user interrupt (treated
specially by the sources) and any other failure. -/
inductive PErr where
  | interrupt
  | fail
  deriving DecidableEq

/-- The interactive boundary: `promptForField` (prompt.go lines 206-242,
promptui internals included) modelled as an oracle from the field schema
and the optional template default to the user's typed value or an error. -/
structure PromptOracle where
  onField : FieldSchema → Option Value → Except PErr Value

/-- `inferType` (prompt.go lines 136-149); note the source maps `float64`
to "integer" as well. -/
def inferType (val : Value) : String :=
  match val with
  | .bool _ => "boolean"
  | .int _ => "integer"
  | .float _ _ => "integer"
  | .arr _ => "array"
  | .obj _ => "object"
  | _ => "string"

/-- `strings.SplitN(sv, "=", 2)` restricted to what `ParseSetValues` needs:
the text before the first `=` and everything after it, or `none` when
there is no `=` (in which case the Go split has one part and the length
check fails). -/
def splitEq (s : String) : Option (String × String) :=
  let rec go : List Char → List Char → Option (String × String)
    | [], _ => none
    | c :: rest, acc => if c = '=' then some (String.mk acc.reverse, String.mk rest) else go rest (c :: acc)
  go s.data []

/-- The loop of `ParseSetValues` (part_006 lines 14-36). -/
def parseSetValuesLoop : List String → VObj → Except String VObj
  | [], acc => .ok acc
  | sv :: rest, acc =>
    match splitEq sv with
    | none => .error "invalid --set format"
    | some (k0, v0) =>
      let key := strTrimSpace k0
      let value := strTrimSpace v0
      if key = "" then .error "empty key in --set"
      else parseSetValuesLoop rest (acc.set key (parseValue value))

/-- `ParseSetValues` parses every `--set` assignment into a typed map. -/
def parseSetValues (setValues : List String) : Except String VObj :=
  parseSetValuesLoop setValues VObj.nil

/-- Decimal rendering of an integer. -/
def intToStr (n : Int) : String :=
  if n < 0 then "-" ++ natToStr (-n).toNat else natToStr n.toNat

/-- Go `fmt.Sprintf("%v", v)` for the scalar values the sources format;
float and composite formatting is abstracted (no claim depends on it). -/
def goSprintV (v : Value) : String :=
  match v with
  | .null => "<nil>"
  | .bool b => if b then "true" else "false"
  | .int n => intToStr n
  | .float _ _ => "<float>"
  | .str s => s
  | .arr _ => "<slice>"
  | .obj _ => "<map>"

/-- The per-path loop of `promptForTemplateFields` (prompt.go lines
103-130), carrying the evolving value map and the log of paths actually
offered for interactive edit (the log is instrumentation for the theorems;
the source has no such value). -/
def ptfGo (oracle : PromptOracle) (flagValues : VObj) :
    List String → VObj → List String → Except String (VObj × List String)
  | [], vals, log => .ok (vals, log)
  | path :: rest, vals, log =>
    if (flagValues.get? path).isSome then ptfGo oracle flagValues rest vals log
    else
      let currentVal :=
        match vals.get? path with
        | some cv => cv
        | none => .null
      let field : FieldSchema := .mk path path (inferType currentVal) "" false none none []
      match oracle.onField field (some currentVal) with
      | .error .interrupt => .error "interrupted"
      | .error .fail => ptfGo oracle flagValues rest vals (log ++ [path])
      | .ok newVal =>
        if newVal ≠ .null ∧ newVal ≠ .str "" then
          ptfGo oracle flagValues rest (vals.set path newVal) (log ++ [path])
        else ptfGo oracle flagValues rest vals (log ++ [path])

/-- `promptForTemplateFields` (prompt.go lines 89-133): every current
value path under `spec.` without a bracket, sorted, is offered unless it
was supplied by a flag. -/
def promptForTemplateFields (oracle : PromptOracle) (vals flagValues : VObj) :
    Except String (VObj × List String) :=
  ptfGo oracle flagValues
    (sortStrings (vals.keys.filter (fun p => strHasPre p "spec." && !strContainsChar p '[')))
    vals []

/-- `promptForFields` (prompt.go lines 152-202): the schema-driven walk
used when no template is given.  The recursion into object children makes
the Go recursion structural on the field tree; the embedding uses fuel. -/
def promptForFields (oracle : PromptOracle) : Nat → List FieldSchema → VObj → VObj →
    Except String (VObj × List String)
  | 0, _, vals, _ => .ok (vals, [])
  | fuel + 1, fields, vals, flagValues =>
    fields.foldl (fun acc field =>
      match acc with
      | .error e => .error e
      | .ok (vals, log) =>
        if (flagValues.get? field.path).isSome then .ok (vals, log)
        else if strHasPre field.path "metadata." then .ok (vals, log)
        else if field.required || strHasPre field.path "spec." then
          if field.typ = "object" ∧ field.properties.length ≠ 0 then
            match promptForFields oracle fuel field.properties vals flagValues with
            | .error e => .error e
            | .ok r => .ok (r.1, log ++ r.2)
          else if field.typ = "object" ∧ field.properties.length = 0 then .ok (vals, log)
          else
            match oracle.onField field none with
            | .error .interrupt => .error "interrupted"
            | .error .fail => .ok (vals, log ++ [field.path])
            | .ok val =>
              if val ≠ .null ∧ val ≠ .str "" then
                .ok (vals.set field.path val, log ++ [field.path])
              else .ok (vals, log ++ [field.path])
        else .ok (vals, log)) (.ok (vals, []))

/-- The name-resolution step of `CollectFieldValuesWithTemplate`
(prompt.go lines 50-69): keep a non-empty `--name`, else use the collected
`metadata.name` formatted with `%v`, else prompt (any prompt error aborts;
a non-string prompt result models the source's interface-conversion
panic). -/
def resolveName (oracle : PromptOracle) (name : String) (values : VObj) :
    Except String String :=
  if name = "" then
    match values.get? "metadata.name" with
    | some nameVal => .ok (goSprintV nameVal)
    | none =>
      match oracle.onField
          (.mk "metadata.name" "name" "string" "Name of the resource" true none none [])
          none with
      | .error _ => .error "prompt failed"
      | .ok (.str s) => .ok s
      | .ok _ => .error "interface conversion panic"
  else .ok name

/-- The result of collection: the resolved name and the final value map in
canonical form (`CollectedValues` of prompt.go lines 14-17). -/
structure Collected where
  name : String
  values : VObj
  deriving DecidableEq

/-- `CollectFieldValuesWithTemplate` (prompt.go lines 25-86): parse flags,
seed from the template, override with flags, resolve the name (the `--name`
flag, else the collected `metadata.name`, else a prompt whose failure
aborts), force `metadata.name`, then either the template confirm-or-override
pass or the schema-driven walk.  The second component is the log of paths
offered for interactive edit. -/
def collectFieldValuesWithTemplate (oracle : PromptOracle) (schema : ResourceSchema)
    (name : String) (setValues : List String) (templateValues : Option VObj) (fuel : Nat) :
    Except String (Collected × List String) :=
  match parseSetValues setValues with
  | .error e => .error e
  | .ok flagValues =>
    let base :=
      match templateValues with
      | some t => vobjFold VObj.nil t
      | none => VObj.nil
    let values := vobjFold base flagValues
    match resolveName oracle name values with
    | .error e => .error e
    | .ok finalName =>
      let values := values.set "metadata.name" (.str finalName)
      match templateValues with
      | some _ =>
        match promptForTemplateFields oracle values flagValues with
        | .error e => .error e
        | .ok r => .ok (⟨finalName, r.1⟩, r.2)
      | none =>
        match promptForFields oracle fuel schema.fields values flagValues with
        | .error e => .error e
        | .ok r => .ok (⟨finalName, r.1⟩, r.2)

end KCR

namespace KCR

theorem charsLt_irrefl : ∀ (l : List Char), charsLt l l = false := by
  intro l
  induction l with
  | nil => rfl
  | cons c cs ih => rw [charsLt, if_neg (lt_irrefl _), if_neg (lt_irrefl _)]; exact ih

theorem strLt_irrefl (a : String) : strLt a a = false := charsLt_irrefl a.data

theorem strLt_trichotomy (a b : String) : strLt a b = true ∨ strLt b a = true ∨ a = b := by
  rcases charsLt_total a.data b.data with h | h | h
  · left; exact h
  · right; left; exact h
  · right; right; exact strData_inj h

theorem strLt_trans {a b c : String} (h1 : strLt a b = true) (h2 : strLt b c = true) :
    strLt a c = true := charsLt_trans _ _ _ h1 h2

/-- Keys strictly ascending: the canonical-representation invariant for
`VObj` maps built through `VObj.set`. -/
def VObj.SortedKeys (m : VObj) : Prop := m.keys.Pairwise (fun a b => strLt a b = true)

theorem VObj.mem_keys_set : ∀ (m : VObj) (k z : String) (v : Value),
    z ∈ (m.set k v).keys → z = k ∨ z ∈ m.keys
  | .nil, k, z, v, h => by
    simp [VObj.set, VObj.keys] at h
    left; exact h
  | .cons k' w tl, k, z, v, h => by
    unfold VObj.set at h
    by_cases hk : k' = k
    · rw [if_pos hk] at h
      rcases List.mem_cons.mp h with h | h
      · left; exact hk ▸ h
      · right; exact List.mem_cons_of_mem _ h
    · rw [if_neg hk] at h
      by_cases hlt : strLt k k' = true
      · rw [if_pos hlt] at h
        rcases List.mem_cons.mp h with h | h
        · left; exact h
        · right; exact h
      · rw [if_neg hlt] at h
        rcases List.mem_cons.mp h with h | h
        · right; exact h ▸ List.mem_cons_self _ _
        · rcases VObj.mem_keys_set tl k z v h with h | h
          · left; exact h
          · right; exact List.mem_cons_of_mem _ h

theorem VObj.sortedKeys_set : ∀ (m : VObj) (k : String) (v : Value),
    m.SortedKeys → (m.set k v).SortedKeys
  | .nil, k, v, _ => by simp [VObj.set, VObj.SortedKeys, VObj.keys]
  | .cons k' w tl, k, v, h => by
    unfold VObj.SortedKeys VObj.keys at h
    rcases List.pairwise_cons.mp h with ⟨hk', htl⟩
    unfold VObj.set
    by_cases hk : k' = k
    · rw [if_pos hk]
      exact h
    · rw [if_neg hk]
      by_cases hlt : strLt k k' = true
      · rw [if_pos hlt]
        unfold VObj.SortedKeys VObj.keys
        refine List.pairwise_cons.mpr ⟨?_, h⟩
        intro z hz
        rcases List.mem_cons.mp hz with hz | hz
        · exact hz ▸ hlt
        · exact strLt_trans hlt (hk' z hz)
      · rw [if_neg hlt]
        have hk'k : strLt k' k = true := by
          rcases strLt_trichotomy k k' with h' | h' | h'
          · exact absurd h' hlt
          · exact h'
          · exact absurd h'.symm hk
        unfold VObj.SortedKeys VObj.keys
        refine List.pairwise_cons.mpr ⟨?_, VObj.sortedKeys_set tl k v htl⟩
        intro z hz
        rcases VObj.mem_keys_set tl k z v hz with hz | hz
        · exact hz ▸ hk'k
        · exact hk' z hz

theorem VObj.get?_none_of_not_mem : ∀ (m : VObj) (k : String), k ∉ m.keys → m.get? k = none
  | .nil, _, _ => rfl
  | .cons k' v tl, k, h => by
    unfold VObj.get?
    rw [if_neg (show k' ≠ k from fun e =>
      h (by rw [← e]; exact List.mem_cons_self k' tl.keys))]
    exact VObj.get?_none_of_not_mem tl k
      (fun hm => h (List.mem_cons_of_mem _ hm))

theorem vobjFold_get?_of_sorted : ∀ (m z : VObj) (k : String) (v : Value),
    m.SortedKeys → m.get? k = some v → (vobjFold z m).get? k = some v
  | .nil, z, k, v, _, h => by simp [VObj.get?] at h
  | .cons k' w tl, z, k, v, hs, h => by
    unfold VObj.get? at h
    rcases List.pairwise_cons.mp hs with ⟨hk', htl⟩
    by_cases hk : k' = k
    · rw [if_pos hk, Option.some_inj] at h
      have hnot : k ∉ tl.keys := fun hm => by
        have := hk' k hm
        rw [hk] at this
        rw [strLt_irrefl] at this
        exact absurd this (by simp)
      show (vobjFold (z.set k' w) tl).get? k = some v
      rw [vobjFold_get?_of_none tl _ k (VObj.get?_none_of_not_mem tl k hnot), hk, h,
        VObj.get?_set_self]
    · rw [if_neg hk] at h
      exact vobjFold_get?_of_sorted tl (z.set k' w) k v htl h

theorem parseSetValuesLoop_sorted : ∀ (l : List String) (acc flags : VObj),
    acc.SortedKeys → parseSetValuesLoop l acc = .ok flags → flags.SortedKeys
  | [], acc, flags, hs, h => by
    rw [parseSetValuesLoop, Except.ok.injEq] at h
    exact h ▸ hs
  | sv :: rest, acc, flags, hs, h => by
    rw [parseSetValuesLoop] at h
    cases hsp : splitEq sv with
    | none => rw [hsp] at h; exact absurd h (by simp)
    | some kv =>
      rw [hsp] at h
      dsimp only at h
      by_cases hke : strTrimSpace kv.1 = ""
      · rw [if_pos hke] at h; exact absurd h (by simp)
      · rw [if_neg hke] at h
        exact parseSetValuesLoop_sorted rest _ flags (VObj.sortedKeys_set acc _ _ hs) h

theorem parseSetValues_sorted {setValues : List String} {flags : VObj}
    (h : parseSetValues setValues = .ok flags) : flags.SortedKeys :=
  parseSetValuesLoop_sorted setValues VObj.nil flags (by simp [VObj.SortedKeys, VObj.keys]) h

theorem ptfGo_preserve (oracle : PromptOracle) (flags : VObj) (p : String)
    (hp : (flags.get? p).isSome = true) :
    ∀ (paths : List String) (vals : VObj) (log : List String) (vals' : VObj)
      (log' : List String),
      ptfGo oracle flags paths vals log = .ok (vals', log') →
      vals'.get? p = vals.get? p ∧
        (∀ q ∈ log', q ∈ log ∨ (flags.get? q).isSome = false) := by
  intro paths
  induction paths with
  | nil =>
    intro vals log vals' log' h
    rw [ptfGo, Except.ok.injEq, Prod.mk.injEq] at h
    obtain ⟨h1, h2⟩ := h
    subst h1
    subst h2
    exact ⟨rfl, fun q hq => Or.inl hq⟩
  | cons path rest ih =>
    intro vals log vals' log' h
    rw [ptfGo] at h
    by_cases hflag : (flags.get? path).isSome = true
    · rw [if_pos hflag] at h
      exact ih vals log vals' log' h
    · rw [if_neg hflag] at h
      have hne : path ≠ p := fun e => hflag (e ▸ hp)
      dsimp only at h
      cases horc : oracle.onField _ _ with
      | error pe =>
        rw [horc] at h
        cases pe with
        | interrupt => exact absurd h (by simp)
        | fail =>
          obtain ⟨h1, h2⟩ := ih vals (log ++ [path]) vals' log' h
          refine ⟨h1, fun q hq => ?_⟩
          rcases h2 q hq with hq' | hq'
          · rcases List.mem_append.mp hq' with hq'' | hq''
            · exact Or.inl hq''
            · rw [List.mem_singleton.mp hq'']
              exact Or.inr (by simpa using hflag)
          · exact Or.inr hq'
      | ok newVal =>
        rw [horc] at h
        dsimp only at h
        by_cases hguard : newVal ≠ Value.null ∧ newVal ≠ Value.str ""
        · rw [if_pos hguard] at h
          obtain ⟨h1, h2⟩ := ih (vals.set path newVal) (log ++ [path]) vals' log' h
          refine ⟨?_, fun q hq => ?_⟩
          · rw [h1, VObj.get?_set_ne vals p path newVal hne]
          · rcases h2 q hq with hq' | hq'
            · rcases List.mem_append.mp hq' with hq'' | hq''
              · exact Or.inl hq''
              · rw [List.mem_singleton.mp hq'']
                exact Or.inr (by simpa using hflag)
            · exact Or.inr hq'
        · rw [if_neg hguard] at h
          obtain ⟨h1, h2⟩ := ih vals (log ++ [path]) vals' log' h
          refine ⟨h1, fun q hq => ?_⟩
          rcases h2 q hq with hq' | hq'
          · rcases List.mem_append.mp hq' with hq'' | hq''
            · exact Or.inl hq''
            · rw [List.mem_singleton.mp hq'']
              exact Or.inr (by simpa using hflag)
          · exact Or.inr hq'

end KCR

namespace KCR

instance instDecEqExcept {e a : Type} [DecidableEq e] [DecidableEq a] :
    DecidableEq (Except e a)
  | .error e1, .error e2 =>
    if h : e1 = e2 then .isTrue (by rw [h]) else .isFalse (by simp [h])
  | .error _, .ok _ => .isFalse (by simp)
  | .ok _, .error _ => .isFalse (by simp)
  | .ok a1, .ok a2 =>
    if h : a1 = a2 then .isTrue (by rw [h]) else .isFalse (by simp [h])

/-- C8 counterexample: `metadata.name` is present in both the template seed
and the `--set` assignments, yet with a `--name` flag given the final
collected value is the flag name, not the explicit assignment's value — so
the override does not win for every path. -/
theorem claim_C8_cex :
    collectFieldValuesWithTemplate ⟨fun _ _ => .error .fail⟩ ⟨⟨"", "", ""⟩, "", []⟩
        "web" ["metadata.name=b"] (some (VObj.ofList [("metadata.name", .str "seed")])) 1 =
      .ok (⟨"web", VObj.ofList [("metadata.name", .str "web")]⟩, []) ∧
      parseValue "b" = .str "b" ∧ Value.str "web" ≠ .str "b" := by
  decide

/-- C8 (amended): for every path other than `metadata.name` present in the
explicit `--set` assignments, when collection against a template succeeds
the explicit assignment's value is the final collected value and the path
is never offered for interactive edit; `metadata.name` itself is finally
overwritten by the resolved resource name. -/
theorem claim_C8 (oracle : PromptOracle) (schema : ResourceSchema) (name : String)
    (setValues : List String) (t : VObj) (fuel : Nat) (p : String) (v : Value)
    (flags : VObj) (out : Collected) (log : List String)
    (hp : p ≠ "metadata.name")
    (hpf : parseSetValues setValues = .ok flags)
    (hget : flags.get? p = some v)
    (hout : collectFieldValuesWithTemplate oracle schema name setValues (some t) fuel =
      .ok (out, log)) :
    out.values.get? p = some v ∧ p ∉ log := by
  unfold collectFieldValuesWithTemplate at hout
  rw [hpf] at hout
  dsimp only at hout
  have hv1 : (vobjFold (vobjFold VObj.nil t) flags).get? p = some v :=
    vobjFold_get?_of_sorted flags _ p v (parseSetValues_sorted hpf) hget
  cases hnr : resolveName oracle name (vobjFold (vobjFold VObj.nil t) flags) with
  | error e =>
    rw [hnr] at hout
    exact absurd hout (by simp)
  | ok finalName =>
    rw [hnr] at hout
    dsimp only at hout
    have hv2 : ((vobjFold (vobjFold VObj.nil t) flags).set "metadata.name"
        (.str finalName)).get? p = some v := by
      rw [VObj.get?_set_ne _ _ _ _ (Ne.symm hp)]
      exact hv1
    cases hptf : promptForTemplateFields oracle
        ((vobjFold (vobjFold VObj.nil t) flags).set "metadata.name" (.str finalName))
        flags with
    | error e =>
      rw [hptf] at hout
      exact absurd hout (by simp)
    | ok r =>
      rw [hptf] at hout
      dsimp only at hout
      rw [Except.ok.injEq, Prod.mk.injEq] at hout
      obtain ⟨hout1, hout2⟩ := hout
      have hpres := ptfGo_preserve oracle flags p (by rw [hget]; rfl) _ _ _ r.1 r.2 hptf
      constructor
      · rw [← hout1]
        show r.1.get? p = some v
        rw [hpres.1]
        exact hv2
      · intro hmem
        rw [← hout2] at hmem
        rcases hpres.2 p hmem with hq | hq
        · exact absurd hq (List.not_mem_nil p)
        · rw [hget] at hq
          exact absurd hq (by simp)

/-- C8 witness: the worked scenario — seed `spec.replicas` 2, override
`spec.replicas=5` — collects 5 and never offers the field for edit. -/
theorem claim_C8_witness :
    (collectFieldValuesWithTemplate ⟨fun _ _ => .error .fail⟩ ⟨⟨"", "", ""⟩, "", []⟩
        "web" ["spec.replicas=5"] (some (VObj.ofList [("spec.replicas", .int 2)])) 1 =
      .ok (⟨"web", VObj.ofList [("metadata.name", .str "web"), ("spec.replicas", .int 5)]⟩,
        [])) ∧
      (VObj.ofList [("metadata.name", .str "web"), ("spec.replicas", .int 5)]).get?
          "spec.replicas" = some (.int 5) ∧
      "spec.replicas" ∉ ([] : List String) :=
  ⟨by decide,
   (claim_C8 ⟨fun _ _ => .error .fail⟩ ⟨⟨"", "", ""⟩, "", []⟩ "web" ["spec.replicas=5"]
     (VObj.ofList [("spec.replicas", .int 2)]) 1 "spec.replicas" (.int 5)
     (VObj.ofList [("spec.replicas", .int 5)])
     ⟨"web", VObj.ofList [("metadata.name", .str "web"), ("spec.replicas", .int 5)]⟩ []
     (by decide) (by decide) (by decide) (by decide)).1,
   (claim_C8 ⟨fun _ _ => .error .fail⟩ ⟨⟨"", "", ""⟩, "", []⟩ "web" ["spec.replicas=5"]
     (VObj.ofList [("spec.replicas", .int 2)]) 1 "spec.replicas" (.int 5)
     (VObj.ofList [("spec.replicas", .int 5)])
     ⟨"web", VObj.ofList [("metadata.name", .str "web"), ("spec.replicas", .int 5)]⟩ []
     (by decide) (by decide) (by decide) (by decide)).2⟩

end KCR

namespace KCR

/-! ## Slice and map lemmas for the round-trip development (claim C3) -/

theorem VList.length_nulls (n : Nat) : (VList.nulls n).length = n := by
  induction n with
  | zero => rfl
  | succ n ih => rw [VList.nulls, VList.length, ih]

theorem VList.length_padTo : ∀ (a : VList) (n : Nat), (a.padTo n).length = max a.length n
  | a, 0 => by
    cases a <;> simp [VList.padTo, VList.length]
  | .nil, n + 1 => by
    rw [VList.padTo.eq_def]
    simp [VList.length, VList.length_nulls]
  | .cons v tl, n + 1 => by
    rw [VList.padTo.eq_def]
    simp only [VList.length, VList.length_padTo tl n]
    omega

theorem VList.padTo_of_le : ∀ (a : VList) (n : Nat), n ≤ a.length → a.padTo n = a
  | a, 0, _ => by cases a <;> rfl
  | .nil, n + 1, h => by simp [VList.length] at h
  | .cons v tl, n + 1, h => by
    rw [VList.padTo.eq_def]
    simp only [VList.length, Nat.add_le_add_iff_right] at h ⊢
    rw [VList.padTo_of_le tl n h]

theorem VList.get?_lt_length : ∀ (a : VList) (j : Nat) (x : Value), a.get? j = some x → j < a.length
  | .nil, j, x, h => by simp [VList.get?] at h
  | .cons v tl, 0, x, _ => by rw [VList.length]; omega
  | .cons v tl, j + 1, x, h => by
    rw [VList.get?] at h
    have := VList.get?_lt_length tl j x h
    rw [VList.length]
    omega

theorem VList.set_get_self : ∀ (a : VList) (j : Nat) (x : Value), a.get? j = some x → a.set j x = a
  | .nil, j, x, h => by simp [VList.get?] at h
  | .cons v tl, 0, x, h => by
    rw [VList.get?, Option.some_inj] at h
    rw [VList.set, h]
  | .cons v tl, j + 1, x, h => by
    rw [VList.get?] at h
    rw [VList.set, VList.set_get_self tl j x h]

theorem VList.get_set_self_list : ∀ (a : VList) (j : Nat) (x : Value), j < a.length →
    (a.set j x).get? j = some x
  | .nil, j, x, h => by simp [VList.length] at h
  | .cons v tl, 0, x, _ => rfl
  | .cons v tl, j + 1, x, h => by
    rw [VList.set, VList.get?]
    exact VList.get_set_self_list tl j x (by rw [VList.length] at h; omega)

theorem VList.get_set_ne_list : ∀ (a : VList) (i j : Nat) (x : Value), i ≠ j →
    (a.set i x).get? j = a.get? j
  | .nil, i, j, x, _ => by cases i <;> rfl
  | .cons v tl, 0, 0, x, h => absurd rfl h
  | .cons v tl, 0, j + 1, x, _ => rfl
  | .cons v tl, i + 1, 0, x, _ => rfl
  | .cons v tl, i + 1, j + 1, x, h =>
    VList.get_set_ne_list tl i j x (fun e => h (by rw [e]))

theorem VList.set_set_self_list : ∀ (a : VList) (j : Nat) (x y : Value),
    (a.set j x).set j y = a.set j y
  | .nil, j, x, y => by cases j <;> rfl
  | .cons v tl, 0, x, y => rfl
  | .cons v tl, j + 1, x, y => by
    rw [VList.set, VList.set, VList.set, VList.set_set_self_list tl j x y]

theorem VList.set_comm_list : ∀ (a : VList) (i j : Nat) (x y : Value), i ≠ j →
    (a.set i x).set j y = (a.set j y).set i x
  | .nil, i, j, x, y, _ => by cases i <;> cases j <;> rfl
  | .cons v tl, 0, 0, x, y, h => absurd rfl h
  | .cons v tl, 0, j + 1, x, y, _ => rfl
  | .cons v tl, i + 1, 0, x, y, _ => rfl
  | .cons v tl, i + 1, j + 1, x, y, h => by
    rw [VList.set, VList.set, VList.set, VList.set,
      VList.set_comm_list tl i j x y (fun e => h (by rw [e]))]

theorem VList.length_set : ∀ (a : VList) (j : Nat) (x : Value), (a.set j x).length = a.length
  | .nil, j, x => by cases j <;> rfl
  | .cons v tl, 0, x => rfl
  | .cons v tl, j + 1, x => by
    rw [VList.set, VList.length, VList.length, VList.length_set tl j x]

theorem VList.get?_nulls (n j : Nat) : (VList.nulls n).get? j = if j < n then some .null else none := by
  induction n generalizing j with
  | zero => cases j <;> simp [VList.nulls, VList.get?]
  | succ n ih =>
    cases j with
    | zero => simp [VList.nulls, VList.get?]
    | succ j =>
      rw [VList.nulls, VList.get?, ih]
      by_cases h : j < n
      · rw [if_pos h, if_pos (by omega)]
      · rw [if_neg h, if_neg (by omega)]

theorem VList.get?_padTo : ∀ (a : VList) (n j : Nat),
    (a.padTo n).get? j = if j < a.length then a.get? j else if j < n then some .null else none
  | a, 0, j => by
    cases a with
    | nil =>
      simp only [VList.padTo, VList.length]
      rw [if_neg (by omega), if_neg (by omega)]
      cases j <;> rfl
    | cons v tl =>
      simp only [VList.padTo]
      by_cases h : j < (VList.cons v tl).length
      · rw [if_pos h]
      · rw [if_neg h, if_neg (by omega)]
        cases hj : (VList.cons v tl).get? j with
        | none => rfl
        | some x => exact absurd (VList.get?_lt_length _ j x hj) h
  | .nil, n + 1, j => by
    rw [VList.padTo.eq_def]
    show (VList.nulls (n + 1)).get? j = _
    rw [VList.get?_nulls]
    simp only [VList.length]
    rw [if_neg (show ¬j < 0 by omega)]
  | .cons v tl, n + 1, j => by
    rw [VList.padTo.eq_def]
    show (VList.cons v (tl.padTo n)).get? j = _
    cases j with
    | zero =>
      simp only [VList.get?, VList.length]
      rw [if_pos (by omega)]
    | succ j =>
      show (tl.padTo n).get? j = _
      rw [VList.get?_padTo tl n j]
      simp only [VList.length]
      by_cases h : j < tl.length
      · rw [if_pos h, if_pos (show j + 1 < tl.length + 1 by omega)]
        rfl
      · rw [if_neg h, if_neg (show ¬j + 1 < tl.length + 1 by omega)]
        by_cases h2 : j < n
        · rw [if_pos h2, if_pos (show j + 1 < n + 1 by omega)]
        · rw [if_neg h2, if_neg (show ¬j + 1 < n + 1 by omega)]

theorem VList.ext : ∀ (a b : VList), a.length = b.length → (∀ j, a.get? j = b.get? j) → a = b
  | .nil, .nil, _, _ => rfl
  | .nil, .cons w bt, hl, _ => by simp [VList.length] at hl
  | .cons v at_, .nil, hl, _ => by simp [VList.length] at hl
  | .cons v at_, .cons w bt, hl, hg => by
    have h0 := hg 0
    rw [VList.get?, VList.get?, Option.some_inj] at h0
    rw [h0, VList.ext at_ bt
      (by rw [VList.length, VList.length] at hl; omega)
      (fun j => hg (j + 1))]

theorem VList.padTo_padTo (a : VList) (n m : Nat) :
    (a.padTo n).padTo m = a.padTo (max n m) := by
  apply VList.ext
  · rw [VList.length_padTo, VList.length_padTo, VList.length_padTo]
    omega
  · intro j
    rw [VList.get?_padTo, VList.get?_padTo, VList.get?_padTo, VList.length_padTo]
    split_ifs <;> first | rfl | (exfalso; omega)

theorem VList.padTo_set_comm (a : VList) (j : Nat) (x : Value) (n : Nat) (h : j < n)
    (hj : j < a.length) : (a.set j x).padTo n = (a.padTo n).set j x := by
  apply VList.ext
  · rw [VList.length_padTo, VList.length_set, VList.length_set, VList.length_padTo]
  · intro i
    by_cases hij : i = j
    · subst hij
      rw [VList.get?_padTo, VList.length_set, if_pos hj, VList.get_set_self_list a i x hj,
        VList.get_set_self_list _ i x (by rw [VList.length_padTo]; omega)]
    · rw [VList.get?_padTo, VList.length_set, VList.get_set_ne_list a j i x (fun e => hij e.symm),
        VList.get_set_ne_list _ j i x (fun e => hij e.symm), VList.get?_padTo]

end KCR

namespace KCR

theorem strLt_asymm {a b : String} (h : strLt a b = true) : strLt b a = false := by
  cases hba : strLt b a with
  | false => rfl
  | true =>
    have := strLt_trans h hba
    rw [strLt_irrefl] at this
    exact absurd this (by simp)

theorem VObj.get?_mem_keys : ∀ (m : VObj) (k : String) (v : Value),
    m.get? k = some v → k ∈ m.keys
  | .nil, k, v, h => by simp [VObj.get?] at h
  | .cons k' w tl, k, v, h => by
    rw [VObj.get?] at h
    by_cases hk : k' = k
    · rw [hk, VObj.keys]
      exact List.mem_cons_self _ _
    · rw [if_neg hk] at h
      rw [VObj.keys]
      exact List.mem_cons_of_mem _ (VObj.get?_mem_keys tl k v h)

theorem VObj.set_nil (k : String) (v : Value) : VObj.nil.set k v = .cons k v .nil := rfl

theorem VObj.set_cons (k' : String) (w : Value) (tl : VObj) (k : String) (v : Value) :
    (VObj.cons k' w tl).set k v =
      if k' = k then .cons k' v tl
      else if strLt k k' = true then .cons k v (.cons k' w tl)
      else .cons k' w (tl.set k v) := rfl

theorem VObj.set_set_self : ∀ (m : VObj) (k : String) (a b : Value),
    (m.set k a).set k b = m.set k b
  | .nil, k, a, b => by simp [VObj.set_nil, VObj.set_cons]
  | .cons k' w tl, k, a, b => by
    by_cases hk : k' = k
    · subst hk
      simp [VObj.set_cons]
    · by_cases hlt : strLt k k' = true
      · simp [VObj.set_cons, hk, hlt]
      · simp [VObj.set_cons, hk, hlt, VObj.set_set_self tl k a b]

theorem VObj.set_self : ∀ (m : VObj) (k : String) (v : Value),
    m.SortedKeys → m.get? k = some v → m.set k v = m
  | .nil, k, v, _, h => by simp [VObj.get?] at h
  | .cons k' w tl, k, v, hs, h => by
    rw [VObj.get?] at h
    by_cases hk : k' = k
    · rw [if_pos hk, Option.some_inj] at h
      rw [VObj.set_cons, if_pos hk, h]
    · rw [if_neg hk] at h
      rcases List.pairwise_cons.mp hs with ⟨hk', htl⟩
      have hmem := VObj.get?_mem_keys tl k v h
      have hlt : strLt k' k = true := hk' k hmem
      rw [VObj.set_cons, if_neg hk, if_neg (by rw [strLt_asymm hlt]; simp),
        VObj.set_self tl k v htl h]

theorem VObj.set_comm : ∀ (m : VObj) (k₁ k₂ : String) (v₁ v₂ : Value), k₁ ≠ k₂ →
    (m.set k₁ v₁).set k₂ v₂ = (m.set k₂ v₂).set k₁ v₁
  | .nil, k₁, k₂, v₁, v₂, h => by
    by_cases hlt : strLt k₂ k₁ = true
    · have h12 : strLt k₁ k₂ = false := strLt_asymm hlt
      simp [VObj.set_nil, VObj.set_cons, h, Ne.symm h, hlt, h12]
    · have h12 : strLt k₁ k₂ = true := by
        rcases strLt_trichotomy k₁ k₂ with h' | h' | h'
        · exact h'
        · exact absurd h' hlt
        · exact absurd h' h
      simp [VObj.set_nil, VObj.set_cons, h, Ne.symm h, hlt, h12]
  | .cons k w tl, k₁, k₂, v₁, v₂, h => by
    by_cases hk1 : k = k₁
    · subst hk1
      by_cases hlt : strLt k₂ k = true
      · have h12 : strLt k k₂ = false := strLt_asymm hlt
        simp [VObj.set_cons, h, Ne.symm h, hlt, h12]
      · simp [VObj.set_cons, h, Ne.symm h, hlt]
    · by_cases hk2 : k = k₂
      · subst hk2
        by_cases hlt : strLt k₁ k = true
        · have h12 : strLt k k₁ = false := strLt_asymm hlt
          simp [VObj.set_cons, h, hk1, hlt, h12]
        · simp [VObj.set_cons, h, hk1, hlt]
      · by_cases hlt1 : strLt k₁ k = true
        · by_cases hlt2 : strLt k₂ k = true
          · by_cases h12 : strLt k₂ k₁ = true
            · have h21 : strLt k₁ k₂ = false := strLt_asymm h12
              simp [VObj.set_cons, h, Ne.symm h, hk1, hk2, hlt1, hlt2, h12, h21]
            · have h21 : strLt k₁ k₂ = true := by
                rcases strLt_trichotomy k₁ k₂ with h' | h' | h'
                · exact h'
                · exact absurd h' h12
                · exact absurd h' h
              simp [VObj.set_cons, h, Ne.symm h, hk1, hk2, hlt1, hlt2, h12, h21]
          · have hkk2 : strLt k k₂ = true := by
              rcases strLt_trichotomy k₂ k with h' | h' | h'
              · exact absurd h' hlt2
              · exact h'
              · exact absurd h'.symm hk2
            have h21 : strLt k₁ k₂ = true := strLt_trans hlt1 hkk2
            have h12 : strLt k₂ k₁ = false := strLt_asymm h21
            simp [VObj.set_cons, h, Ne.symm h, hk1, hk2, hlt1, hlt2, h12, h21]
        · by_cases hlt2 : strLt k₂ k = true
          · have hkk1 : strLt k k₁ = true := by
              rcases strLt_trichotomy k₁ k with h' | h' | h'
              · exact absurd h' hlt1
              · exact h'
              · exact absurd h'.symm hk1
            have h12 : strLt k₂ k₁ = true := strLt_trans hlt2 hkk1
            have h21 : strLt k₁ k₂ = false := strLt_asymm h12
            simp [VObj.set_cons, h, Ne.symm h, hk1, hk2, hlt1, hlt2, h12, h21]
          · simp [VObj.set_cons, h, Ne.symm h, hk1, hk2, hlt1, hlt2,
              VObj.set_comm tl k₁ k₂ v₁ v₂ h]

end KCR

namespace KCR

/-! ## Well-formed documents, canonical states, approximation (claim C3) -/

/-- A document key the path grammar can round-trip: nonempty, no dot, no
opening bracket (the "ambiguous shape clash" precondition on keys). -/
def wfKey (k : String) : Bool :=
  !(k = "") && !(k.data.contains '.') && !(k.data.contains '[')

mutual
/-- Well-formed document values: no Go `nil` leaves, arrays of `int`
length, maps nonempty with clean strictly-ascending keys.  This is the
decidable reading of the spec's "no ambiguous shape clashes". -/
def wfV : Value → Bool
  | .null => false
  | .bool _ => true
  | .int _ => true
  | .float _ _ => true
  | .str _ => true
  | .arr a => wfL a && a.length < 2 ^ 63
  | .obj m =>
    (match m with
     | .nil => false
     | .cons _ _ _ => true) && wfO m

/-- Well-formedness of every element of a slice. -/
def wfL : VList → Bool
  | .nil => true
  | .cons v tl => wfV v && wfL tl

/-- Well-formedness of map entries: clean keys in strictly ascending
order, well-formed values. -/
def wfO : VObj → Bool
  | .nil => true
  | .cons k v tl =>
    wfKey k && wfV v &&
      (match tl with
       | .nil => true
       | .cons k₂ _ _ => strLt k k₂) && wfO tl
end

mutual
/-- Canonical states: every map reachable in the value has strictly
ascending keys (true of everything `setNestedValue` builds from scratch). -/
def canonV : Value → Bool
  | .arr a => canonL a
  | .obj m => canonO m
  | _ => true

/-- Canonicity of slice elements. -/
def canonL : VList → Bool
  | .nil => true
  | .cons v tl => canonV v && canonL tl

/-- Canonicity of map entries. -/
def canonO : VObj → Bool
  | .nil => true
  | .cons k v tl =>
    canonV v &&
      (match tl with
       | .nil => true
       | .cons k₂ _ _ => strLt k k₂) && canonO tl
end

mutual
/-- A map binding approximates a reference value: equal scalars, a prefix
of the reference array (element-wise), or a sub-map of the reference map.
A binding is never the Go `nil`. -/
def approxB : Value → Value → Bool
  | .obj zm, .obj dm => approxO zm dm
  | .arr za, .arr da => approxL za da
  | .obj _, _ => false
  | .arr _, _ => false
  | z, d => z == d

/-- An array slot approximates a reference element: additionally the `nil`
padding approximates anything. -/
def approxE : Value → Value → Bool
  | .null, _ => true
  | .obj zm, .obj dm => approxO zm dm
  | .arr za, .arr da => approxL za da
  | .obj _, _ => false
  | .arr _, _ => false
  | z, d => z == d

/-- Prefix-wise approximation of slices. -/
def approxL : VList → VList → Bool
  | .nil, _ => true
  | .cons _ _, .nil => false
  | .cons z zs, .cons d ds => approxE z d && approxL zs ds

/-- Approximation of maps: every binding approximates the reference's
binding at the same key. -/
def approxO : VObj → VObj → Bool
  | .nil, _ => true
  | .cons k z tl, dm =>
    (match dm.get? k with
     | some dv => approxB z dv
     | none => false) && approxO tl dm
end

/-! ## Parsed-segment assembly (`setSegs`) -/

/-- `setNestedValue` on already-parsed segments: identical to `setParts`
with `parsePathPart` applied up front (`setParts_eq_setSegs`). -/
def setSegs : VObj → List Seg → Value → VObj
  | m, [], _ => m
  | m, [(key, index)], v =>
    if 0 ≤ index then
      let i := index.toNat
      let arr :=
        match m.get? key with
        | some (.arr a) => a
        | _ => VList.nulls (i + 1)
      m.set key (.arr ((arr.padTo (i + 1)).set i v))
    else m.set key v
  | m, (key, index) :: r₁ :: r₂, v =>
    if 0 ≤ index then
      let i := index.toNat
      let arr :=
        match m.get? key with
        | some (.arr a) => a
        | _ => VList.nulls (i + 1)
      let padded := arr.padTo (i + 1)
      let sub :=
        match padded.get? i with
        | some (.obj o) => o
        | _ => VObj.nil
      m.set key (.arr (padded.set i (.obj (setSegs sub (r₁ :: r₂) v))))
    else
      match m.get? key with
      | some (.obj o) => m.set key (.obj (setSegs o (r₁ :: r₂) v))
      | some _ => setSegs m (r₁ :: r₂) v
      | none => m.set key (.obj (setSegs VObj.nil (r₁ :: r₂) v))

theorem setParts_eq_setSegs : ∀ (m : VObj) (parts : List String) (v : Value),
    setParts m parts v = setSegs m (parts.map parsePathPart) v
  | m, [], v => rfl
  | m, [part], v => by
    rw [setParts, List.map_cons, List.map_nil]
    try rw [setSegs.eq_def]
    try rfl
  | m, part :: p₁ :: p₂, v => by
    rw [setParts, List.map_cons, List.map_cons, setSegs.eq_def]
    obtain ⟨key, index⟩ := parsePathPart part
    simp only []
    by_cases hpos : 0 ≤ index
    · rw [if_pos hpos, if_pos hpos]
      rw [setParts_eq_setSegs _ (p₁ :: p₂) v]
      rfl
    · rw [if_neg hpos, if_neg hpos]
      cases m.get? key with
      | none => rw [setParts_eq_setSegs VObj.nil (p₁ :: p₂) v]; rfl
      | some u =>
        cases u <;> simp only [] <;> rw [setParts_eq_setSegs _ (p₁ :: p₂) v] <;> try rfl

/-- One flattened entry applied to a state. -/
def applyEnt (z : VObj) (e : List Seg × Value) : VObj := setSegs z e.1 e.2

/-! ## Segment-level flattening (`entObj`, mirroring `flattenMap`) -/

mutual
/-- The entries `flattenMap` emits, at the level of parsed segments: map
descent adds a plain segment, arrays are emitted whole and per element. -/
def entObj : VObj → List (List Seg × Value)
  | .nil => []
  | .cons k v tl =>
    (match v with
     | .obj o => (entObj o).map (fun e => ((k, -1) :: e.1, e.2))
     | .arr a => ([(k, -1)], .arr a) :: entItems k 0 a
     | u => [([(k, -1)], u)]) ++ entObj tl

/-- Per-element entries of an array at key `k`, starting at index `i`. -/
def entItems (k : String) : Nat → VList → List (List Seg × Value)
  | _, .nil => []
  | i, .cons x xs =>
    (match x with
     | .obj o => (entObj o).map (fun e => ((k, (i : Int)) :: e.1, e.2))
     | u => [([(k, (i : Int))], u)]) ++ entItems k (i + 1) xs
end

end KCR

namespace KCR

/-! ## Unfolding equations for the mutual well-formedness definitions -/

/-- The array a state binding gives rise to, fresh slots being `nil`. -/
def arrOf (b : Option Value) (n : Nat) : VList :=
  match b with
  | some (.arr a) => a
  | _ => VList.nulls n

/-- The map a state binding (or array slot) gives rise to. -/
def objOf (b : Option Value) : VObj :=
  match b with
  | some (.obj o) => o
  | _ => VObj.nil

theorem wfV_null : wfV .null = false := by rw [wfV.eq_def]

theorem wfV_bool (b : Bool) : wfV (.bool b) = true := by rw [wfV.eq_def]

theorem wfV_int (n : Int) : wfV (.int n) = true := by rw [wfV.eq_def]

theorem wfV_float (n : Int) (d : Nat) : wfV (.float n d) = true := by rw [wfV.eq_def]

theorem wfV_str (s : String) : wfV (.str s) = true := by rw [wfV.eq_def]

theorem wfV_arr (a : VList) : wfV (.arr a) = (wfL a && decide (a.length < 2 ^ 63)) := by
  rw [wfV.eq_def]

theorem wfV_obj (m : VObj) :
    wfV (.obj m) =
      ((match m with
        | .nil => false
        | .cons _ _ _ => true) && wfO m) := by
  rw [wfV.eq_def]

theorem wfL_nil : wfL .nil = true := by rw [wfL.eq_def]

theorem wfL_cons (v : Value) (tl : VList) : wfL (.cons v tl) = (wfV v && wfL tl) := by
  rw [wfL.eq_def]

theorem wfO_nil : wfO .nil = true := by rw [wfO.eq_def]

theorem wfO_cons (k : String) (v : Value) (tl : VObj) :
    wfO (.cons k v tl) =
      (wfKey k && wfV v &&
        (match tl with
         | .nil => true
         | .cons k₂ _ _ => strLt k k₂) && wfO tl) := by
  rw [wfO.eq_def]

theorem canonV_null : canonV .null = true := by rw [canonV.eq_def]

theorem canonV_bool (b : Bool) : canonV (.bool b) = true := by rw [canonV.eq_def]

theorem canonV_int (n : Int) : canonV (.int n) = true := by rw [canonV.eq_def]

theorem canonV_float (n : Int) (d : Nat) : canonV (.float n d) = true := by rw [canonV.eq_def]

theorem canonV_str (s : String) : canonV (.str s) = true := by rw [canonV.eq_def]

theorem canonV_arr (a : VList) : canonV (.arr a) = canonL a := by rw [canonV.eq_def]

theorem canonV_obj (m : VObj) : canonV (.obj m) = canonO m := by rw [canonV.eq_def]

theorem canonL_nil : canonL .nil = true := by rw [canonL.eq_def]

theorem canonL_cons (v : Value) (tl : VList) :
    canonL (.cons v tl) = (canonV v && canonL tl) := by rw [canonL.eq_def]

theorem canonO_nil : canonO .nil = true := by rw [canonO.eq_def]

theorem canonO_cons (k : String) (v : Value) (tl : VObj) :
    canonO (.cons k v tl) =
      (canonV v &&
        (match tl with
         | .nil => true
         | .cons k₂ _ _ => strLt k k₂) && canonO tl) := by
  rw [canonO.eq_def]

theorem approxB_obj_obj (zm dm : VObj) : approxB (.obj zm) (.obj dm) = approxO zm dm := by
  rw [approxB.eq_def]

theorem approxB_arr_arr (za da : VList) : approxB (.arr za) (.arr da) = approxL za da := by
  rw [approxB.eq_def]

theorem approxE_null (d : Value) : approxE .null d = true := by rw [approxE.eq_def]

theorem approxE_obj_obj (zm dm : VObj) : approxE (.obj zm) (.obj dm) = approxO zm dm := by
  rw [approxE.eq_def]

theorem approxE_arr_arr (za da : VList) : approxE (.arr za) (.arr da) = approxL za da := by
  rw [approxE.eq_def]

theorem approxL_nil (d : VList) : approxL .nil d = true := by rw [approxL.eq_def]

theorem approxL_cons_nil (z : Value) (zs : VList) : approxL (.cons z zs) .nil = false := by
  rw [approxL.eq_def]

theorem approxL_cons_cons (z d : Value) (zs ds : VList) :
    approxL (.cons z zs) (.cons d ds) = (approxE z d && approxL zs ds) := by
  rw [approxL.eq_def]

theorem approxO_nil (dm : VObj) : approxO .nil dm = true := by rw [approxO.eq_def]

theorem approxO_cons (k : String) (z : Value) (tl : VObj) (dm : VObj) :
    approxO (.cons k z tl) dm =
      ((match dm.get? k with
        | some dv => approxB z dv
        | none => false) && approxO tl dm) := by
  rw [approxO.eq_def]

theorem entObj_nil : entObj .nil = [] := by rw [entObj.eq_def]

theorem entObj_cons (k : String) (v : Value) (tl : VObj) :
    entObj (.cons k v tl) =
      (match v with
       | .obj o => (entObj o).map (fun e => ((k, -1) :: e.1, e.2))
       | .arr a => ([(k, -1)], Value.arr a) :: entItems k 0 a
       | u => [([(k, -1)], u)]) ++ entObj tl := by
  rw [entObj.eq_def]

theorem entItems_nil (k : String) (i : Nat) : entItems k i .nil = [] := by
  rw [entItems.eq_def]

theorem entItems_cons (k : String) (i : Nat) (x : Value) (xs : VList) :
    entItems k i (.cons x xs) =
      (match x with
       | .obj o => (entObj o).map (fun e => ((k, (i : Int)) :: e.1, e.2))
       | u => [([(k, (i : Int))], u)]) ++ entItems k (i + 1) xs := by
  rw [entItems.eq_def]

theorem setSegs_nil (m : VObj) (v : Value) : setSegs m [] v = m := by rw [setSegs.eq_def]

theorem setSegs_one (m : VObj) (key : String) (index : Int) (v : Value) :
    setSegs m [(key, index)] v =
      if 0 ≤ index then
        m.set key
          (.arr (((arrOf (m.get? key) (index.toNat + 1)).padTo (index.toNat + 1)).set
            index.toNat v))
      else m.set key v := by
  rw [setSegs.eq_def]
  rfl

theorem setSegs_more (m : VObj) (key : String) (index : Int) (r₁ : Seg) (r₂ : List Seg)
    (v : Value) :
    setSegs m ((key, index) :: r₁ :: r₂) v =
      if 0 ≤ index then
        m.set key
          (.arr (((arrOf (m.get? key) (index.toNat + 1)).padTo (index.toNat + 1)).set index.toNat
            (.obj (setSegs
              (objOf (((arrOf (m.get? key) (index.toNat + 1)).padTo (index.toNat + 1)).get?
                index.toNat))
              (r₁ :: r₂) v))))
      else
        match m.get? key with
        | some (.obj o) => m.set key (.obj (setSegs o (r₁ :: r₂) v))
        | some _ => setSegs m (r₁ :: r₂) v
        | none => m.set key (.obj (setSegs VObj.nil (r₁ :: r₂) v)) := by
  rw [setSegs.eq_def]
  rfl

end KCR

namespace KCR

theorem sizeOf_get_obj : ∀ (m : VObj) (k : String) (v : Value),
    m.get? k = some v → sizeOf v < sizeOf m
  | .nil, k, v, h => by simp [VObj.get?] at h
  | .cons k' w tl, k, v, h => by
    rw [VObj.get?] at h
    by_cases hk : k' = k
    · rw [if_pos hk, Option.some_inj] at h
      subst h
      simp only [VObj.cons.sizeOf_spec]
      omega
    · rw [if_neg hk] at h
      have := sizeOf_get_obj tl k v h
      simp only [VObj.cons.sizeOf_spec]
      omega

theorem sizeOf_get_list : ∀ (a : VList) (j : Nat) (x : Value),
    a.get? j = some x → sizeOf x < sizeOf a
  | .nil, j, x, h => by simp [VList.get?] at h
  | .cons v tl, 0, x, h => by
    rw [VList.get?, Option.some_inj] at h
    subst h
    simp only [VList.cons.sizeOf_spec]
    omega
  | .cons v tl, j + 1, x, h => by
    rw [VList.get?] at h
    have := sizeOf_get_list tl j x h
    simp only [VList.cons.sizeOf_spec]
    omega

/-- The shape of an entry of `entObj` rooted at key `k` holding value
`dv`. -/
def entKeyed (k : String) (dv : Value) (e : List Seg × Value) : Prop :=
  match dv with
  | .obj o => ∃ e', e' ∈ entObj o ∧ e = ((k, -1) :: e'.1, e'.2)
  | .arr a => e = ([(k, -1)], .arr a) ∨ e ∈ entItems k 0 a
  | u => e = ([(k, -1)], u)

/-- The shape of an item entry of an array element `x` at index `j`. -/
def itemKeyed (k : String) (j : Nat) (x : Value) (e : List Seg × Value) : Prop :=
  match x with
  | .obj o => ∃ e', e' ∈ entObj o ∧ e = ((k, (j : Int)) :: e'.1, e'.2)
  | u => e = ([(k, (j : Int))], u)

/-- The binding a state may hold at a key carrying reference value `dv`:
absent, or an approximation of `dv`. -/
def bindingOk (b : Option Value) (dv : Value) : Prop :=
  b = none ∨ ∃ zv, b = some zv ∧ approxB zv dv = true

theorem wfO_head_lt : ∀ (tl : VObj) (k : String) (v : Value),
    wfO (.cons k v tl) = true → ∀ z ∈ tl.keys, strLt k z = true
  | .nil, _, _, _ => by intro z hz; simp [VObj.keys] at hz
  | .cons k₂ v₂ tl₂, k, v, h => by
    rw [wfO_cons] at h
    simp only [Bool.and_eq_true] at h
    obtain ⟨⟨⟨hk, hv⟩, hm⟩, htl⟩ := h
    intro z hz
    rw [VObj.keys] at hz
    rcases List.mem_cons.mp hz with hz | hz
    · exact hz ▸ hm
    · exact strLt_trans hm (wfO_head_lt tl₂ k₂ v₂ htl z hz)

theorem wfO_sorted : ∀ (m : VObj), wfO m = true → m.SortedKeys
  | .nil, _ => by simp [VObj.SortedKeys, VObj.keys]
  | .cons k v tl, h => by
    have h' := h
    rw [wfO_cons] at h'
    simp only [Bool.and_eq_true] at h'
    unfold VObj.SortedKeys VObj.keys
    rw [List.pairwise_cons]
    exact ⟨wfO_head_lt tl k v h, wfO_sorted tl h'.2⟩

theorem canonO_head_lt : ∀ (tl : VObj) (k : String) (v : Value),
    canonO (.cons k v tl) = true → ∀ z ∈ tl.keys, strLt k z = true
  | .nil, _, _, _ => by intro z hz; simp [VObj.keys] at hz
  | .cons k₂ v₂ tl₂, k, v, h => by
    rw [canonO_cons] at h
    simp only [Bool.and_eq_true] at h
    obtain ⟨⟨hv, hm⟩, htl⟩ := h
    intro z hz
    rw [VObj.keys] at hz
    rcases List.mem_cons.mp hz with hz | hz
    · exact hz ▸ hm
    · exact strLt_trans hm (canonO_head_lt tl₂ k₂ v₂ htl z hz)

theorem canonO_sorted : ∀ (m : VObj), canonO m = true → m.SortedKeys
  | .nil, _ => by simp [VObj.SortedKeys, VObj.keys]
  | .cons k v tl, h => by
    have h' := h
    rw [canonO_cons] at h'
    simp only [Bool.and_eq_true] at h'
    unfold VObj.SortedKeys VObj.keys
    rw [List.pairwise_cons]
    exact ⟨canonO_head_lt tl k v h, canonO_sorted tl h'.2⟩

mutual
theorem wfV_canonV : ∀ (v : Value), wfV v = true → canonV v = true
  | .null, h => absurd h (by rw [wfV_null]; decide)
  | .bool b, _ => canonV_bool b
  | .int n, _ => canonV_int n
  | .float n d, _ => canonV_float n d
  | .str s, _ => canonV_str s
  | .arr a, h => by
    rw [wfV_arr] at h
    simp only [Bool.and_eq_true] at h
    rw [canonV_arr]
    exact wfL_canonL a h.1
  | .obj m, h => by
    rw [wfV_obj] at h
    simp only [Bool.and_eq_true] at h
    rw [canonV_obj]
    exact wfO_canonO m h.2

theorem wfL_canonL : ∀ (a : VList), wfL a = true → canonL a = true
  | .nil, _ => canonL_nil
  | .cons v tl, h => by
    rw [wfL_cons] at h
    simp only [Bool.and_eq_true] at h
    rw [canonL_cons, wfV_canonV v h.1, wfL_canonL tl h.2]
    rfl

theorem wfO_canonO : ∀ (m : VObj), wfO m = true → canonO m = true
  | .nil, _ => canonO_nil
  | .cons k v tl, h => by
    rw [wfO_cons] at h
    simp only [Bool.and_eq_true] at h
    obtain ⟨⟨⟨hk, hv⟩, hm⟩, htl⟩ := h
    rw [canonO_cons, wfV_canonV v hv, wfO_canonO tl htl]
    cases tl with
    | nil => rfl
    | cons k₂ v₂ tl₂ =>
      show ((true && strLt k k₂) && true) = true
      rw [show strLt k k₂ = true from hm]
      rfl
end

theorem canonO_get? : ∀ (m : VObj) (k : String) (zv : Value),
    canonO m = true → m.get? k = some zv → canonV zv = true
  | .nil, k, zv, _, hg => by rw [VObj.get?] at hg; exact absurd hg (by simp)
  | .cons k' v tl, k, zv, hc, hg => by
    rw [canonO_cons] at hc
    simp only [Bool.and_eq_true] at hc
    rw [VObj.get?] at hg
    by_cases hk : k' = k
    · rw [if_pos hk, Option.some_inj] at hg
      exact hg ▸ hc.1.1
    · rw [if_neg hk] at hg
      exact canonO_get? tl k zv hc.2 hg

theorem wfO_get? : ∀ (m : VObj) (k : String) (dv : Value),
    wfO m = true → m.get? k = some dv → wfV dv = true
  | .nil, k, dv, _, hg => by rw [VObj.get?] at hg; exact absurd hg (by simp)
  | .cons k' v tl, k, dv, hw, hg => by
    rw [wfO_cons] at hw
    simp only [Bool.and_eq_true] at hw
    rw [VObj.get?] at hg
    by_cases hk : k' = k
    · rw [if_pos hk, Option.some_inj] at hg
      exact hg ▸ hw.1.1.2
    · rw [if_neg hk] at hg
      exact wfO_get? tl k dv hw.2 hg

theorem canonL_get? : ∀ (a : VList) (j : Nat) (x : Value),
    canonL a = true → a.get? j = some x → canonV x = true
  | .nil, j, x, _, hg => by rw [VList.get?] at hg; exact absurd hg (by simp)
  | .cons v tl, 0, x, hc, hg => by
    rw [canonL_cons] at hc
    simp only [Bool.and_eq_true] at hc
    rw [VList.get?, Option.some_inj] at hg
    exact hg ▸ hc.1
  | .cons v tl, j + 1, x, hc, hg => by
    rw [canonL_cons] at hc
    simp only [Bool.and_eq_true] at hc
    rw [VList.get?] at hg
    exact canonL_get? tl j x hc.2 hg

theorem wfL_get? : ∀ (a : VList) (j : Nat) (x : Value),
    wfL a = true → a.get? j = some x → wfV x = true
  | .nil, j, x, _, hg => by rw [VList.get?] at hg; exact absurd hg (by simp)
  | .cons v tl, 0, x, hw, hg => by
    rw [wfL_cons] at hw
    simp only [Bool.and_eq_true] at hw
    rw [VList.get?, Option.some_inj] at hg
    exact hg ▸ hw.1
  | .cons v tl, j + 1, x, hw, hg => by
    rw [wfL_cons] at hw
    simp only [Bool.and_eq_true] at hw
    rw [VList.get?] at hg
    exact wfL_get? tl j x hw.2 hg

theorem canonL_set : ∀ (a : VList) (j : Nat) (x : Value),
    canonL a = true → canonV x = true → canonL (a.set j x) = true
  | .nil, _, _, _, _ => canonL_nil
  | .cons v tl, 0, x, hc, hx => by
    rw [canonL_cons] at hc
    simp only [Bool.and_eq_true] at hc
    rw [VList.set, canonL_cons, hx, hc.2]
    rfl
  | .cons v tl, j + 1, x, hc, hx => by
    rw [canonL_cons] at hc
    simp only [Bool.and_eq_true] at hc
    rw [VList.set, canonL_cons, hc.1, canonL_set tl j x hc.2 hx]
    rfl

theorem canonL_nulls : ∀ (n : Nat), canonL (VList.nulls n) = true
  | 0 => canonL_nil
  | n + 1 => by rw [VList.nulls, canonL_cons, canonV_null, canonL_nulls n]; rfl

theorem canonL_padTo : ∀ (a : VList) (n : Nat),
    canonL a = true → canonL (a.padTo n) = true
  | a, 0, hc => by rw [VList.padTo.eq_def]; cases a <;> exact hc
  | .nil, n + 1, _ => by
    rw [VList.padTo.eq_def]
    exact canonL_nulls (n + 1)
  | .cons v tl, n + 1, hc => by
    rw [canonL_cons] at hc
    simp only [Bool.and_eq_true] at hc
    rw [VList.padTo.eq_def]
    rw [canonL_cons, hc.1, canonL_padTo tl n hc.2]
    rfl

end KCR

namespace KCR

theorem approxB_bool (b c : Bool) :
    approxB (.bool b) (.bool c) = (Value.bool b == Value.bool c) := by rw [approxB.eq_def]

theorem approxB_int (n m : Int) :
    approxB (.int n) (.int m) = (Value.int n == Value.int m) := by rw [approxB.eq_def]

theorem approxB_float (n m : Int) (d e : Nat) :
    approxB (.float n d) (.float m e) = (Value.float n d == Value.float m e) := by
  rw [approxB.eq_def]

theorem approxB_str (s t : String) :
    approxB (.str s) (.str t) = (Value.str s == Value.str t) := by rw [approxB.eq_def]

theorem approxE_bool (b c : Bool) :
    approxE (.bool b) (.bool c) = (Value.bool b == Value.bool c) := by rw [approxE.eq_def]

theorem approxE_int (n m : Int) :
    approxE (.int n) (.int m) = (Value.int n == Value.int m) := by rw [approxE.eq_def]

theorem approxE_float (n m : Int) (d e : Nat) :
    approxE (.float n d) (.float m e) = (Value.float n d == Value.float m e) := by
  rw [approxE.eq_def]

theorem approxE_str (s t : String) :
    approxE (.str s) (.str t) = (Value.str s == Value.str t) := by rw [approxE.eq_def]

/-- A scalar reference value is only approximated by itself. -/
theorem approxB_scalar_right : ∀ (zv d : Value),
    (match d with
     | .obj _ => False
     | .arr _ => False
     | _ => True) → approxB zv d = true → zv = d := by
  intro zv d hd h
  cases zv <;> cases d <;>
    first
      | exact hd.elim
      | (simp only [approxB.eq_def] at h; exact eq_of_beq h)
      | (simp only [approxB.eq_def] at h; exact Bool.noConfusion h)

/-- An object reference value is only approximated by sub-objects. -/
theorem approxB_obj_right : ∀ (zv : Value) (dm : VObj),
    approxB zv (.obj dm) = true → ∃ zm, zv = .obj zm ∧ approxO zm dm = true := by
  intro zv dm h
  cases zv <;>
    first
      | (simp only [approxB.eq_def] at h; exact Bool.noConfusion h)
      | (simp only [approxB.eq_def] at h; exact absurd (eq_of_beq h) (by intro he; cases he))
      | exact ⟨_, rfl, by rw [approxB_obj_obj] at h; exact h⟩

/-- An array reference value is only approximated by prefix arrays. -/
theorem approxB_arr_right : ∀ (zv : Value) (da : VList),
    approxB zv (.arr da) = true → ∃ za, zv = .arr za ∧ approxL za da = true := by
  intro zv da h
  cases zv <;>
    first
      | (simp only [approxB.eq_def] at h; exact Bool.noConfusion h)
      | (simp only [approxB.eq_def] at h; exact absurd (eq_of_beq h) (by intro he; cases he))
      | exact ⟨_, rfl, by rw [approxB_arr_arr] at h; exact h⟩

/-- A scalar array element is only approximated by itself or the padding. -/
theorem approxE_scalar_right : ∀ (zv d : Value),
    (match d with
     | .obj _ => False
     | .arr _ => False
     | _ => True) → approxE zv d = true → zv = .null ∨ zv = d := by
  intro zv d hd h
  cases zv <;>
    first
      | exact Or.inl rfl
      | (cases d <;>
          first
            | exact hd.elim
            | (simp only [approxE.eq_def] at h; exact Or.inr (eq_of_beq h))
            | (simp only [approxE.eq_def] at h; exact Bool.noConfusion h))

/-- An object array element is only approximated by the padding or
sub-objects. -/
theorem approxE_obj_right : ∀ (zv : Value) (dm : VObj),
    approxE zv (.obj dm) = true →
      zv = .null ∨ ∃ zm, zv = .obj zm ∧ approxO zm dm = true := by
  intro zv dm h
  cases zv <;>
    first
      | exact Or.inl rfl
      | (simp only [approxE.eq_def] at h; exact Bool.noConfusion h)
      | (simp only [approxE.eq_def] at h; exact absurd (eq_of_beq h) (by intro he; cases he))
      | exact Or.inr ⟨_, rfl, by rw [approxE_obj_obj] at h; exact h⟩

/-- An array array element is only approximated by the padding or prefix
arrays. -/
theorem approxE_arr_right : ∀ (zv : Value) (da : VList),
    approxE zv (.arr da) = true →
      zv = .null ∨ ∃ za, zv = .arr za ∧ approxL za da = true := by
  intro zv da h
  cases zv <;>
    first
      | exact Or.inl rfl
      | (simp only [approxE.eq_def] at h; exact Bool.noConfusion h)
      | (simp only [approxE.eq_def] at h; exact absurd (eq_of_beq h) (by intro he; cases he))
      | exact Or.inr ⟨_, rfl, by rw [approxE_arr_arr] at h; exact h⟩

/-- Approximation of a map ignores reference bindings at fresh keys. -/
theorem approxO_mono_cons : ∀ (tl : VObj) (k : String) (w : Value) (m : VObj),
    approxO tl m = true → k ∉ tl.keys → approxO tl (.cons k w m) = true
  | .nil, _, _, _, _, _ => approxO_nil _
  | .cons k' z tl₂, k, w, m, h, hk => by
    rw [approxO_cons] at h
    simp only [Bool.and_eq_true] at h
    rw [VObj.keys] at hk
    have hne : k ≠ k' := fun he => hk (he ▸ List.mem_cons_self _ _)
    rw [approxO_cons, VObj.get?, if_neg hne]
    rw [approxO_mono_cons tl₂ k w m h.2 (fun hm => hk (List.mem_cons_of_mem _ hm))]
    rcases hg : m.get? k' with _ | dv
    · rw [hg] at h
      exact Bool.noConfusion h.1
    · rw [hg] at h
      show (approxB z dv && true) = true
      rw [show approxB z dv = true from h.1]
      rfl
end KCR

namespace KCR

mutual
theorem approxB_refl : ∀ (v : Value), wfV v = true → approxB v v = true
  | .null, h => absurd h (by rw [wfV_null]; decide)
  | .bool b, _ => by rw [approxB_bool]; simp
  | .int n, _ => by rw [approxB_int]; simp
  | .float n d, _ => by rw [approxB_float]; simp
  | .str s, _ => by rw [approxB_str]; simp
  | .arr a, h => by
    rw [wfV_arr] at h
    simp only [Bool.and_eq_true] at h
    rw [approxB_arr_arr]
    exact approxL_refl a h.1
  | .obj m, h => by
    rw [wfV_obj] at h
    simp only [Bool.and_eq_true] at h
    rw [approxB_obj_obj]
    exact approxO_refl m h.2

theorem approxE_refl : ∀ (v : Value), wfV v = true → approxE v v = true
  | .null, _ => approxE_null _
  | .bool b, _ => by rw [approxE_bool]; simp
  | .int n, _ => by rw [approxE_int]; simp
  | .float n d, _ => by rw [approxE_float]; simp
  | .str s, _ => by rw [approxE_str]; simp
  | .arr a, h => by
    rw [wfV_arr] at h
    simp only [Bool.and_eq_true] at h
    rw [approxE_arr_arr]
    exact approxL_refl a h.1
  | .obj m, h => by
    rw [wfV_obj] at h
    simp only [Bool.and_eq_true] at h
    rw [approxE_obj_obj]
    exact approxO_refl m h.2

theorem approxL_refl : ∀ (a : VList), wfL a = true → approxL a a = true
  | .nil, _ => approxL_nil _
  | .cons v tl, h => by
    rw [wfL_cons] at h
    simp only [Bool.and_eq_true] at h
    rw [approxL_cons_cons, approxE_refl v h.1, approxL_refl tl h.2]
    rfl

theorem approxO_refl : ∀ (m : VObj), wfO m = true → approxO m m = true
  | .nil, _ => approxO_nil _
  | .cons k z tl, h => by
    have hhd := wfO_head_lt tl k z h
    rw [wfO_cons] at h
    simp only [Bool.and_eq_true] at h
    obtain ⟨⟨⟨hk, hz⟩, hm⟩, htl⟩ := h
    rw [approxO_cons]
    rw [VObj.get?, if_pos rfl]
    have hnmem : k ∉ tl.keys := fun hmem => by
      have hcon := hhd k hmem
      rw [strLt_irrefl] at hcon
      exact Bool.noConfusion hcon
    rw [approxO_mono_cons tl k z tl (approxO_refl tl htl) hnmem]
    show (approxB z z && true) = true
    rw [approxB_refl z hz]
    rfl
end

end KCR

namespace KCR

mutual
theorem entObj_ne_nil : ∀ (dm : VObj), ∀ e ∈ entObj dm, e.1 ≠ []
  | .nil, e, he => by rw [entObj_nil] at he; exact absurd he (List.not_mem_nil e)
  | .cons k v tl, e, he => by
    rw [entObj_cons] at he
    rcases List.mem_append.mp he with h1 | h2
    · cases v with
      | obj o =>
        obtain ⟨e', he', hee⟩ := List.mem_map.mp h1
        rw [← hee]
        exact List.cons_ne_nil _ _
      | arr a =>
        rcases List.mem_cons.mp h1 with h1 | h1
        · rw [h1]
          exact List.cons_ne_nil _ _
        · exact entItems_ne_nil a k 0 e h1
      | null => rw [List.mem_singleton.mp h1]; exact List.cons_ne_nil _ _
      | bool b => rw [List.mem_singleton.mp h1]; exact List.cons_ne_nil _ _
      | int n => rw [List.mem_singleton.mp h1]; exact List.cons_ne_nil _ _
      | float n d => rw [List.mem_singleton.mp h1]; exact List.cons_ne_nil _ _
      | str s => rw [List.mem_singleton.mp h1]; exact List.cons_ne_nil _ _
    · exact entObj_ne_nil tl e h2

theorem entItems_ne_nil : ∀ (rest : VList) (k : String) (i : Nat), ∀ e ∈ entItems k i rest,
    e.1 ≠ []
  | .nil, k, i, e, he => by rw [entItems_nil] at he; exact absurd he (List.not_mem_nil e)
  | .cons x xs, k, i, e, he => by
    rw [entItems_cons] at he
    rcases List.mem_append.mp he with h1 | h2
    · cases x with
      | obj o =>
        obtain ⟨e', he', hee⟩ := List.mem_map.mp h1
        rw [← hee]
        exact List.cons_ne_nil _ _
      | null => rw [List.mem_singleton.mp h1]; exact List.cons_ne_nil _ _
      | bool b => rw [List.mem_singleton.mp h1]; exact List.cons_ne_nil _ _
      | int n => rw [List.mem_singleton.mp h1]; exact List.cons_ne_nil _ _
      | float n d => rw [List.mem_singleton.mp h1]; exact List.cons_ne_nil _ _
      | str s => rw [List.mem_singleton.mp h1]; exact List.cons_ne_nil _ _
      | arr a => rw [List.mem_singleton.mp h1]; exact List.cons_ne_nil _ _
    · exact entItems_ne_nil xs k (i + 1) e h2
end

theorem entItems_mem : ∀ (rest : VList) (k : String) (i : Nat), ∀ e ∈ entItems k i rest,
    ∃ (j : Nat) (x : Value), i ≤ j ∧ rest.get? (j - i) = some x ∧ itemKeyed k j x e
  | .nil, k, i, e, he => by rw [entItems_nil] at he; exact absurd he (List.not_mem_nil e)
  | .cons x xs, k, i, e, he => by
    rw [entItems_cons] at he
    rcases List.mem_append.mp he with h1 | h2
    · refine ⟨i, x, Nat.le_refl i, ?_, ?_⟩
      · rw [Nat.sub_self]
        rfl
      · cases x with
        | obj o =>
          obtain ⟨e', he', hee⟩ := List.mem_map.mp h1
          exact ⟨e', he', hee.symm⟩
        | null => exact (List.mem_singleton.mp h1)
        | bool b => exact (List.mem_singleton.mp h1)
        | int n => exact (List.mem_singleton.mp h1)
        | float n d => exact (List.mem_singleton.mp h1)
        | str s => exact (List.mem_singleton.mp h1)
        | arr a => exact (List.mem_singleton.mp h1)
    · obtain ⟨j, x', hij, hget, hkey⟩ := entItems_mem xs k (i + 1) e h2
      refine ⟨j, x', by omega, ?_, hkey⟩
      have hji : j - i = (j - (i + 1)) + 1 := by omega
      rw [hji, VList.get?]
      exact hget

theorem entObj_mem : ∀ (dm : VObj), wfO dm = true → ∀ e ∈ entObj dm,
    ∃ (k : String) (dv : Value), dm.get? k = some dv ∧ entKeyed k dv e
  | .nil, _, e, he => by rw [entObj_nil] at he; exact absurd he (List.not_mem_nil e)
  | .cons k v tl, hwf, e, he => by
    have hhd := wfO_head_lt tl k v hwf
    have htl : wfO tl = true := by
      rw [wfO_cons] at hwf
      simp only [Bool.and_eq_true] at hwf
      exact hwf.2
    rw [entObj_cons] at he
    rcases List.mem_append.mp he with h1 | h2
    · refine ⟨k, v, by rw [VObj.get?, if_pos rfl], ?_⟩
      cases v with
      | obj o =>
        obtain ⟨e', he', hee⟩ := List.mem_map.mp h1
        exact ⟨e', he', hee.symm⟩
      | arr a =>
        rcases List.mem_cons.mp h1 with h1 | h1
        · exact Or.inl h1
        · exact Or.inr h1
      | null => exact List.mem_singleton.mp h1
      | bool b => exact List.mem_singleton.mp h1
      | int n => exact List.mem_singleton.mp h1
      | float n d => exact List.mem_singleton.mp h1
      | str s => exact List.mem_singleton.mp h1
    · obtain ⟨k₂, dv, hget, hkey⟩ := entObj_mem tl htl e h2
      have hne : k ≠ k₂ := by
        intro heq
        have hmem := VObj.get?_mem_keys tl k₂ dv hget
        subst heq
        have hlt := hhd k hmem
        rw [strLt_irrefl] at hlt
        exact Bool.noConfusion hlt
      exact ⟨k₂, dv, by rw [VObj.get?, if_neg hne]; exact hget, hkey⟩

theorem approxO_get?_left : ∀ (z dm : VObj) (k : String) (zv : Value),
    approxO z dm = true → z.get? k = some zv →
    ∃ dv, dm.get? k = some dv ∧ approxB zv dv = true
  | .nil, dm, k, zv, _, hg => by rw [VObj.get?] at hg; exact absurd hg (by simp)
  | .cons k' z' tl, dm, k, zv, ha, hg => by
    rw [approxO_cons] at ha
    simp only [Bool.and_eq_true] at ha
    rw [VObj.get?] at hg
    by_cases hk : k' = k
    · rw [if_pos hk, Option.some_inj] at hg
      subst hk
      subst hg
      rcases hd : dm.get? k' with _ | dv
      · rw [hd] at ha
        exact Bool.noConfusion ha.1
      · rw [hd] at ha
        exact ⟨dv, rfl, ha.1⟩
    · rw [if_neg hk] at hg
      exact approxO_get?_left tl dm k zv ha.2 hg

theorem sorted_canonO : ∀ (m : VObj), m.SortedKeys →
    (∀ k v, m.get? k = some v → canonV v = true) → canonO m = true
  | .nil, _, _ => canonO_nil
  | .cons k v tl, hs, hv => by
    unfold VObj.SortedKeys VObj.keys at hs
    rw [List.pairwise_cons] at hs
    have hknot : k ∉ tl.keys := fun hmem => by
      have hlt := hs.1 k hmem
      rw [strLt_irrefl] at hlt
      exact Bool.noConfusion hlt
    rw [canonO_cons]
    simp only [Bool.and_eq_true]
    refine ⟨⟨hv k v (by rw [VObj.get?, if_pos rfl]), ?_⟩, ?_⟩
    · cases tl with
      | nil => rfl
      | cons k₂ v₂ tl₂ =>
        exact hs.1 k₂ (List.mem_cons_self _ _)
    · refine sorted_canonO tl hs.2 (fun k' v' hg => ?_)
      have hne : k ≠ k' := fun he =>
        hknot (he ▸ VObj.get?_mem_keys tl k' v' hg)
      exact hv k' v' (by rw [VObj.get?, if_neg hne]; exact hg)

theorem approxO_of_get_all : ∀ (z dm : VObj), z.SortedKeys →
    (∀ k zv, z.get? k = some zv → ∃ dv, dm.get? k = some dv ∧ approxB zv dv = true) →
    approxO z dm = true
  | .nil, dm, _, _ => approxO_nil dm
  | .cons k zv tl, dm, hs, h => by
    unfold VObj.SortedKeys VObj.keys at hs
    rw [List.pairwise_cons] at hs
    have hknot : k ∉ tl.keys := fun hmem => by
      have hlt := hs.1 k hmem
      rw [strLt_irrefl] at hlt
      exact Bool.noConfusion hlt
    rw [approxO_cons]
    simp only [Bool.and_eq_true]
    constructor
    · obtain ⟨dv, hdv, hap⟩ := h k zv (by rw [VObj.get?, if_pos rfl])
      rw [hdv]
      exact hap
    · refine approxO_of_get_all tl dm hs.2 (fun k' zv' hg => ?_)
      have hne : k ≠ k' := fun he =>
        hknot (he ▸ VObj.get?_mem_keys tl k' zv' hg)
      exact h k' zv' (by rw [VObj.get?, if_neg hne]; exact hg)

theorem canonO_set : ∀ (z : VObj) (k : String) (w : Value),
    canonO z = true → canonV w = true → canonO (z.set k w) = true := by
  intro z k w hc hw
  refine sorted_canonO (z.set k w) (VObj.sortedKeys_set z k w (canonO_sorted z hc)) ?_
  intro k' v hg
  by_cases hk : k' = k
  · subst hk
    rw [VObj.get?_set_self] at hg
    rw [Option.some_inj] at hg
    exact hg ▸ hw
  · rw [VObj.get?_set_ne z k' k w (fun he => hk he.symm)] at hg
    exact canonO_get? z k' v hc hg

theorem approxO_set : ∀ (z dm : VObj) (k : String) (w dv : Value),
    canonO z = true → approxO z dm = true → dm.get? k = some dv → approxB w dv = true →
    approxO (z.set k w) dm = true := by
  intro z dm k w dv hc ha hd hw
  refine approxO_of_get_all (z.set k w) dm
    (VObj.sortedKeys_set z k w (canonO_sorted z hc)) ?_
  intro k' zv hg
  by_cases hk : k' = k
  · subst hk
    rw [VObj.get?_set_self] at hg
    rw [Option.some_inj] at hg
    exact ⟨dv, hd, hg ▸ hw⟩
  · rw [VObj.get?_set_ne z k' k w (fun he => hk he.symm)] at hg
    exact approxO_get?_left z dm k' zv ha hg

theorem approxL_get?_left : ∀ (za da : VList) (j : Nat) (zx : Value),
    approxL za da = true → za.get? j = some zx →
    ∃ dx, da.get? j = some dx ∧ approxE zx dx = true
  | .nil, da, j, zx, _, hg => by rw [VList.get?] at hg; exact absurd hg (by simp)
  | .cons z zs, .nil, j, zx, ha, _ => by
    rw [approxL_cons_nil] at ha
    exact Bool.noConfusion ha
  | .cons z zs, .cons d ds, 0, zx, ha, hg => by
    rw [approxL_cons_cons] at ha
    simp only [Bool.and_eq_true] at ha
    rw [VList.get?, Option.some_inj] at hg
    exact ⟨d, rfl, hg ▸ ha.1⟩
  | .cons z zs, .cons d ds, j + 1, zx, ha, hg => by
    rw [approxL_cons_cons] at ha
    simp only [Bool.and_eq_true] at ha
    rw [VList.get?] at hg
    obtain ⟨dx, hdx, hap⟩ := approxL_get?_left zs ds j zx ha.2 hg
    exact ⟨dx, by rw [VList.get?]; exact hdx, hap⟩

theorem approxL_nulls : ∀ (n : Nat) (da : VList), n ≤ da.length →
    approxL (VList.nulls n) da = true
  | 0, da, _ => approxL_nil da
  | n + 1, .nil, h => by rw [VList.length] at h; omega
  | n + 1, .cons d ds, h => by
    rw [VList.nulls, approxL_cons_cons, approxE_null]
    rw [VList.length] at h
    rw [approxL_nulls n ds (by omega)]
    rfl

theorem approxL_padTo : ∀ (za : VList) (n : Nat) (da : VList),
    approxL za da = true → n ≤ da.length → approxL (za.padTo n) da = true
  | za, 0, da, ha, _ => by rw [VList.padTo.eq_def]; cases za <;> exact ha
  | .nil, n + 1, da, _, hn => by
    rw [VList.padTo.eq_def]
    exact approxL_nulls (n + 1) da hn
  | .cons z zs, n + 1, .nil, ha, _ => by
    rw [approxL_cons_nil] at ha
    exact Bool.noConfusion ha
  | .cons z zs, n + 1, .cons d ds, ha, hn => by
    rw [approxL_cons_cons] at ha
    simp only [Bool.and_eq_true] at ha
    rw [VList.padTo.eq_def]
    rw [approxL_cons_cons, ha.1]
    rw [VList.length] at hn
    rw [approxL_padTo zs n ds ha.2 (by omega)]
    rfl

theorem approxL_set : ∀ (za : VList) (j : Nat) (w : Value) (da : VList) (dx : Value),
    approxL za da = true → da.get? j = some dx → approxE w dx = true →
    approxL (za.set j w) da = true
  | .nil, _, _, da, _, _, _, _ => approxL_nil da
  | .cons z zs, 0, w, .nil, dx, ha, _, _ => by
    rw [approxL_cons_nil] at ha
    exact Bool.noConfusion ha
  | .cons z zs, 0, w, .cons d ds, dx, ha, hd, hw => by
    rw [approxL_cons_cons] at ha
    simp only [Bool.and_eq_true] at ha
    rw [VList.get?, Option.some_inj] at hd
    rw [VList.set, approxL_cons_cons, show approxE w d = true from hd ▸ hw, ha.2]
    rfl
  | .cons z zs, j + 1, w, .nil, dx, ha, _, _ => by
    rw [approxL_cons_nil] at ha
    exact Bool.noConfusion ha
  | .cons z zs, j + 1, w, .cons d ds, dx, ha, hd, hw => by
    rw [approxL_cons_cons] at ha
    simp only [Bool.and_eq_true] at ha
    rw [VList.get?] at hd
    rw [VList.set, approxL_cons_cons, ha.1, approxL_set zs j w ds dx ha.2 hd hw]
    rfl

/-- The binding of an approximating state at any reference key is
admissible. -/
theorem bindingOk_of_state (z dm : VObj) (k : String) (dv : Value)
    (ha : approxO z dm = true) (hd : dm.get? k = some dv) : bindingOk (z.get? k) dv := by
  rcases hz : z.get? k with _ | zv
  · exact Or.inl rfl
  · obtain ⟨dv', hdv', hap⟩ := approxO_get?_left z dm k zv ha hz
    rw [hd, Option.some_inj] at hdv'
    exact Or.inr ⟨zv, rfl, hdv' ▸ hap⟩

end KCR

namespace KCR

/-- Every flattened entry rooted at key `k` acts on an admissible state as
a single write at `k` whose value depends only on the state's binding
there. -/
theorem apply_shape : ∀ (k : String) (dv : Value) (e : List Seg × Value), entKeyed k dv e →
    ∃ F : Option Value → Value,
      ∀ z : VObj, bindingOk (z.get? k) dv → applyEnt z e = z.set k (F (z.get? k)) := by
  intro k dv e hkeyed
  cases dv with
  | obj o =>
    obtain ⟨e', he', hee⟩ := hkeyed
    have hne := entObj_ne_nil o e' he'
    rcases h1 : e'.1 with _ | ⟨r₁, r₂⟩
    · exact absurd h1 hne
    · rw [h1] at hee
      subst hee
      refine ⟨fun b => .obj (setSegs (objOf b) (r₁ :: r₂) e'.2), fun z hb => ?_⟩
      show setSegs z ((k, -1) :: r₁ :: r₂) e'.2 = _
      rw [setSegs_more, if_neg (by decide : ¬ (0 : Int) ≤ -1)]
      rcases hb with hb | ⟨zv, hzv, hap⟩
      · rw [hb]
        rfl
      · obtain ⟨zm, rfl, -⟩ := approxB_obj_right zv o hap
        rw [hzv]
        rfl
  | arr a =>
    rcases hkeyed with hwhole | hitem
    · subst hwhole
      refine ⟨fun _ => .arr a, fun z _ => ?_⟩
      show setSegs z [(k, -1)] (.arr a) = _
      rw [setSegs_one, if_neg (by decide : ¬ (0 : Int) ≤ -1)]
    · obtain ⟨j, x, -, hx, hkey⟩ := entItems_mem a k 0 e hitem
      rw [Nat.sub_zero] at hx
      cases x with
      | obj o =>
        obtain ⟨e', he', hee⟩ := hkey
        have hne := entObj_ne_nil o e' he'
        rcases h1 : e'.1 with _ | ⟨r₁, r₂⟩
        · exact absurd h1 hne
        · rw [h1] at hee
          subst hee
          refine ⟨fun b => .arr (((arrOf b (j + 1)).padTo (j + 1)).set j
            (.obj (setSegs (objOf (((arrOf b (j + 1)).padTo (j + 1)).get? j))
              (r₁ :: r₂) e'.2))), fun z _ => ?_⟩
          show setSegs z ((k, (j : Int)) :: r₁ :: r₂) e'.2 = _
          rw [setSegs_more, if_pos (Int.natCast_nonneg j)]
          simp only [Int.toNat_natCast]
      | null =>
        have he2 : e = ([(k, (j : Int))], .null) := hkey
        subst he2
        refine ⟨fun b => .arr (((arrOf b (j + 1)).padTo (j + 1)).set j .null),
          fun z _ => ?_⟩
        show setSegs z [(k, (j : Int))] .null = _
        rw [setSegs_one, if_pos (Int.natCast_nonneg j)]
        simp only [Int.toNat_natCast]
      | bool b' =>
        have he2 : e = ([(k, (j : Int))], .bool b') := hkey
        subst he2
        refine ⟨fun b => .arr (((arrOf b (j + 1)).padTo (j + 1)).set j (.bool b')),
          fun z _ => ?_⟩
        show setSegs z [(k, (j : Int))] (.bool b') = _
        rw [setSegs_one, if_pos (Int.natCast_nonneg j)]
        simp only [Int.toNat_natCast]
      | int n =>
        have he2 : e = ([(k, (j : Int))], .int n) := hkey
        subst he2
        refine ⟨fun b => .arr (((arrOf b (j + 1)).padTo (j + 1)).set j (.int n)),
          fun z _ => ?_⟩
        show setSegs z [(k, (j : Int))] (.int n) = _
        rw [setSegs_one, if_pos (Int.natCast_nonneg j)]
        simp only [Int.toNat_natCast]
      | float n d =>
        have he2 : e = ([(k, (j : Int))], .float n d) := hkey
        subst he2
        refine ⟨fun b => .arr (((arrOf b (j + 1)).padTo (j + 1)).set j (.float n d)),
          fun z _ => ?_⟩
        show setSegs z [(k, (j : Int))] (.float n d) = _
        rw [setSegs_one, if_pos (Int.natCast_nonneg j)]
        simp only [Int.toNat_natCast]
      | str s =>
        have he2 : e = ([(k, (j : Int))], .str s) := hkey
        subst he2
        refine ⟨fun b => .arr (((arrOf b (j + 1)).padTo (j + 1)).set j (.str s)),
          fun z _ => ?_⟩
        show setSegs z [(k, (j : Int))] (.str s) = _
        rw [setSegs_one, if_pos (Int.natCast_nonneg j)]
        simp only [Int.toNat_natCast]
      | arr a' =>
        have he2 : e = ([(k, (j : Int))], .arr a') := hkey
        subst he2
        refine ⟨fun b => .arr (((arrOf b (j + 1)).padTo (j + 1)).set j (.arr a')),
          fun z _ => ?_⟩
        show setSegs z [(k, (j : Int))] (.arr a') = _
        rw [setSegs_one, if_pos (Int.natCast_nonneg j)]
        simp only [Int.toNat_natCast]
  | null =>
    have he2 : e = ([(k, -1)], .null) := hkeyed
    subst he2
    refine ⟨fun _ => .null, fun z _ => ?_⟩
    show setSegs z [(k, -1)] .null = _
    rw [setSegs_one, if_neg (by decide : ¬ (0 : Int) ≤ -1)]
  | bool b =>
    have he2 : e = ([(k, -1)], .bool b) := hkeyed
    subst he2
    refine ⟨fun _ => .bool b, fun z _ => ?_⟩
    show setSegs z [(k, -1)] (.bool b) = _
    rw [setSegs_one, if_neg (by decide : ¬ (0 : Int) ≤ -1)]
  | int n =>
    have he2 : e = ([(k, -1)], .int n) := hkeyed
    subst he2
    refine ⟨fun _ => .int n, fun z _ => ?_⟩
    show setSegs z [(k, -1)] (.int n) = _
    rw [setSegs_one, if_neg (by decide : ¬ (0 : Int) ≤ -1)]
  | float n d =>
    have he2 : e = ([(k, -1)], .float n d) := hkeyed
    subst he2
    refine ⟨fun _ => .float n d, fun z _ => ?_⟩
    show setSegs z [(k, -1)] (.float n d) = _
    rw [setSegs_one, if_neg (by decide : ¬ (0 : Int) ≤ -1)]
  | str s =>
    have he2 : e = ([(k, -1)], .str s) := hkeyed
    subst he2
    refine ⟨fun _ => .str s, fun z _ => ?_⟩
    show setSegs z [(k, -1)] (.str s) = _
    rw [setSegs_one, if_neg (by decide : ¬ (0 : Int) ≤ -1)]

end KCR

namespace KCR

theorem arrOf_arr (a : VList) (n : Nat) : arrOf (some (.arr a)) n = a := rfl

theorem arrOf_none (n : Nat) : arrOf none n = VList.nulls n := rfl

theorem objOf_obj (o : VObj) : objOf (some (.obj o)) = o := rfl

theorem objOf_none : objOf none = VObj.nil := rfl

mutual
/-- Applying a flattened entry of a well-formed document back to the
document itself changes nothing. -/
theorem truthO : ∀ (dm : VObj), wfO dm = true → ∀ e ∈ entObj dm,
    setSegs dm e.1 e.2 = dm
  | dm, hwf, e, he => by
    obtain ⟨k, dv, hget, hkeyed⟩ := entObj_mem dm hwf e he
    have hdv := wfO_get? dm k dv hwf hget
    have hsort := wfO_sorted dm hwf
    cases dv with
    | null => rw [wfV_null] at hdv; exact Bool.noConfusion hdv
    | obj o =>
      have hwo : wfO o = true := by
        rw [wfV_obj] at hdv
        simp only [Bool.and_eq_true] at hdv
        exact hdv.2
      have hszo : sizeOf o < sizeOf dm := by
        have h1 := sizeOf_get_obj dm k (.obj o) hget
        simp only [Value.obj.sizeOf_spec] at h1
        omega
      obtain ⟨e', he', hee⟩ := hkeyed
      have hne := entObj_ne_nil o e' he'
      rcases h1 : e'.1 with _ | ⟨r₁, r₂⟩
      · exact absurd h1 hne
      · rw [h1] at hee
        subst hee
        show setSegs dm ((k, -1) :: r₁ :: r₂) e'.2 = dm
        rw [setSegs_more, if_neg (by decide : ¬ (0 : Int) ≤ -1), hget]
        show dm.set k (.obj (setSegs o (r₁ :: r₂) e'.2)) = dm
        have hinner := truthO o hwo e' he'
        rw [h1] at hinner
        rw [hinner]
        exact VObj.set_self dm k (.obj o) hsort hget
    | arr a =>
      have hwl : wfL a = true := by
        rw [wfV_arr] at hdv
        simp only [Bool.and_eq_true] at hdv
        exact hdv.1
      have hsza : sizeOf a < sizeOf dm := by
        have h1 := sizeOf_get_obj dm k (.arr a) hget
        simp only [Value.arr.sizeOf_spec] at h1
        omega
      rcases hkeyed with hwhole | hitem
      · subst hwhole
        show setSegs dm [(k, -1)] (.arr a) = dm
        rw [setSegs_one, if_neg (by decide : ¬ (0 : Int) ≤ -1)]
        exact VObj.set_self dm k (.arr a) hsort hget
      · exact truthItems a k dm hwl (wfO_canonO dm hwf) hget e hitem
    | bool b =>
      have he2 : e = ([(k, -1)], .bool b) := hkeyed
      subst he2
      show setSegs dm [(k, -1)] (.bool b) = dm
      rw [setSegs_one, if_neg (by decide : ¬ (0 : Int) ≤ -1)]
      exact VObj.set_self dm k (.bool b) hsort hget
    | int n =>
      have he2 : e = ([(k, -1)], .int n) := hkeyed
      subst he2
      show setSegs dm [(k, -1)] (.int n) = dm
      rw [setSegs_one, if_neg (by decide : ¬ (0 : Int) ≤ -1)]
      exact VObj.set_self dm k (.int n) hsort hget
    | float n d =>
      have he2 : e = ([(k, -1)], .float n d) := hkeyed
      subst he2
      show setSegs dm [(k, -1)] (.float n d) = dm
      rw [setSegs_one, if_neg (by decide : ¬ (0 : Int) ≤ -1)]
      exact VObj.set_self dm k (.float n d) hsort hget
    | str s =>
      have he2 : e = ([(k, -1)], .str s) := hkeyed
      subst he2
      show setSegs dm [(k, -1)] (.str s) = dm
      rw [setSegs_one, if_neg (by decide : ¬ (0 : Int) ≤ -1)]
      exact VObj.set_self dm k (.str s) hsort hget
termination_by dm _ e _ => sizeOf dm
decreasing_by
  all_goals simp_wf
  all_goals omega

/-- Applying an item entry of a well-formed array to a canonical state
already holding the full array changes nothing. -/
theorem truthItems : ∀ (af : VList) (k : String) (z : VObj), wfL af = true →
    canonO z = true → z.get? k = some (.arr af) → ∀ e ∈ entItems k 0 af,
    setSegs z e.1 e.2 = z
  | af, k, z, hwl, hcz, hget, e, he => by
    obtain ⟨j, x, -, hx, hkey⟩ := entItems_mem af k 0 e he
    rw [Nat.sub_zero] at hx
    have hsort := canonO_sorted z hcz
    have hjlen := VList.get?_lt_length af j x hx
    have hjle : j + 1 ≤ af.length := hjlen
    cases x with
    | obj o =>
      have hwo : wfO o = true := by
        have hwx := wfL_get? af j (.obj o) hwl hx
        rw [wfV_obj] at hwx
        simp only [Bool.and_eq_true] at hwx
        exact hwx.2
      have hszo : sizeOf o < sizeOf af := by
        have h1 := sizeOf_get_list af j (.obj o) hx
        simp only [Value.obj.sizeOf_spec] at h1
        omega
      obtain ⟨e', he', hee⟩ := hkey
      have hne := entObj_ne_nil o e' he'
      rcases h1 : e'.1 with _ | ⟨r₁, r₂⟩
      · exact absurd h1 hne
      · rw [h1] at hee
        subst hee
        show setSegs z ((k, (j : Int)) :: r₁ :: r₂) e'.2 = z
        rw [setSegs_more, if_pos (Int.natCast_nonneg j)]
        simp only [Int.toNat_natCast]
        rw [hget, arrOf_arr, VList.padTo_of_le af (j + 1) hjle, hx, objOf_obj]
        have hinner := truthO o hwo e' he'
        rw [h1] at hinner
        rw [hinner]
        rw [VList.set_get_self af j (.obj o) hx]
        exact VObj.set_self z k (.arr af) hsort hget
    | null =>
      have he2 : e = ([(k, (j : Int))], .null) := hkey
      subst he2
      show setSegs z [(k, (j : Int))] .null = z
      rw [setSegs_one, if_pos (Int.natCast_nonneg j)]
      simp only [Int.toNat_natCast]
      rw [hget, arrOf_arr, VList.padTo_of_le af (j + 1) hjle,
        VList.set_get_self af j .null hx]
      exact VObj.set_self z k (.arr af) hsort hget
    | bool b =>
      have he2 : e = ([(k, (j : Int))], .bool b) := hkey
      subst he2
      show setSegs z [(k, (j : Int))] (.bool b) = z
      rw [setSegs_one, if_pos (Int.natCast_nonneg j)]
      simp only [Int.toNat_natCast]
      rw [hget, arrOf_arr, VList.padTo_of_le af (j + 1) hjle,
        VList.set_get_self af j (.bool b) hx]
      exact VObj.set_self z k (.arr af) hsort hget
    | int n =>
      have he2 : e = ([(k, (j : Int))], .int n) := hkey
      subst he2
      show setSegs z [(k, (j : Int))] (.int n) = z
      rw [setSegs_one, if_pos (Int.natCast_nonneg j)]
      simp only [Int.toNat_natCast]
      rw [hget, arrOf_arr, VList.padTo_of_le af (j + 1) hjle,
        VList.set_get_self af j (.int n) hx]
      exact VObj.set_self z k (.arr af) hsort hget
    | float n d =>
      have he2 : e = ([(k, (j : Int))], .float n d) := hkey
      subst he2
      show setSegs z [(k, (j : Int))] (.float n d) = z
      rw [setSegs_one, if_pos (Int.natCast_nonneg j)]
      simp only [Int.toNat_natCast]
      rw [hget, arrOf_arr, VList.padTo_of_le af (j + 1) hjle,
        VList.set_get_self af j (.float n d) hx]
      exact VObj.set_self z k (.arr af) hsort hget
    | str s =>
      have he2 : e = ([(k, (j : Int))], .str s) := hkey
      subst he2
      show setSegs z [(k, (j : Int))] (.str s) = z
      rw [setSegs_one, if_pos (Int.natCast_nonneg j)]
      simp only [Int.toNat_natCast]
      rw [hget, arrOf_arr, VList.padTo_of_le af (j + 1) hjle,
        VList.set_get_self af j (.str s) hx]
      exact VObj.set_self z k (.arr af) hsort hget
    | arr a' =>
      have he2 : e = ([(k, (j : Int))], .arr a') := hkey
      subst he2
      show setSegs z [(k, (j : Int))] (.arr a') = z
      rw [setSegs_one, if_pos (Int.natCast_nonneg j)]
      simp only [Int.toNat_natCast]
      rw [hget, arrOf_arr, VList.padTo_of_le af (j + 1) hjle,
        VList.set_get_self af j (.arr a') hx]
      exact VObj.set_self z k (.arr af) hsort hget
termination_by af _ _ _ _ _ e _ => sizeOf af
decreasing_by
  all_goals simp_wf
  all_goals omega
end

end KCR

namespace KCR

theorem preserve_write (z dm : VObj) (k : String) (dv w : Value)
    (hc : canonO z = true) (ha : approxO z dm = true) (hget : dm.get? k = some dv)
    (hcw : canonV w = true) (haw : approxB w dv = true) :
    canonO (z.set k w) = true ∧ approxO (z.set k w) dm = true :=
  ⟨canonO_set z k w hc hcw, approxO_set z dm k w dv hc ha hget haw⟩

theorem base_ok (z dm : VObj) (k : String) (a : VList) (n : Nat)
    (hc : canonO z = true) (ha : approxO z dm = true) (hget : dm.get? k = some (.arr a))
    (hn : n ≤ a.length) :
    canonL (arrOf (z.get? k) n) = true ∧ approxL (arrOf (z.get? k) n) a = true := by
  rcases bindingOk_of_state z dm k (.arr a) ha hget with hb | ⟨zv, hzv, hap⟩
  · rw [hb, arrOf_none]
    exact ⟨canonL_nulls n, approxL_nulls n a hn⟩
  · obtain ⟨za, rfl, hapl⟩ := approxB_arr_right zv a hap
    rw [hzv, arrOf_arr]
    have hcza : canonL za = true := by
      have := canonO_get? z k (.arr za) hc hzv
      rw [canonV_arr] at this
      exact this
    exact ⟨hcza, hapl⟩

/-- Applying a flattened entry of a well-formed document to an admissible
state keeps the state canonical and approximating. -/
theorem applyEnt_preserve : ∀ (dm : VObj), wfO dm = true → ∀ e ∈ entObj dm, ∀ z : VObj,
    canonO z = true → approxO z dm = true →
    canonO (applyEnt z e) = true ∧ approxO (applyEnt z e) dm = true
  | dm, hwf, e, he, z, hc, ha => by
    obtain ⟨k, dv, hget, hkeyed⟩ := entObj_mem dm hwf e he
    have hdv := wfO_get? dm k dv hwf hget
    cases dv with
    | null => rw [wfV_null] at hdv; exact Bool.noConfusion hdv
    | bool b =>
      have he2 : e = ([(k, -1)], .bool b) := hkeyed
      subst he2
      show canonO (setSegs z [(k, -1)] (.bool b)) = true ∧ approxO (setSegs z [(k, -1)] (.bool b)) dm = true
      rw [setSegs_one, if_neg (by decide : ¬ (0 : Int) ≤ -1)]
      exact preserve_write z dm k _ _ hc ha hget (canonV_bool b) (approxB_refl _ hdv)
    | int n =>
      have he2 : e = ([(k, -1)], .int n) := hkeyed
      subst he2
      show canonO (setSegs z [(k, -1)] (.int n)) = true ∧ approxO (setSegs z [(k, -1)] (.int n)) dm = true
      rw [setSegs_one, if_neg (by decide : ¬ (0 : Int) ≤ -1)]
      exact preserve_write z dm k _ _ hc ha hget (canonV_int n) (approxB_refl _ hdv)
    | float n d =>
      have he2 : e = ([(k, -1)], .float n d) := hkeyed
      subst he2
      show canonO (setSegs z [(k, -1)] (.float n d)) = true ∧ approxO (setSegs z [(k, -1)] (.float n d)) dm = true
      rw [setSegs_one, if_neg (by decide : ¬ (0 : Int) ≤ -1)]
      exact preserve_write z dm k _ _ hc ha hget (canonV_float n d) (approxB_refl _ hdv)
    | str s =>
      have he2 : e = ([(k, -1)], .str s) := hkeyed
      subst he2
      show canonO (setSegs z [(k, -1)] (.str s)) = true ∧ approxO (setSegs z [(k, -1)] (.str s)) dm = true
      rw [setSegs_one, if_neg (by decide : ¬ (0 : Int) ≤ -1)]
      exact preserve_write z dm k _ _ hc ha hget (canonV_str s) (approxB_refl _ hdv)
    | obj o =>
      have hwo : wfO o = true := by
        rw [wfV_obj] at hdv
        simp only [Bool.and_eq_true] at hdv
        exact hdv.2
      have hszo : sizeOf o < sizeOf dm := by
        have h1 := sizeOf_get_obj dm k (.obj o) hget
        simp only [Value.obj.sizeOf_spec] at h1
        omega
      obtain ⟨e', he', hee⟩ := hkeyed
      have hne := entObj_ne_nil o e' he'
      rcases h1 : e'.1 with _ | ⟨r₁, r₂⟩
      · exact absurd h1 hne
      · rw [h1] at hee
        subst hee
        show canonO (setSegs z ((k, -1) :: r₁ :: r₂) e'.2) = true ∧ approxO (setSegs z ((k, -1) :: r₁ :: r₂) e'.2) dm = true
        rw [setSegs_more, if_neg (by decide : ¬ (0 : Int) ≤ -1)]
        rcases bindingOk_of_state z dm k (.obj o) ha hget with hb | ⟨zv, hzv, hap⟩
        · rw [hb]
          show canonO (z.set k (.obj (setSegs VObj.nil (r₁ :: r₂) e'.2))) = true ∧
            approxO (z.set k (.obj (setSegs VObj.nil (r₁ :: r₂) e'.2))) dm = true
          have hrec := applyEnt_preserve o hwo e' he' VObj.nil canonO_nil (approxO_nil o)
          rw [applyEnt.eq_def, h1] at hrec
          refine preserve_write z dm k _ _ hc ha hget ?_ ?_
          · rw [canonV_obj]
            exact hrec.1
          · rw [approxB_obj_obj]
            exact hrec.2
        · obtain ⟨zm, rfl, hapo⟩ := approxB_obj_right zv o hap
          rw [hzv]
          show canonO (z.set k (.obj (setSegs zm (r₁ :: r₂) e'.2))) = true ∧
            approxO (z.set k (.obj (setSegs zm (r₁ :: r₂) e'.2))) dm = true
          have hczm : canonO zm = true := by
            have := canonO_get? z k (.obj zm) hc hzv
            rw [canonV_obj] at this
            exact this
          have hrec := applyEnt_preserve o hwo e' he' zm hczm hapo
          rw [applyEnt.eq_def, h1] at hrec
          refine preserve_write z dm k _ _ hc ha hget ?_ ?_
          · rw [canonV_obj]
            exact hrec.1
          · rw [approxB_obj_obj]
            exact hrec.2
    | arr a =>
      have hwl : wfL a = true := by
        rw [wfV_arr] at hdv
        simp only [Bool.and_eq_true] at hdv
        exact hdv.1
      have hsza : sizeOf a < sizeOf dm := by
        have h1 := sizeOf_get_obj dm k (.arr a) hget
        simp only [Value.arr.sizeOf_spec] at h1
        omega
      rcases hkeyed with hwhole | hitem
      · subst hwhole
        show canonO (setSegs z [(k, -1)] (.arr a)) = true ∧ approxO (setSegs z [(k, -1)] (.arr a)) dm = true
        rw [setSegs_one, if_neg (by decide : ¬ (0 : Int) ≤ -1)]
        refine preserve_write z dm k _ _ hc ha hget ?_ ?_
        · rw [canonV_arr]
          exact wfL_canonL a hwl
        · rw [approxB_arr_arr]
          exact approxL_refl a hwl
      · obtain ⟨j, x, -, hx, hkey⟩ := entItems_mem a k 0 e hitem
        rw [Nat.sub_zero] at hx
        have hjlen := VList.get?_lt_length a j x hx
        have hjle : j + 1 ≤ a.length := hjlen
        obtain ⟨hcb, hab⟩ := base_ok z dm k a (j + 1) hc ha hget hjle
        have hcP : canonL ((arrOf (z.get? k) (j + 1)).padTo (j + 1)) = true :=
          canonL_padTo _ (j + 1) hcb
        have haP : approxL ((arrOf (z.get? k) (j + 1)).padTo (j + 1)) a = true :=
          approxL_padTo _ (j + 1) a hab hjle
        have hwx := wfL_get? a j x hwl hx
        cases x with
        | obj o =>
          have hwo : wfO o = true := by
            rw [wfV_obj] at hwx
            simp only [Bool.and_eq_true] at hwx
            exact hwx.2
          have hszo : sizeOf o < sizeOf dm := by
            have h2 := sizeOf_get_list a j (.obj o) hx
            simp only [Value.obj.sizeOf_spec] at h2
            omega
          obtain ⟨e', he', hee⟩ := hkey
          have hne := entObj_ne_nil o e' he'
          rcases h1 : e'.1 with _ | ⟨r₁, r₂⟩
          · exact absurd h1 hne
          · rw [h1] at hee
            subst hee
            show canonO (setSegs z ((k, (j : Int)) :: r₁ :: r₂) e'.2) = true ∧ approxO (setSegs z ((k, (j : Int)) :: r₁ :: r₂) e'.2) dm = true
            rw [setSegs_more, if_pos (Int.natCast_nonneg j)]
            simp only [Int.toNat_natCast]
            have hsub : canonO (objOf (((arrOf (z.get? k) (j + 1)).padTo (j + 1)).get? j)) = true ∧
                approxO (objOf (((arrOf (z.get? k) (j + 1)).padTo (j + 1)).get? j)) o = true := by
              rcases hpj : ((arrOf (z.get? k) (j + 1)).padTo (j + 1)).get? j with _ | px
              · rw [objOf_none]
                exact ⟨canonO_nil, approxO_nil o⟩
              · obtain ⟨dx, hdx, happx⟩ := approxL_get?_left _ a j px haP hpj
                rw [hx, Option.some_inj] at hdx
                subst hdx
                rcases approxE_obj_right px o happx with rfl | ⟨zm, rfl, hzo⟩
                · exact ⟨canonO_nil, approxO_nil o⟩
                · rw [objOf_obj]
                  have := canonL_get? _ j (.obj zm) hcP hpj
                  rw [canonV_obj] at this
                  exact ⟨this, hzo⟩
            have hrec := applyEnt_preserve o hwo e' he' _ hsub.1 hsub.2
            rw [applyEnt.eq_def, h1] at hrec
            refine preserve_write z dm k _ _ hc ha hget ?_ ?_
            · rw [canonV_arr]
              refine canonL_set _ j _ hcP ?_
              rw [canonV_obj]
              exact hrec.1
            · rw [approxB_arr_arr]
              refine approxL_set _ j _ a _ haP hx ?_
              rw [approxE_obj_obj]
              exact hrec.2
        | null =>
          have he2 : e = ([(k, (j : Int))], .null) := hkey
          subst he2
          show canonO (setSegs z [(k, (j : Int))] .null) = true ∧ approxO (setSegs z [(k, (j : Int))] .null) dm = true
          rw [setSegs_one, if_pos (Int.natCast_nonneg j)]
          simp only [Int.toNat_natCast]
          refine preserve_write z dm k _ _ hc ha hget ?_ ?_
          · rw [canonV_arr]
            exact canonL_set _ j _ hcP canonV_null
          · rw [approxB_arr_arr]
            exact approxL_set _ j _ a _ haP hx (approxE_null _)
        | bool b =>
          have he2 : e = ([(k, (j : Int))], .bool b) := hkey
          subst he2
          show canonO (setSegs z [(k, (j : Int))] (.bool b)) = true ∧ approxO (setSegs z [(k, (j : Int))] (.bool b)) dm = true
          rw [setSegs_one, if_pos (Int.natCast_nonneg j)]
          simp only [Int.toNat_natCast]
          refine preserve_write z dm k _ _ hc ha hget ?_ ?_
          · rw [canonV_arr]
            exact canonL_set _ j _ hcP (canonV_bool b)
          · rw [approxB_arr_arr]
            exact approxL_set _ j _ a _ haP hx (approxE_refl _ hwx)
        | int n =>
          have he2 : e = ([(k, (j : Int))], .int n) := hkey
          subst he2
          show canonO (setSegs z [(k, (j : Int))] (.int n)) = true ∧ approxO (setSegs z [(k, (j : Int))] (.int n)) dm = true
          rw [setSegs_one, if_pos (Int.natCast_nonneg j)]
          simp only [Int.toNat_natCast]
          refine preserve_write z dm k _ _ hc ha hget ?_ ?_
          · rw [canonV_arr]
            exact canonL_set _ j _ hcP (canonV_int n)
          · rw [approxB_arr_arr]
            exact approxL_set _ j _ a _ haP hx (approxE_refl _ hwx)
        | float n d =>
          have he2 : e = ([(k, (j : Int))], .float n d) := hkey
          subst he2
          show canonO (setSegs z [(k, (j : Int))] (.float n d)) = true ∧ approxO (setSegs z [(k, (j : Int))] (.float n d)) dm = true
          rw [setSegs_one, if_pos (Int.natCast_nonneg j)]
          simp only [Int.toNat_natCast]
          refine preserve_write z dm k _ _ hc ha hget ?_ ?_
          · rw [canonV_arr]
            exact canonL_set _ j _ hcP (canonV_float n d)
          · rw [approxB_arr_arr]
            exact approxL_set _ j _ a _ haP hx (approxE_refl _ hwx)
        | str s =>
          have he2 : e = ([(k, (j : Int))], .str s) := hkey
          subst he2
          show canonO (setSegs z [(k, (j : Int))] (.str s)) = true ∧ approxO (setSegs z [(k, (j : Int))] (.str s)) dm = true
          rw [setSegs_one, if_pos (Int.natCast_nonneg j)]
          simp only [Int.toNat_natCast]
          refine preserve_write z dm k _ _ hc ha hget ?_ ?_
          · rw [canonV_arr]
            exact canonL_set _ j _ hcP (canonV_str s)
          · rw [approxB_arr_arr]
            exact approxL_set _ j _ a _ haP hx (approxE_refl _ hwx)
        | arr a' =>
          have he2 : e = ([(k, (j : Int))], .arr a') := hkey
          subst he2
          show canonO (setSegs z [(k, (j : Int))] (.arr a')) = true ∧ approxO (setSegs z [(k, (j : Int))] (.arr a')) dm = true
          rw [setSegs_one, if_pos (Int.natCast_nonneg j)]
          simp only [Int.toNat_natCast]
          refine preserve_write z dm k _ _ hc ha hget ?_ ?_
          · rw [canonV_arr]
            refine canonL_set _ j _ hcP ?_
            rw [canonV_arr]
            have := wfV_canonV _ hwx
            rw [canonV_arr] at this
            exact this
          · rw [approxB_arr_arr]
            exact approxL_set _ j _ a _ haP hx (approxE_refl _ hwx)
termination_by dm _ e _ z _ _ => sizeOf dm
decreasing_by
  all_goals simp_wf
  all_goals omega

end KCR

namespace KCR

theorem VList.padTo_nil : ∀ (n : Nat), VList.nil.padTo n = VList.nulls n
  | 0 => rfl
  | n + 1 => by rw [VList.padTo.eq_def]; rfl

theorem VList.padTo_set_all (a : VList) (j : Nat) (x : Value) (n : Nat)
    (hj : j < a.length) : (a.set j x).padTo n = (a.padTo n).set j x := by
  by_cases hjn : j < n
  · exact VList.padTo_set_comm a j x n hjn hj
  · rw [VList.padTo_of_le (a.set j x) n (by rw [VList.length_set]; omega),
      VList.padTo_of_le a n (by omega)]

theorem VList.get?_padTo_mono (B : VList) (j n N : Nat) (hjn : j < n) (hnN : n ≤ N) :
    (B.padTo n).get? j = (B.padTo N).get? j := by
  rw [VList.get?_padTo, VList.get?_padTo]
  split_ifs <;> first | rfl | omega

theorem arrOf_pad_eq (b : Option Value) (a : VList) (n : Nat)
    (hb : bindingOk b (.arr a)) : (arrOf b n).padTo n = (arrOf b 0).padTo n := by
  rcases hb with rfl | ⟨zv, rfl, hap⟩
  · rw [arrOf_none, arrOf_none]
    show (VList.nulls n).padTo n = VList.nil.padTo n
    rw [VList.padTo_nil, VList.padTo_of_le _ n (by rw [VList.length_nulls])]
  · obtain ⟨za, rfl, -⟩ := approxB_arr_right zv a hap
    rfl

/-- Entry shape at an object-valued key, exposing the inner entry. -/
theorem objent_shape (k : String) (o : VObj) (e : List Seg × Value)
    (hkey : entKeyed k (.obj o) e) :
    ∃ e', e' ∈ entObj o ∧ ∀ z : VObj, bindingOk (z.get? k) (.obj o) →
      applyEnt z e = z.set k (.obj (applyEnt (objOf (z.get? k)) e')) := by
  obtain ⟨e', he', hee⟩ := hkey
  have hne := entObj_ne_nil o e' he'
  rcases h1 : e'.1 with _ | ⟨r₁, r₂⟩
  · exact absurd h1 hne
  · rw [h1] at hee
    subst hee
    refine ⟨e', he', fun z hb => ?_⟩
    show setSegs z ((k, -1) :: r₁ :: r₂) e'.2 = _
    rw [setSegs_more, if_neg (by decide : ¬ (0 : Int) ≤ -1)]
    rw [applyEnt.eq_def, h1]
    rcases hb with hb | ⟨zv, hzv, hap⟩
    · rw [hb]
      rfl
    · obtain ⟨zm, rfl, -⟩ := approxB_obj_right zv o hap
      rw [hzv]
      rfl

/-- Item-entry shape with the base array normalized through `bindingOk`. -/
theorem item_shape (k : String) (a : VList) (j : Nat) (x : Value) (e : List Seg × Value)
    (hkey : itemKeyed k j x e) :
    ∃ W : Option Value → Value, ∀ z : VObj, bindingOk (z.get? k) (.arr a) →
      applyEnt z e = z.set k (.arr (((arrOf (z.get? k) 0).padTo (j + 1)).set j
        (W (((arrOf (z.get? k) 0).padTo (j + 1)).get? j)))) := by
  cases x with
  | obj o =>
    obtain ⟨e', he', hee⟩ := hkey
    have hne := entObj_ne_nil o e' he'
    rcases h1 : e'.1 with _ | ⟨r₁, r₂⟩
    · exact absurd h1 hne
    · rw [h1] at hee
      subst hee
      refine ⟨fun elem => .obj (setSegs (objOf elem) (r₁ :: r₂) e'.2), fun z hb => ?_⟩
      show setSegs z ((k, (j : Int)) :: r₁ :: r₂) e'.2 = _
      rw [setSegs_more, if_pos (Int.natCast_nonneg j)]
      simp only [Int.toNat_natCast]
      rw [arrOf_pad_eq (z.get? k) a (j + 1) hb]
  | null =>
    have he2 : e = ([(k, (j : Int))], .null) := hkey
    subst he2
    refine ⟨fun _ => .null, fun z hb => ?_⟩
    show setSegs z [(k, (j : Int))] .null = _
    rw [setSegs_one, if_pos (Int.natCast_nonneg j)]
    simp only [Int.toNat_natCast]
    rw [arrOf_pad_eq (z.get? k) a (j + 1) hb]
  | bool b' =>
    have he2 : e = ([(k, (j : Int))], .bool b') := hkey
    subst he2
    refine ⟨fun _ => .bool b', fun z hb => ?_⟩
    show setSegs z [(k, (j : Int))] (.bool b') = _
    rw [setSegs_one, if_pos (Int.natCast_nonneg j)]
    simp only [Int.toNat_natCast]
    rw [arrOf_pad_eq (z.get? k) a (j + 1) hb]
  | int n =>
    have he2 : e = ([(k, (j : Int))], .int n) := hkey
    subst he2
    refine ⟨fun _ => .int n, fun z hb => ?_⟩
    show setSegs z [(k, (j : Int))] (.int n) = _
    rw [setSegs_one, if_pos (Int.natCast_nonneg j)]
    simp only [Int.toNat_natCast]
    rw [arrOf_pad_eq (z.get? k) a (j + 1) hb]
  | float n d =>
    have he2 : e = ([(k, (j : Int))], .float n d) := hkey
    subst he2
    refine ⟨fun _ => .float n d, fun z hb => ?_⟩
    show setSegs z [(k, (j : Int))] (.float n d) = _
    rw [setSegs_one, if_pos (Int.natCast_nonneg j)]
    simp only [Int.toNat_natCast]
    rw [arrOf_pad_eq (z.get? k) a (j + 1) hb]
  | str s =>
    have he2 : e = ([(k, (j : Int))], .str s) := hkey
    subst he2
    refine ⟨fun _ => .str s, fun z hb => ?_⟩
    show setSegs z [(k, (j : Int))] (.str s) = _
    rw [setSegs_one, if_pos (Int.natCast_nonneg j)]
    simp only [Int.toNat_natCast]
    rw [arrOf_pad_eq (z.get? k) a (j + 1) hb]
  | arr a' =>
    have he2 : e = ([(k, (j : Int))], .arr a') := hkey
    subst he2
    refine ⟨fun _ => .arr a', fun z hb => ?_⟩
    show setSegs z [(k, (j : Int))] (.arr a') = _
    rw [setSegs_one, if_pos (Int.natCast_nonneg j)]
    simp only [Int.toNat_natCast]
    rw [arrOf_pad_eq (z.get? k) a (j + 1) hb]

/-- Item-entry shape at an object element, exposing the inner entry. -/
theorem itemobj_shape (k : String) (j : Nat) (o : VObj) (e : List Seg × Value)
    (hkey : itemKeyed k j (.obj o) e) :
    ∃ e', e' ∈ entObj o ∧ ∀ (a : VList) (z : VObj), bindingOk (z.get? k) (.arr a) →
      applyEnt z e = z.set k (.arr (((arrOf (z.get? k) 0).padTo (j + 1)).set j
        (.obj (applyEnt (objOf (((arrOf (z.get? k) 0).padTo (j + 1)).get? j)) e')))) := by
  obtain ⟨e', he', hee⟩ := hkey
  have hne := entObj_ne_nil o e' he'
  rcases h1 : e'.1 with _ | ⟨r₁, r₂⟩
  · exact absurd h1 hne
  · rw [h1] at hee
    subst hee
    refine ⟨e', he', fun a z hb => ?_⟩
    show setSegs z ((k, (j : Int)) :: r₁ :: r₂) e'.2 = _
    rw [setSegs_more, if_pos (Int.natCast_nonneg j)]
    simp only [Int.toNat_natCast]
    rw [applyEnt.eq_def, h1]
    rw [arrOf_pad_eq (z.get? k) a (j + 1) hb]

theorem objOf_ok (z : VObj) (k : String) (o : VObj) (hc : canonO z = true)
    (hb : bindingOk (z.get? k) (.obj o)) :
    canonO (objOf (z.get? k)) = true ∧ approxO (objOf (z.get? k)) o = true := by
  rcases hb with hb | ⟨zv, hzv, hap⟩
  · rw [hb, objOf_none]
    exact ⟨canonO_nil, approxO_nil o⟩
  · obtain ⟨zm, rfl, hapo⟩ := approxB_obj_right zv o hap
    rw [hzv, objOf_obj]
    have hcz : canonO zm = true := by
      have := canonO_get? z k (.obj zm) hc hzv
      rw [canonV_obj] at this
      exact this
    exact ⟨hcz, hapo⟩

theorem item_sub_ok (z : VObj) (k : String) (a : VList) (j : Nat) (o : VObj)
    (hc : canonO z = true) (hb : bindingOk (z.get? k) (.arr a))
    (hx : a.get? j = some (.obj o)) (hjle : j + 1 ≤ a.length) :
    canonO (objOf (((arrOf (z.get? k) 0).padTo (j + 1)).get? j)) = true ∧
      approxO (objOf (((arrOf (z.get? k) 0).padTo (j + 1)).get? j)) o = true := by
  have hcb : canonL (arrOf (z.get? k) 0) = true := by
    rcases hb with hb | ⟨zv, hzv, hap⟩
    · rw [hb, arrOf_none]
      exact canonL_nulls 0
    · obtain ⟨za, rfl, -⟩ := approxB_arr_right zv a hap
      rw [hzv, arrOf_arr]
      have := canonO_get? z k (.arr za) hc hzv
      rw [canonV_arr] at this
      exact this
  have hab : approxL (arrOf (z.get? k) 0) a = true := by
    rcases hb with hb | ⟨zv, hzv, hap⟩
    · rw [hb, arrOf_none]
      exact approxL_nil a
    · obtain ⟨za, rfl, hapl⟩ := approxB_arr_right zv a hap
      rw [hzv, arrOf_arr]
      exact hapl
  have hcP : canonL ((arrOf (z.get? k) 0).padTo (j + 1)) = true := canonL_padTo _ _ hcb
  have haP : approxL ((arrOf (z.get? k) 0).padTo (j + 1)) a = true :=
    approxL_padTo _ _ a hab hjle
  rcases hpj : ((arrOf (z.get? k) 0).padTo (j + 1)).get? j with _ | px
  · rw [objOf_none]
    exact ⟨canonO_nil, approxO_nil o⟩
  · obtain ⟨dx, hdx, happx⟩ := approxL_get?_left _ a j px haP hpj
    rw [hx, Option.some_inj] at hdx
    subst hdx
    rcases approxE_obj_right px o happx with rfl | ⟨zm, rfl, hzo⟩
    · exact ⟨canonO_nil, approxO_nil o⟩
    · rw [objOf_obj]
      have := canonL_get? _ j (.obj zm) hcP hpj
      rw [canonV_obj] at this
      exact ⟨this, hzo⟩

end KCR

namespace KCR

theorem VList.padTo_set_of_lt (x : VList) (j : Nat) (y : Value) (h : j < x.length) :
    (x.set j y).padTo (j + 1) = x.set j y :=
  VList.padTo_of_le _ _ (by rw [VList.length_set]; omega)

/-- Two flattened entries of a well-formed document commute on admissible
states. -/
theorem applyEnt_comm : ∀ (dm : VObj), wfO dm = true →
    ∀ e₁ ∈ entObj dm, ∀ e₂ ∈ entObj dm, ∀ z : VObj,
    canonO z = true → approxO z dm = true →
    applyEnt (applyEnt z e₁) e₂ = applyEnt (applyEnt z e₂) e₁
  | dm, hwf, e₁, hm₁, e₂, hm₂, z, hc, ha => by
    obtain ⟨k₁, dv₁, hget₁, hkey₁⟩ := entObj_mem dm hwf e₁ hm₁
    obtain ⟨k₂, dv₂, hget₂, hkey₂⟩ := entObj_mem dm hwf e₂ hm₂
    by_cases hk : k₁ = k₂
    case neg =>
      obtain ⟨F₁, hF₁⟩ := apply_shape k₁ dv₁ e₁ hkey₁
      obtain ⟨F₂, hF₂⟩ := apply_shape k₂ dv₂ e₂ hkey₂
      have hb₁ := bindingOk_of_state z dm k₁ dv₁ ha hget₁
      have hb₂ := bindingOk_of_state z dm k₂ dv₂ ha hget₂
      rw [hF₁ z hb₁, hF₂ z hb₂]
      have hb₂' : bindingOk ((z.set k₁ (F₁ (z.get? k₁))).get? k₂) dv₂ := by
        rw [VObj.get?_set_ne z k₂ k₁ _ hk]
        exact hb₂
      have hb₁' : bindingOk ((z.set k₂ (F₂ (z.get? k₂))).get? k₁) dv₁ := by
        rw [VObj.get?_set_ne z k₁ k₂ _ (fun he => hk he.symm)]
        exact hb₁
      rw [hF₂ _ hb₂', hF₁ _ hb₁']
      rw [VObj.get?_set_ne z k₂ k₁ _ hk, VObj.get?_set_ne z k₁ k₂ _ (fun he => hk he.symm)]
      exact VObj.set_comm z k₁ k₂ _ _ hk
    case pos =>
      subst hk
      have hdd : dv₁ = dv₂ := by
        rw [hget₁] at hget₂
        exact Option.some_inj.mp hget₂
      subst hdd
      have hdv := wfO_get? dm k₁ dv₁ hwf hget₁
      cases dv₁ with
      | null => rw [wfV_null] at hdv; exact Bool.noConfusion hdv
      | bool b =>
        have he₁ : e₁ = ([(k₁, -1)], .bool b) := hkey₁
        have he₂ : e₂ = ([(k₁, -1)], .bool b) := hkey₂
        rw [he₁, he₂]
      | int n =>
        have he₁ : e₁ = ([(k₁, -1)], .int n) := hkey₁
        have he₂ : e₂ = ([(k₁, -1)], .int n) := hkey₂
        rw [he₁, he₂]
      | float n d =>
        have he₁ : e₁ = ([(k₁, -1)], .float n d) := hkey₁
        have he₂ : e₂ = ([(k₁, -1)], .float n d) := hkey₂
        rw [he₁, he₂]
      | str s =>
        have he₁ : e₁ = ([(k₁, -1)], .str s) := hkey₁
        have he₂ : e₂ = ([(k₁, -1)], .str s) := hkey₂
        rw [he₁, he₂]
      | obj o =>
        have hwo : wfO o = true := by
          rw [wfV_obj] at hdv
          simp only [Bool.and_eq_true] at hdv
          exact hdv.2
        have hszo : sizeOf o < sizeOf dm := by
          have h1 := sizeOf_get_obj dm k₁ (.obj o) hget₁
          simp only [Value.obj.sizeOf_spec] at h1
          omega
        obtain ⟨e₁', he₁', hsh₁⟩ := objent_shape k₁ o e₁ hkey₁
        obtain ⟨e₂', he₂', hsh₂⟩ := objent_shape k₁ o e₂ hkey₂
        have hb := bindingOk_of_state z dm k₁ (.obj o) ha hget₁
        have hsub := objOf_ok z k₁ o hc hb
        have hs₁ := applyEnt_preserve dm hwf e₁ hm₁ z hc ha
        have hs₂ := applyEnt_preserve dm hwf e₂ hm₂ z hc ha
        have hb₁' := bindingOk_of_state (applyEnt z e₁) dm k₁ (.obj o) hs₁.2 hget₁
        have hb₂' := bindingOk_of_state (applyEnt z e₂) dm k₁ (.obj o) hs₂.2 hget₁
        rw [hsh₂ (applyEnt z e₁) hb₁', hsh₁ (applyEnt z e₂) hb₂', hsh₁ z hb, hsh₂ z hb]
        rw [VObj.get?_set_self, objOf_obj, VObj.get?_set_self, objOf_obj]
        rw [VObj.set_set_self, VObj.set_set_self]
        rw [applyEnt_comm o hwo e₁' he₁' e₂' he₂' (objOf (z.get? k₁)) hsub.1 hsub.2]
      | arr a =>
        have hwl : wfL a = true := by
          rw [wfV_arr] at hdv
          simp only [Bool.and_eq_true] at hdv
          exact hdv.1
        have hsza : sizeOf a < sizeOf dm := by
          have h1 := sizeOf_get_obj dm k₁ (.arr a) hget₁
          simp only [Value.arr.sizeOf_spec] at h1
          omega
        have hb := bindingOk_of_state z dm k₁ (.arr a) ha hget₁
        rcases hkey₁ with hw₁ | hi₁ <;> rcases hkey₂ with hw₂ | hi₂
        · rw [hw₁, hw₂]
        · -- whole then item
          rw [hw₁]
          have h₁eq : applyEnt z ([(k₁, -1)], .arr a) = z.set k₁ (.arr a) := by
            show setSegs z [(k₁, -1)] (.arr a) = _
            rw [setSegs_one, if_neg (by decide : ¬ (0 : Int) ≤ -1)]
          rw [h₁eq]
          have htr : applyEnt (z.set k₁ (.arr a)) e₂ = z.set k₁ (.arr a) :=
            truthItems a k₁ (z.set k₁ (.arr a)) hwl
              (canonO_set z k₁ _ hc (by rw [canonV_arr]; exact wfL_canonL a hwl))
              (VObj.get?_set_self z k₁ _) e₂ hi₂
          rw [htr]
          obtain ⟨j₂, x₂, -, hx₂, hkey₂'⟩ := entItems_mem a k₁ 0 e₂ hi₂
          rw [Nat.sub_zero] at hx₂
          obtain ⟨W₂, hW₂⟩ := item_shape k₁ a j₂ x₂ e₂ hkey₂'
          rw [hW₂ z hb]
          have h₁eq' : applyEnt (z.set k₁ (.arr (((arrOf (z.get? k₁) 0).padTo (j₂ + 1)).set j₂
              (W₂ (((arrOf (z.get? k₁) 0).padTo (j₂ + 1)).get? j₂))))) ([(k₁, -1)], .arr a) =
              (z.set k₁ (.arr (((arrOf (z.get? k₁) 0).padTo (j₂ + 1)).set j₂
                (W₂ (((arrOf (z.get? k₁) 0).padTo (j₂ + 1)).get? j₂))))).set k₁ (.arr a) := by
            show setSegs _ [(k₁, -1)] (.arr a) = _
            rw [setSegs_one, if_neg (by decide : ¬ (0 : Int) ≤ -1)]
          rw [h₁eq', VObj.set_set_self]
        · -- item then whole
          rw [hw₂]
          have h₂eq : applyEnt z ([(k₁, -1)], .arr a) = z.set k₁ (.arr a) := by
            show setSegs z [(k₁, -1)] (.arr a) = _
            rw [setSegs_one, if_neg (by decide : ¬ (0 : Int) ≤ -1)]
          rw [h₂eq]
          have htr : applyEnt (z.set k₁ (.arr a)) e₁ = z.set k₁ (.arr a) :=
            truthItems a k₁ (z.set k₁ (.arr a)) hwl
              (canonO_set z k₁ _ hc (by rw [canonV_arr]; exact wfL_canonL a hwl))
              (VObj.get?_set_self z k₁ _) e₁ hi₁
          rw [htr]
          obtain ⟨j₁, x₁, -, hx₁, hkey₁'⟩ := entItems_mem a k₁ 0 e₁ hi₁
          rw [Nat.sub_zero] at hx₁
          obtain ⟨W₁, hW₁⟩ := item_shape k₁ a j₁ x₁ e₁ hkey₁'
          rw [hW₁ z hb]
          have h₂eq' : applyEnt (z.set k₁ (.arr (((arrOf (z.get? k₁) 0).padTo (j₁ + 1)).set j₁
              (W₁ (((arrOf (z.get? k₁) 0).padTo (j₁ + 1)).get? j₁))))) ([(k₁, -1)], .arr a) =
              (z.set k₁ (.arr (((arrOf (z.get? k₁) 0).padTo (j₁ + 1)).set j₁
                (W₁ (((arrOf (z.get? k₁) 0).padTo (j₁ + 1)).get? j₁))))).set k₁ (.arr a) := by
            show setSegs _ [(k₁, -1)] (.arr a) = _
            rw [setSegs_one, if_neg (by decide : ¬ (0 : Int) ≤ -1)]
          rw [h₂eq', VObj.set_set_self]
        · -- item and item
          obtain ⟨j₁, x₁, -, hx₁, hkey₁'⟩ := entItems_mem a k₁ 0 e₁ hi₁
          obtain ⟨j₂, x₂, -, hx₂, hkey₂'⟩ := entItems_mem a k₁ 0 e₂ hi₂
          rw [Nat.sub_zero] at hx₁ hx₂
          have hjle₁ : j₁ + 1 ≤ a.length := VList.get?_lt_length a j₁ x₁ hx₁
          have hjle₂ : j₂ + 1 ≤ a.length := VList.get?_lt_length a j₂ x₂ hx₂
          have hs₁ := applyEnt_preserve dm hwf e₁ hm₁ z hc ha
          have hs₂ := applyEnt_preserve dm hwf e₂ hm₂ z hc ha
          have hb₁' := bindingOk_of_state (applyEnt z e₁) dm k₁ (.arr a) hs₁.2 hget₁
          have hb₂' := bindingOk_of_state (applyEnt z e₂) dm k₁ (.arr a) hs₂.2 hget₁
          by_cases hj : j₁ = j₂
          case pos =>
            subst hj
            have hxx : x₁ = x₂ := by
              rw [hx₁] at hx₂
              exact Option.some_inj.mp hx₂
            subst hxx
            cases x₁ with
            | null =>
              have he₁ : e₁ = ([(k₁, (j₁ : Int))], .null) := hkey₁'
              have he₂ : e₂ = ([(k₁, (j₁ : Int))], .null) := hkey₂'
              rw [he₁, he₂]
            | bool b =>
              have he₁ : e₁ = ([(k₁, (j₁ : Int))], .bool b) := hkey₁'
              have he₂ : e₂ = ([(k₁, (j₁ : Int))], .bool b) := hkey₂'
              rw [he₁, he₂]
            | int n =>
              have he₁ : e₁ = ([(k₁, (j₁ : Int))], .int n) := hkey₁'
              have he₂ : e₂ = ([(k₁, (j₁ : Int))], .int n) := hkey₂'
              rw [he₁, he₂]
            | float n d =>
              have he₁ : e₁ = ([(k₁, (j₁ : Int))], .float n d) := hkey₁'
              have he₂ : e₂ = ([(k₁, (j₁ : Int))], .float n d) := hkey₂'
              rw [he₁, he₂]
            | str s =>
              have he₁ : e₁ = ([(k₁, (j₁ : Int))], .str s) := hkey₁'
              have he₂ : e₂ = ([(k₁, (j₁ : Int))], .str s) := hkey₂'
              rw [he₁, he₂]
            | arr a' =>
              have he₁ : e₁ = ([(k₁, (j₁ : Int))], .arr a') := hkey₁'
              have he₂ : e₂ = ([(k₁, (j₁ : Int))], .arr a') := hkey₂'
              rw [he₁, he₂]
            | obj o =>
              have hwo : wfO o = true := by
                have hwx := wfL_get? a j₁ (.obj o) hwl hx₁
                rw [wfV_obj] at hwx
                simp only [Bool.and_eq_true] at hwx
                exact hwx.2
              have hszo : sizeOf o < sizeOf dm := by
                have h2 := sizeOf_get_list a j₁ (.obj o) hx₁
                simp only [Value.obj.sizeOf_spec] at h2
                omega
              obtain ⟨e₁', he₁', hsh₁⟩ := itemobj_shape k₁ j₁ o e₁ hkey₁'
              obtain ⟨e₂', he₂', hsh₂⟩ := itemobj_shape k₁ j₁ o e₂ hkey₂'
              have hsub := item_sub_ok z k₁ a j₁ o hc hb hx₁ hjle₁
              have hPlen : j₁ < ((arrOf (z.get? k₁) 0).padTo (j₁ + 1)).length := by
                rw [VList.length_padTo]
                omega
              rw [hsh₂ a (applyEnt z e₁) hb₁', hsh₁ a (applyEnt z e₂) hb₂',
                hsh₁ a z hb, hsh₂ a z hb]
              rw [VObj.get?_set_self, VObj.get?_set_self]
              rw [arrOf_arr, arrOf_arr]
              rw [VList.padTo_set_of_lt _ j₁ _ hPlen, VList.padTo_set_of_lt _ j₁ _ hPlen]
              rw [VList.get_set_self_list _ j₁ _ hPlen, VList.get_set_self_list _ j₁ _ hPlen]
              rw [objOf_obj, objOf_obj]
              rw [VObj.set_set_self, VObj.set_set_self]
              rw [VList.set_set_self_list, VList.set_set_self_list]
              rw [applyEnt_comm o hwo e₁' he₁' e₂' he₂'
                (objOf (((arrOf (z.get? k₁) 0).padTo (j₁ + 1)).get? j₁)) hsub.1 hsub.2]
          case neg =>
            obtain ⟨W₁, hW₁⟩ := item_shape k₁ a j₁ x₁ e₁ hkey₁'
            obtain ⟨W₂, hW₂⟩ := item_shape k₁ a j₂ x₂ e₂ hkey₂'
            have hPlen₁ : j₁ < ((arrOf (z.get? k₁) 0).padTo (j₁ + 1)).length := by
              rw [VList.length_padTo]
              omega
            have hPlen₂ : j₂ < ((arrOf (z.get? k₁) 0).padTo (j₂ + 1)).length := by
              rw [VList.length_padTo]
              omega
            rw [hW₂ (applyEnt z e₁) hb₁', hW₁ (applyEnt z e₂) hb₂', hW₁ z hb, hW₂ z hb]
            rw [VObj.get?_set_self, VObj.get?_set_self]
            rw [arrOf_arr, arrOf_arr]
            rw [VList.padTo_set_all _ j₁ _ (j₂ + 1) hPlen₁,
              VList.padTo_set_all _ j₂ _ (j₁ + 1) hPlen₂]
            rw [VList.padTo_padTo, VList.padTo_padTo]
            rw [Nat.max_comm (j₂ + 1) (j₁ + 1)]
            rw [VList.get_set_ne_list _ j₁ j₂ _ hj,
              VList.get_set_ne_list _ j₂ j₁ _ (fun he => hj he.symm)]
            rw [← VList.get?_padTo_mono (arrOf (z.get? k₁) 0) j₁ (j₁ + 1)
              (max (j₁ + 1) (j₂ + 1)) (by omega) (by omega)]
            rw [← VList.get?_padTo_mono (arrOf (z.get? k₁) 0) j₂ (j₂ + 1)
              (max (j₁ + 1) (j₂ + 1)) (by omega) (by omega)]
            rw [VObj.set_set_self, VObj.set_set_self]
            rw [VList.set_comm_list _ j₁ j₂ _ _ hj]
termination_by dm _ e₁ _ e₂ _ z _ _ => sizeOf dm
decreasing_by
  all_goals simp_wf
  all_goals omega

end KCR

namespace KCR

theorem foldl_fixed : ∀ (l : List (List Seg × Value)) (z : VObj),
    (∀ e ∈ l, applyEnt z e = z) → l.foldl applyEnt z = z
  | [], _, _ => rfl
  | e :: l', z, h => by
    rw [List.foldl_cons, h e (List.mem_cons_self _ _)]
    exact foldl_fixed l' z (fun e' he' => h e' (List.mem_cons_of_mem _ he'))

theorem entObj_nonempty : ∀ (m : VObj), wfO m = true → m ≠ .nil → entObj m ≠ []
  | .nil, _, hm => absurd rfl hm
  | .cons k v tl, hwf, _ => by
    rw [entObj_cons]
    intro hcontra
    rcases List.append_eq_nil.mp hcontra with ⟨h1, -⟩
    rw [wfO_cons] at hwf
    simp only [Bool.and_eq_true] at hwf
    obtain ⟨⟨⟨hk, hv⟩, -⟩, -⟩ := hwf
    cases v with
    | obj o =>
      rw [wfV_obj] at hv
      simp only [Bool.and_eq_true] at hv
      have honil : o ≠ .nil := by
        intro ho
        rw [ho] at hv
        exact Bool.noConfusion hv.1
      have := entObj_nonempty o hv.2 honil
      rw [List.map_eq_nil] at h1
      exact this h1
    | arr a => exact List.cons_ne_nil _ _ h1
    | null => exact List.cons_ne_nil _ _ h1
    | bool b => exact List.cons_ne_nil _ _ h1
    | int n => exact List.cons_ne_nil _ _ h1
    | float n d => exact List.cons_ne_nil _ _ h1
    | str s => exact List.cons_ne_nil _ _ h1

theorem lift_step (k : String) (o : VObj) (e : List Seg × Value) (he : e ∈ entObj o)
    (z : VObj) (hbnd : z.get? k = none ∨ ∃ zm, z.get? k = some (.obj zm)) :
    applyEnt z ((k, -1) :: e.1, e.2) = z.set k (.obj (applyEnt (objOf (z.get? k)) e)) := by
  have hne := entObj_ne_nil o e he
  rcases h1 : e.1 with _ | ⟨r₁, r₂⟩
  · exact absurd h1 hne
  · show setSegs z ((k, -1) :: r₁ :: r₂) e.2 = _
    rw [applyEnt.eq_def, h1]
    rw [setSegs_more, if_neg (by decide : ¬ (0 : Int) ≤ -1)]
    rcases hbnd with hb | ⟨zm, hb⟩
    · rw [hb]
      rfl
    · rw [hb]
      rfl

theorem foldl_lift (k : String) (o : VObj) : ∀ (l : List (List Seg × Value)), l ≠ [] →
    (∀ e ∈ l, e ∈ entObj o) → ∀ z : VObj,
    (z.get? k = none ∨ ∃ zm, z.get? k = some (.obj zm)) →
    (l.map (fun e => ((k, -1) :: e.1, e.2))).foldl applyEnt z =
      z.set k (.obj (l.foldl applyEnt (objOf (z.get? k))))
  | [], hne, _, _, _ => absurd rfl hne
  | [e], _, hmem, z, hbnd => by
    rw [List.map_cons, List.map_nil, List.foldl_cons, List.foldl_nil, List.foldl_cons,
      List.foldl_nil]
    exact lift_step k o e (hmem e (List.mem_cons_self _ _)) z hbnd
  | e :: e' :: l', _, hmem, z, hbnd => by
    rw [List.map_cons, List.foldl_cons, List.foldl_cons]
    rw [lift_step k o e (hmem e (List.mem_cons_self _ _)) z hbnd]
    rw [foldl_lift k o (e' :: l') (List.cons_ne_nil _ _)
      (fun x hx => hmem x (List.mem_cons_of_mem _ hx))
      (z.set k (.obj (applyEnt (objOf (z.get? k)) e)))
      (Or.inr ⟨_, VObj.get?_set_self z k _⟩)]
    rw [VObj.get?_set_self, objOf_obj, VObj.set_set_self]

theorem foldl_frame (k : String) (v : Value) (tl : VObj) (hwtl : wfO tl = true)
    (hklt : ∀ y ∈ tl.keys, strLt k y = true) :
    ∀ (l : List (List Seg × Value)), (∀ e ∈ l, e ∈ entObj tl) → ∀ Z : VObj,
    canonO Z = true → approxO Z tl = true →
    l.foldl applyEnt (VObj.cons k v Z) = .cons k v (l.foldl applyEnt Z)
  | [], _, Z, _, _ => rfl
  | e :: l', hmem, Z, hc, ha => by
    obtain ⟨k₂, dv, hget, hkeyed⟩ := entObj_mem tl hwtl e (hmem e (List.mem_cons_self _ _))
    have hlt : strLt k k₂ = true := hklt k₂ (VObj.get?_mem_keys tl k₂ dv hget)
    have hne : k ≠ k₂ := by
      intro heq
      subst heq
      rw [strLt_irrefl] at hlt
      exact Bool.noConfusion hlt
    obtain ⟨F, hF⟩ := apply_shape k₂ dv e hkeyed
    have hbZ := bindingOk_of_state Z tl k₂ dv ha hget
    have hbS : bindingOk ((VObj.cons k v Z).get? k₂) dv := by
      rw [VObj.get?, if_neg hne]
      exact hbZ
    rw [List.foldl_cons, List.foldl_cons]
    rw [hF (VObj.cons k v Z) hbS, hF Z hbZ]
    rw [show (VObj.cons k v Z).get? k₂ = Z.get? k₂ from by rw [VObj.get?, if_neg hne]]
    rw [VObj.set_cons, if_neg hne, if_neg (by rw [strLt_asymm hlt]; exact Bool.noConfusion)]
    have hstep := applyEnt_preserve tl hwtl e (hmem e (List.mem_cons_self _ _)) Z hc ha
    have hZ' : applyEnt Z e = Z.set k₂ (F (Z.get? k₂)) := hF Z hbZ
    rw [← hZ']
    exact foldl_frame k v tl hwtl hklt l'
      (fun x hx => hmem x (List.mem_cons_of_mem _ hx))
      (applyEnt Z e) hstep.1 hstep.2

end KCR

namespace KCR

mutual
/-- Folding the flattened entries of a well-formed document into the empty
map, in representation order, rebuilds the document. -/
theorem foldl_entObj : ∀ (m : VObj), wfO m = true →
    (entObj m).foldl applyEnt VObj.nil = m
  | .nil, _ => by rw [entObj_nil]; rfl
  | .cons k v tl, hwf => by
    have hklt := wfO_head_lt tl k v hwf
    have hwf' := hwf
    rw [wfO_cons] at hwf'
    simp only [Bool.and_eq_true] at hwf'
    obtain ⟨⟨⟨hk, hv⟩, -⟩, htl⟩ := hwf'
    rw [entObj_cons, List.foldl_append]
    have hhead := foldl_head k v hv
    rw [entObj_cons, entObj_nil, List.append_nil] at hhead
    rw [hhead]
    rw [foldl_frame k v tl htl hklt (entObj tl) (fun e he => he) VObj.nil canonO_nil
      (approxO_nil tl)]
    rw [foldl_entObj tl htl]

/-- Folding the head entries of a single binding into the empty map builds
that binding. -/
theorem foldl_head : ∀ (k : String) (v : Value), wfV v = true →
    (entObj (VObj.cons k v VObj.nil)).foldl applyEnt VObj.nil = VObj.cons k v VObj.nil
  | k, .null, hv => absurd hv (by rw [wfV_null]; decide)
  | k, .bool b, _ => by
    rw [entObj_cons, entObj_nil, List.append_nil, List.foldl_cons, List.foldl_nil]
    show setSegs VObj.nil [(k, -1)] (.bool b) = _
    rw [setSegs_one, if_neg (by decide : ¬ (0 : Int) ≤ -1), VObj.set_nil]
  | k, .int n, _ => by
    rw [entObj_cons, entObj_nil, List.append_nil, List.foldl_cons, List.foldl_nil]
    show setSegs VObj.nil [(k, -1)] (.int n) = _
    rw [setSegs_one, if_neg (by decide : ¬ (0 : Int) ≤ -1), VObj.set_nil]
  | k, .float n d, _ => by
    rw [entObj_cons, entObj_nil, List.append_nil, List.foldl_cons, List.foldl_nil]
    show setSegs VObj.nil [(k, -1)] (.float n d) = _
    rw [setSegs_one, if_neg (by decide : ¬ (0 : Int) ≤ -1), VObj.set_nil]
  | k, .str s, _ => by
    rw [entObj_cons, entObj_nil, List.append_nil, List.foldl_cons, List.foldl_nil]
    show setSegs VObj.nil [(k, -1)] (.str s) = _
    rw [setSegs_one, if_neg (by decide : ¬ (0 : Int) ≤ -1), VObj.set_nil]
  | k, .obj o, hv => by
    rw [wfV_obj] at hv
    simp only [Bool.and_eq_true] at hv
    have honil : o ≠ .nil := by
      intro ho
      rw [ho] at hv
      exact Bool.noConfusion hv.1
    have hne := entObj_nonempty o hv.2 honil
    rw [entObj_cons, entObj_nil, List.append_nil]
    rw [foldl_lift k o (entObj o) hne (fun e he => he) VObj.nil (Or.inl rfl)]
    rw [VObj.set_nil]
    rw [show objOf (VObj.nil.get? k) = VObj.nil from rfl]
    rw [foldl_entObj o hv.2]
  | k, .arr a, hv => by
    rw [wfV_arr] at hv
    simp only [Bool.and_eq_true] at hv
    rw [entObj_cons, entObj_nil, List.append_nil, List.foldl_cons]
    have h1 : applyEnt VObj.nil ([(k, -1)], .arr a) = VObj.cons k (.arr a) VObj.nil := by
      show setSegs VObj.nil [(k, -1)] (.arr a) = _
      rw [setSegs_one, if_neg (by decide : ¬ (0 : Int) ≤ -1), VObj.set_nil]
    rw [h1]
    refine foldl_fixed (entItems k 0 a) _ (fun e he => ?_)
    have hcS : canonO (VObj.cons k (.arr a) VObj.nil) = true := by
      rw [canonO_cons]
      show (canonV (.arr a) && true && true) = true
      rw [canonV_arr, wfL_canonL a hv.1]
      rfl
    exact truthItems a k _ hv.1 hcS (by rw [VObj.get?, if_pos rfl]) e he
end

end KCR

namespace KCR

/-- Folding the flattened entries in any order gives the same result on
admissible states. -/
theorem foldl_perm (dm : VObj) (hwf : wfO dm = true) :
    ∀ (l l' : List (List Seg × Value)), l.Perm l' →
    (∀ e ∈ l, e ∈ entObj dm) → ∀ z : VObj, canonO z = true → approxO z dm = true →
    l.foldl applyEnt z = l'.foldl applyEnt z := by
  intro l l' hp
  induction hp with
  | nil =>
    intro _ z _ _
    rfl
  | cons e p ih =>
    intro hmem z hc ha
    rw [List.foldl_cons, List.foldl_cons]
    have hstep := applyEnt_preserve dm hwf e (hmem e (List.mem_cons_self _ _)) z hc ha
    exact ih (fun x hx => hmem x (List.mem_cons_of_mem _ hx)) (applyEnt z e) hstep.1 hstep.2
  | swap x y l =>
    intro hmem z hc ha
    rw [List.foldl_cons, List.foldl_cons, List.foldl_cons, List.foldl_cons]
    rw [applyEnt_comm dm hwf y
      (hmem y (List.mem_cons_self _ _)) x
      (hmem x (List.mem_cons_of_mem _ (List.mem_cons_self _ _))) z hc ha]
  | trans p₁ p₂ ih₁ ih₂ =>
    intro hmem z hc ha
    rw [ih₁ hmem z hc ha]
    exact ih₂ (fun x hx => hmem x (p₁.mem_iff.mpr hx)) z hc ha

end KCR

namespace KCR

theorem str_assoc (a b c : String) : a ++ b ++ c = a ++ (b ++ c) := by
  apply String.ext
  rw [String.data_append, String.data_append, String.data_append, String.data_append]
  exact List.append_assoc _ _ _

theorem str_nil_append (s : String) : "" ++ s = s := by
  apply String.ext
  rw [String.data_append]
  rfl

theorem str_dot_data (s : String) : ("." ++ s).data = '.' :: s.data := by
  rw [String.data_append]
  rfl

theorem parsePathAux_dot_nil (rest : List Char) :
    parsePathAux ('.' :: rest) [] false = parsePathAux rest [] false := by
  rw [parsePathAux, if_pos rfl, if_pos rfl]

theorem serializeSeg_neg (k : String) : serializeSeg (k, -1) = k := by
  simp [serializeSeg]

theorem serializeSeg_nat (k : String) (i : Nat) :
    serializeSeg (k, (i : Int)) = k ++ "[" ++ natToStr i ++ "]" := by
  rw [serializeSeg, if_pos (Int.natCast_nonneg i)]
  rw [show ((k, (i : Int)).2.toNat) = i from Int.toNat_natCast i]

theorem serializePath_nil : serializePath [] = "" := by rw [serializePath.eq_def]

theorem serializePath_one (s : Seg) : serializePath [s] = serializeSeg s := by
  rw [serializePath.eq_def]

theorem serializePath_cons2 (s r₁ : Seg) (r₂ : List Seg) :
    serializePath (s :: r₁ :: r₂) = serializeSeg s ++ "." ++ serializePath (r₁ :: r₂) := by
  rw [serializePath.eq_def]

theorem flattenMap_nil_eq (pre : String) : flattenMap .nil pre = [] := by
  rw [flattenMap.eq_def]

theorem flattenMap_cons_eq (k : String) (v : Value) (tl : VObj) (pre : String) :
    flattenMap (.cons k v tl) pre =
      (match v with
       | .obj o => flattenMap o (pre ++ "." ++ k)
       | .arr a => (pre ++ "." ++ k, Value.arr a) :: flattenItems a (pre ++ "." ++ k) 0
       | u => [(pre ++ "." ++ k, u)]) ++ flattenMap tl pre := by
  rw [flattenMap.eq_def]

theorem flattenItems_nil_eq (path : String) (i : Nat) : flattenItems .nil path i = [] := by
  rw [flattenItems.eq_def]

theorem flattenItems_cons_eq (x : Value) (xs : VList) (path : String) (i : Nat) :
    flattenItems (.cons x xs) path i =
      (match x with
       | .obj o => flattenMap o (path ++ "[" ++ natToStr i ++ "]")
       | u => [(path ++ "[" ++ natToStr i ++ "]", u)]) ++ flattenItems xs path (i + 1) := by
  rw [flattenItems.eq_def]

theorem wfKey_spec (k : String) (h : wfKey k = true) :
    k ≠ "" ∧ '.' ∉ k.data ∧ '[' ∉ k.data := by
  rw [wfKey] at h
  simp only [Bool.and_eq_true, Bool.not_eq_true'] at h
  obtain ⟨⟨h1, h2⟩, h3⟩ := h
  refine ⟨by simpa using h1, ?_, ?_⟩
  · intro hmem
    have hc : k.data.contains '.' = true := List.elem_iff.mpr hmem
    rw [h2] at hc
    exact Bool.noConfusion hc
  · intro hmem
    have hc : k.data.contains '[' = true := List.elem_iff.mpr hmem
    rw [h3] at hc
    exact Bool.noConfusion hc

theorem wfO_get?_key : ∀ (m : VObj) (k : String) (dv : Value),
    wfO m = true → m.get? k = some dv → wfKey k = true
  | .nil, k, dv, _, hg => by rw [VObj.get?] at hg; exact absurd hg (by simp)
  | .cons k' v tl, k, dv, hw, hg => by
    rw [wfO_cons] at hw
    simp only [Bool.and_eq_true] at hw
    rw [VObj.get?] at hg
    by_cases hk : k' = k
    · exact hk ▸ hw.1.1.1
    · rw [if_neg hk] at hg
      exact wfO_get?_key tl k dv hw.2 hg

end KCR

namespace KCR

mutual
theorem entObj_wfSegs : ∀ (dm : VObj), wfO dm = true → ∀ e ∈ entObj dm, ∀ s ∈ e.1, wfSeg s
  | dm, hwf, e, he => by
    obtain ⟨k, dv, hget, hkeyed⟩ := entObj_mem dm hwf e he
    have hkey := wfO_get?_key dm k dv hwf hget
    obtain ⟨hk1, hk2, hk3⟩ := wfKey_spec k hkey
    have hdv := wfO_get? dm k dv hwf hget
    have hsegm1 : wfSeg (k, -1) := ⟨hk1, hk2, hk3, Or.inl rfl⟩
    cases dv with
    | null => rw [wfV_null] at hdv; exact Bool.noConfusion hdv
    | bool b =>
      have he2 : e = ([(k, -1)], .bool b) := hkeyed
      subst he2
      intro s hs
      rw [List.mem_singleton.mp hs]
      exact hsegm1
    | int n =>
      have he2 : e = ([(k, -1)], .int n) := hkeyed
      subst he2
      intro s hs
      rw [List.mem_singleton.mp hs]
      exact hsegm1
    | float n d =>
      have he2 : e = ([(k, -1)], .float n d) := hkeyed
      subst he2
      intro s hs
      rw [List.mem_singleton.mp hs]
      exact hsegm1
    | str s' =>
      have he2 : e = ([(k, -1)], .str s') := hkeyed
      subst he2
      intro s hs
      rw [List.mem_singleton.mp hs]
      exact hsegm1
    | obj o =>
      have hwo : wfO o = true := by
        rw [wfV_obj] at hdv
        simp only [Bool.and_eq_true] at hdv
        exact hdv.2
      have hszo : sizeOf o < sizeOf dm := by
        have h1 := sizeOf_get_obj dm k (.obj o) hget
        simp only [Value.obj.sizeOf_spec] at h1
        omega
      obtain ⟨e', he', hee⟩ := hkeyed
      subst hee
      intro s hs
      rcases List.mem_cons.mp hs with hs | hs
      · rw [hs]
        exact hsegm1
      · exact entObj_wfSegs o hwo e' he' s hs
    | arr a =>
      have hwl : wfL a = true := by
        rw [wfV_arr] at hdv
        simp only [Bool.and_eq_true] at hdv
        exact hdv.1
      have hlen : a.length < 2 ^ 63 := by
        rw [wfV_arr] at hdv
        simp only [Bool.and_eq_true, decide_eq_true_eq] at hdv
        exact hdv.2
      have hsza : sizeOf a < sizeOf dm := by
        have h1 := sizeOf_get_obj dm k (.arr a) hget
        simp only [Value.arr.sizeOf_spec] at h1
        omega
      rcases hkeyed with hwhole | hitem
      · subst hwhole
        intro s hs
        rw [List.mem_singleton.mp hs]
        exact hsegm1
      · exact entItems_wfSegs a k 0 hwl hkey (by omega) e hitem
termination_by dm _ e _ => sizeOf dm
decreasing_by
  all_goals simp_wf
  all_goals omega

theorem entItems_wfSegs : ∀ (a : VList) (k : String) (i : Nat), wfL a = true →
    wfKey k = true → i + a.length ≤ 2 ^ 63 → ∀ e ∈ entItems k i a, ∀ s ∈ e.1, wfSeg s
  | a, k, i, hwl, hkey, hbound, e, he => by
    obtain ⟨j, x, hij, hget, hkeyed⟩ := entItems_mem a k i e he
    obtain ⟨hk1, hk2, hk3⟩ := wfKey_spec k hkey
    have hjlen := VList.get?_lt_length a (j - i) x hget
    have hseg : wfSeg (k, (j : Int)) :=
      ⟨hk1, hk2, hk3, Or.inr ⟨Int.natCast_nonneg j, by omega⟩⟩
    have hwx := wfL_get? a (j - i) x hwl hget
    cases x with
    | obj o =>
      have hwo : wfO o = true := by
        rw [wfV_obj] at hwx
        simp only [Bool.and_eq_true] at hwx
        exact hwx.2
      have hszo : sizeOf o < sizeOf a := by
        have h2 := sizeOf_get_list a (j - i) (.obj o) hget
        simp only [Value.obj.sizeOf_spec] at h2
        omega
      obtain ⟨e', he', hee⟩ := hkeyed
      subst hee
      intro s hs
      rcases List.mem_cons.mp hs with hs | hs
      · rw [hs]
        exact hseg
      · exact entObj_wfSegs o hwo e' he' s hs
    | null =>
      have he2 : e = ([(k, (j : Int))], .null) := hkeyed
      subst he2
      intro s hs
      rw [List.mem_singleton.mp hs]
      exact hseg
    | bool b =>
      have he2 : e = ([(k, (j : Int))], .bool b) := hkeyed
      subst he2
      intro s hs
      rw [List.mem_singleton.mp hs]
      exact hseg
    | int n =>
      have he2 : e = ([(k, (j : Int))], .int n) := hkeyed
      subst he2
      intro s hs
      rw [List.mem_singleton.mp hs]
      exact hseg
    | float n d =>
      have he2 : e = ([(k, (j : Int))], .float n d) := hkeyed
      subst he2
      intro s hs
      rw [List.mem_singleton.mp hs]
      exact hseg
    | str s' =>
      have he2 : e = ([(k, (j : Int))], .str s') := hkeyed
      subst he2
      intro s hs
      rw [List.mem_singleton.mp hs]
      exact hseg
    | arr a' =>
      have he2 : e = ([(k, (j : Int))], .arr a') := hkeyed
      subst he2
      intro s hs
      rw [List.mem_singleton.mp hs]
      exact hseg
termination_by a _ _ _ _ _ e _ => sizeOf a
decreasing_by
  all_goals simp_wf
  all_goals omega
end

end KCR

namespace KCR

mutual
/-- `flattenMap` is the segment-level flattening with serialized dotted
paths. -/
theorem flattenMap_entObj : ∀ (m : VObj) (pre : String),
    flattenMap m pre = (entObj m).map (fun e => (pre ++ "." ++ serializePath e.1, e.2))
  | .nil, pre => by rw [flattenMap_nil_eq, entObj_nil]; rfl
  | .cons k (.obj o) tl, pre => by
    rw [flattenMap_cons_eq, entObj_cons]
    show flattenMap o (pre ++ "." ++ k) ++ flattenMap tl pre =
      (((entObj o).map (fun e => ((k, -1) :: e.1, e.2))) ++ entObj tl).map
        (fun e => (pre ++ "." ++ serializePath e.1, e.2))
    rw [List.map_append, flattenMap_entObj tl pre, flattenMap_entObj o (pre ++ "." ++ k)]
    congr 1
    rw [List.map_map]
    refine List.map_congr_left (fun e' he' => ?_)
    have hne := entObj_ne_nil o e' he'
    rcases h1 : e'.1 with _ | ⟨r₁, r₂⟩
    · exact absurd h1 hne
    · show (pre ++ "." ++ k ++ "." ++ serializePath (r₁ :: r₂), e'.2) =
        (pre ++ "." ++ serializePath ((k, -1) :: e'.1), e'.2)
      rw [h1, serializePath_cons2, serializeSeg_neg]
      simp only [str_assoc]
  | .cons k (.arr a) tl, pre => by
    rw [flattenMap_cons_eq, entObj_cons]
    show ((pre ++ "." ++ k, Value.arr a) :: flattenItems a (pre ++ "." ++ k) 0) ++
        flattenMap tl pre =
      ((([(k, -1)], Value.arr a) :: entItems k 0 a) ++ entObj tl).map
        (fun e => (pre ++ "." ++ serializePath e.1, e.2))
    rw [List.map_append, flattenMap_entObj tl pre]
    congr 1
    rw [List.map_cons, flattenItems_entItems a k pre 0]
    congr 1
    try simp only [serializePath_one, serializeSeg_neg]
  | .cons k .null tl, pre => by
    rw [flattenMap_cons_eq, entObj_cons]
    show [(pre ++ "." ++ k, Value.null)] ++ flattenMap tl pre =
      (([([(k, -1)], Value.null)] : List (List Seg × Value)) ++ entObj tl).map
        (fun e => (pre ++ "." ++ serializePath e.1, e.2))
    rw [List.map_append, flattenMap_entObj tl pre]
    congr 1
    try simp only [List.map_cons, List.map_nil, serializePath_one, serializeSeg_neg]
  | .cons k (.bool b) tl, pre => by
    rw [flattenMap_cons_eq, entObj_cons]
    show [(pre ++ "." ++ k, Value.bool b)] ++ flattenMap tl pre =
      (([([(k, -1)], Value.bool b)] : List (List Seg × Value)) ++ entObj tl).map
        (fun e => (pre ++ "." ++ serializePath e.1, e.2))
    rw [List.map_append, flattenMap_entObj tl pre]
    congr 1
    try simp only [List.map_cons, List.map_nil, serializePath_one, serializeSeg_neg]
  | .cons k (.int n) tl, pre => by
    rw [flattenMap_cons_eq, entObj_cons]
    show [(pre ++ "." ++ k, Value.int n)] ++ flattenMap tl pre =
      (([([(k, -1)], Value.int n)] : List (List Seg × Value)) ++ entObj tl).map
        (fun e => (pre ++ "." ++ serializePath e.1, e.2))
    rw [List.map_append, flattenMap_entObj tl pre]
    congr 1
    try simp only [List.map_cons, List.map_nil, serializePath_one, serializeSeg_neg]
  | .cons k (.float n d) tl, pre => by
    rw [flattenMap_cons_eq, entObj_cons]
    show [(pre ++ "." ++ k, Value.float n d)] ++ flattenMap tl pre =
      (([([(k, -1)], Value.float n d)] : List (List Seg × Value)) ++ entObj tl).map
        (fun e => (pre ++ "." ++ serializePath e.1, e.2))
    rw [List.map_append, flattenMap_entObj tl pre]
    congr 1
    try simp only [List.map_cons, List.map_nil, serializePath_one, serializeSeg_neg]
  | .cons k (.str s') tl, pre => by
    rw [flattenMap_cons_eq, entObj_cons]
    show [(pre ++ "." ++ k, Value.str s')] ++ flattenMap tl pre =
      (([([(k, -1)], Value.str s')] : List (List Seg × Value)) ++ entObj tl).map
        (fun e => (pre ++ "." ++ serializePath e.1, e.2))
    rw [List.map_append, flattenMap_entObj tl pre]
    congr 1
    try simp only [List.map_cons, List.map_nil, serializePath_one, serializeSeg_neg]

/-- `flattenItems` is the segment-level item flattening with serialized
bracketed paths. -/
theorem flattenItems_entItems : ∀ (a : VList) (k : String) (pre : String) (i : Nat),
    flattenItems a (pre ++ "." ++ k) i =
      (entItems k i a).map (fun e => (pre ++ "." ++ serializePath e.1, e.2))
  | .nil, k, pre, i => by rw [flattenItems_nil_eq, entItems_nil]; rfl
  | .cons (.obj o) xs, k, pre, i => by
    rw [flattenItems_cons_eq, entItems_cons]
    show flattenMap o (pre ++ "." ++ k ++ "[" ++ natToStr i ++ "]") ++
        flattenItems xs (pre ++ "." ++ k) (i + 1) =
      (((entObj o).map (fun e => ((k, (i : Int)) :: e.1, e.2))) ++ entItems k (i + 1) xs).map
        (fun e => (pre ++ "." ++ serializePath e.1, e.2))
    rw [List.map_append, flattenItems_entItems xs k pre (i + 1),
      flattenMap_entObj o (pre ++ "." ++ k ++ "[" ++ natToStr i ++ "]")]
    congr 1
    rw [List.map_map]
    refine List.map_congr_left (fun e' he' => ?_)
    have hne := entObj_ne_nil o e' he'
    rcases h1 : e'.1 with _ | ⟨r₁, r₂⟩
    · exact absurd h1 hne
    · show (pre ++ "." ++ k ++ "[" ++ natToStr i ++ "]" ++ "." ++ serializePath (r₁ :: r₂),
          e'.2) =
        (pre ++ "." ++ serializePath ((k, (i : Int)) :: e'.1), e'.2)
      rw [h1, serializePath_cons2, serializeSeg_nat]
      simp only [str_assoc]
  | .cons .null xs, k, pre, i => by
    rw [flattenItems_cons_eq, entItems_cons]
    show [(pre ++ "." ++ k ++ "[" ++ natToStr i ++ "]", Value.null)] ++
        flattenItems xs (pre ++ "." ++ k) (i + 1) =
      (([([(k, (i : Int))], Value.null)] : List (List Seg × Value)) ++ entItems k (i + 1) xs).map
        (fun e => (pre ++ "." ++ serializePath e.1, e.2))
    rw [List.map_append, flattenItems_entItems xs k pre (i + 1)]
    congr 1
    try simp only [List.map_cons, List.map_nil, serializePath_one, serializeSeg_nat]
    try simp only [str_assoc]
  | .cons (.bool b) xs, k, pre, i => by
    rw [flattenItems_cons_eq, entItems_cons]
    show [(pre ++ "." ++ k ++ "[" ++ natToStr i ++ "]", Value.bool b)] ++
        flattenItems xs (pre ++ "." ++ k) (i + 1) =
      (([([(k, (i : Int))], Value.bool b)] : List (List Seg × Value)) ++
        entItems k (i + 1) xs).map (fun e => (pre ++ "." ++ serializePath e.1, e.2))
    rw [List.map_append, flattenItems_entItems xs k pre (i + 1)]
    congr 1
    try simp only [List.map_cons, List.map_nil, serializePath_one, serializeSeg_nat]
    try simp only [str_assoc]
  | .cons (.int n) xs, k, pre, i => by
    rw [flattenItems_cons_eq, entItems_cons]
    show [(pre ++ "." ++ k ++ "[" ++ natToStr i ++ "]", Value.int n)] ++
        flattenItems xs (pre ++ "." ++ k) (i + 1) =
      (([([(k, (i : Int))], Value.int n)] : List (List Seg × Value)) ++
        entItems k (i + 1) xs).map (fun e => (pre ++ "." ++ serializePath e.1, e.2))
    rw [List.map_append, flattenItems_entItems xs k pre (i + 1)]
    congr 1
    try simp only [List.map_cons, List.map_nil, serializePath_one, serializeSeg_nat]
    try simp only [str_assoc]
  | .cons (.float n d) xs, k, pre, i => by
    rw [flattenItems_cons_eq, entItems_cons]
    show [(pre ++ "." ++ k ++ "[" ++ natToStr i ++ "]", Value.float n d)] ++
        flattenItems xs (pre ++ "." ++ k) (i + 1) =
      (([([(k, (i : Int))], Value.float n d)] : List (List Seg × Value)) ++
        entItems k (i + 1) xs).map (fun e => (pre ++ "." ++ serializePath e.1, e.2))
    rw [List.map_append, flattenItems_entItems xs k pre (i + 1)]
    congr 1
    try simp only [List.map_cons, List.map_nil, serializePath_one, serializeSeg_nat]
    try simp only [str_assoc]
  | .cons (.str s') xs, k, pre, i => by
    rw [flattenItems_cons_eq, entItems_cons]
    show [(pre ++ "." ++ k ++ "[" ++ natToStr i ++ "]", Value.str s')] ++
        flattenItems xs (pre ++ "." ++ k) (i + 1) =
      (([([(k, (i : Int))], Value.str s')] : List (List Seg × Value)) ++
        entItems k (i + 1) xs).map (fun e => (pre ++ "." ++ serializePath e.1, e.2))
    rw [List.map_append, flattenItems_entItems xs k pre (i + 1)]
    congr 1
    try simp only [List.map_cons, List.map_nil, serializePath_one, serializeSeg_nat]
    try simp only [str_assoc]
  | .cons (.arr a') xs, k, pre, i => by
    rw [flattenItems_cons_eq, entItems_cons]
    show [(pre ++ "." ++ k ++ "[" ++ natToStr i ++ "]", Value.arr a')] ++
        flattenItems xs (pre ++ "." ++ k) (i + 1) =
      (([([(k, (i : Int))], Value.arr a')] : List (List Seg × Value)) ++
        entItems k (i + 1) xs).map (fun e => (pre ++ "." ++ serializePath e.1, e.2))
    rw [List.map_append, flattenItems_entItems xs k pre (i + 1)]
    congr 1
    try simp only [List.map_cons, List.map_nil, serializePath_one, serializeSeg_nat]
    try simp only [str_assoc]
end

end KCR

namespace KCR

theorem buildNestedMap_foldSegs (l : List (String × Value)) :
    buildNestedMap l = (l.map (fun p => (parsePathSegs p.1, p.2))).foldl applyEnt VObj.nil := by
  rw [buildNestedMap, List.foldl_map]
  have hfun : (fun (acc : VObj) (e : String × Value) => setNestedValue acc e.1 e.2) =
      fun (acc : VObj) (p : String × Value) => applyEnt acc (parsePathSegs p.1, p.2) := by
    funext acc p
    rw [setNestedValue, setParts_eq_setSegs]
    rfl
  rw [hfun]

theorem parse_dot_serialize (p : List Seg) (hwf : ∀ s ∈ p, wfSeg s) :
    parsePathSegs ("" ++ "." ++ serializePath p) = p := by
  rw [str_nil_append]
  have h1 : parsePath ("." ++ serializePath p) = parsePath (serializePath p) := by
    unfold parsePath
    rw [str_dot_data, parsePathAux_dot_nil]
  unfold parsePathSegs
  rw [h1]
  have h2 := parseSerialize_id p hwf
  unfold parsePathSegs at h2
  exact h2

/-- **C3**: for every well-formed document `d` (no `nil` leaves, nonempty
maps, keys free of `.` and `[`, arrays of `int` length — the decidable
reading of "no ambiguous shape clashes"), assembling the flattening of `d`
reproduces `d`: `buildNestedMap` applied to the entries of
`flattenMap d ""` in any order (any permutation, modelling Go's
unspecified map range order) equals `d`. -/
theorem claim_C3 (d : VObj) (hwf : wfO d = true) (l : List (String × Value))
    (hperm : l.Perm (flattenMap d "")) : buildNestedMap l = d := by
  rw [buildNestedMap_foldSegs]
  have hmap : (flattenMap d "").map (fun p => (parsePathSegs p.1, p.2)) = entObj d := by
    rw [flattenMap_entObj d "", List.map_map]
    have hid : ∀ e ∈ entObj d,
        ((fun p : String × Value => (parsePathSegs p.1, p.2)) ∘
          (fun e : List Seg × Value => ("" ++ "." ++ serializePath e.1, e.2))) e = id e := by
      intro e he
      show (parsePathSegs ("" ++ "." ++ serializePath e.1), e.2) = e
      rw [parse_dot_serialize e.1 (entObj_wfSegs d hwf e he)]
    rw [List.map_congr_left hid, List.map_id]
  have hpl : (l.map (fun p => (parsePathSegs p.1, p.2))).Perm (entObj d) := by
    rw [← hmap]
    exact hperm.map _
  rw [foldl_perm d hwf _ (entObj d) hpl (fun e he => hpl.mem_iff.mp he) VObj.nil
    canonO_nil (approxO_nil d)]
  exact foldl_entObj d hwf

theorem claim_C3_witness :
    buildNestedMap
      [(".c.d", Value.bool true), (".a[1].b", Value.str "x"), (".a[0]", Value.int 1),
       (".a", Value.arr (VList.cons (.int 1)
         (VList.cons (.obj (VObj.cons "b" (.str "x") VObj.nil)) VList.nil)))] =
    VObj.cons "a" (.arr (VList.cons (.int 1)
        (VList.cons (.obj (VObj.cons "b" (.str "x") VObj.nil)) VList.nil)))
      (VObj.cons "c" (.obj (VObj.cons "d" (.bool true) VObj.nil)) VObj.nil) :=
  claim_C3
    (VObj.cons "a" (.arr (VList.cons (.int 1)
        (VList.cons (.obj (VObj.cons "b" (.str "x") VObj.nil)) VList.nil)))
      (VObj.cons "c" (.obj (VObj.cons "d" (.bool true) VObj.nil)) VObj.nil))
    (by decide)
    [(".c.d", Value.bool true), (".a[1].b", Value.str "x"), (".a[0]", Value.int 1),
     (".a", Value.arr (VList.cons (.int 1)
       (VList.cons (.obj (VObj.cons "b" (.str "x") VObj.nil)) VList.nil)))]
    (by decide)

end KCR
